import Mathlib

/-!
Verification development for the entity-matching engine of the
`pers_dashboard` repository (`src/product_er_toolkit.py` and
`src/manufacturer_alias_manager.py`).

Modelling conventions, used throughout:

* Python strings are modelled as `List Char` (abbreviated `Str`).
* Python floats are modelled as rationals (`ℚ`); floating-point rounding is
  abstracted away (all constants of the engine are small decimal literals).
* `str.upper()` / `str.lower()` are modelled on the ASCII range (all characters
  that the engine treats specially — letters used in suffix catalogs, OCR
  characters `O`, `I`, `l`, separators — are ASCII).
* Python dictionaries that map keys to accumulated lists are modelled as
  association lists (`List (key × value)`) with insertion-order semantics,
  matching CPython's insertion-ordered `dict`.
* `re` patterns are modelled by bespoke matching functions, one per pattern,
  written to follow the leftmost / greedy / lazy backtracking semantics of the
  concrete pattern they model.
-/

namespace PER

/-! ### Basic character classes and string helpers -/

/-- Python string type in this model. -/
abbrev Str := List Char

/-- Python `\s` / `str.strip()` whitespace class (ASCII part): space, tab,
newline, carriage return, vertical tab, form feed. -/
def pyWs (c : Char) : Bool :=
  c.toNat = 32 || c.toNat = 9 || c.toNat = 10 || c.toNat = 13 ||
  c.toNat = 11 || c.toNat = 12

/-- Python `str.upper` on one character (ASCII model): `a`-`z` map to `A`-`Z`,
everything else is unchanged. -/
def pyUpperChar (c : Char) : Char :=
  if 97 ≤ c.toNat && c.toNat ≤ 122 then Char.ofNat (c.toNat - 32) else c

/-- Python `str.lower` on one character (ASCII model). -/
def pyLowerChar (c : Char) : Char :=
  if 65 ≤ c.toNat && c.toNat ≤ 90 then Char.ofNat (c.toNat + 32) else c

/-- Python `s.upper()`. -/
def upperS (s : Str) : Str := s.map pyUpperChar

/-- Python `s.lower()`. -/
def lowerS (s : Str) : Str := s.map pyLowerChar

/-- Python `s.strip()`: drop leading and trailing whitespace. -/
def pyStrip (s : Str) : Str := ((s.dropWhile pyWs).reverse.dropWhile pyWs).reverse

/-- Worker for `subRuns`: the flag records whether the previous character was
part of a run of non-`keep` characters (already replaced). -/
def subRunsGo (keep : Char → Bool) (r : Char) : Bool → Str → Str
  | _, [] => []
  | inRun, c :: cs =>
    if keep c then c :: subRunsGo keep r false cs
    else if inRun then subRunsGo keep r true cs
    else r :: subRunsGo keep r true cs

/-- Replace every maximal run of characters failing `keep` by the single
character `r`: models `re.sub("[^cls]+", r, s)` where `keep` decides `cls`. -/
def subRuns (keep : Char → Bool) (r : Char) (s : Str) : Str :=
  subRunsGo keep r false s

/-- Worker for `pySplit`, accumulating the current token in reverse. -/
def pySplitGo : Str → Str → List Str
  | acc, [] => if acc = [] then [] else [acc.reverse]
  | acc, c :: cs =>
    if pyWs c then
      (if acc = [] then pySplitGo [] cs else acc.reverse :: pySplitGo [] cs)
    else pySplitGo (c :: acc) cs

/-- Python `s.split()` with no argument: maximal runs of non-whitespace. -/
def pySplit (s : Str) : List Str := pySplitGo [] s

/-- Python `" ".join(tokens)`. -/
def joinSp : List Str → Str
  | [] => []
  | [t] => t
  | t :: t' :: ts => t ++ ' ' :: joinSp (t' :: ts)

/-- Python `s.replace("&", " AND ")` (`product_er_toolkit.py` line 21). -/
def replaceAmp (s : Str) : Str :=
  s.flatMap (fun c => if c = '&' then " AND ".toList else [c])

/-- Character class `[A-Z0-9 ]` of the canonicalizer's keep-regex
(`product_er_toolkit.py` line 22). -/
def isCanonChar (c : Char) : Bool :=
  (65 ≤ c.toNat && c.toNat ≤ 90) || (48 ≤ c.toNat && c.toNat ≤ 57) || c.toNat = 32

/-- Corporate-suffix vocabulary `CORP_SUFFIXES`
(`product_er_toolkit.py` line 17). -/
def CORP_SUFFIXES : List Str :=
  (["INC", "INC.", "LLC", "L.L.C.", "LTD", "LTD.", "LIMITED", "CO", "CO.",
    "CORP", "CORP.", "CORPORATION", "GMBH", "AG", "BV", "B.V.", "S.A.", "SAS",
    "PLC", "P.L.C.", "PTE", "PTY", "AB", "OY", "KK", "K.K.", "SA", "S.P.A.",
    "SRL", "S.R.L.", "TECHNOLOGIES", "SYSTEMS", "SOLUTIONS", "SERVICES",
    "ENTERPRISES", "INDUSTRIES", "INTERNATIONAL", "WORLDWIDE", "GLOBAL",
    "GROUP", "COMPANY", "COMPANIES"].map String.toList)

/-- The `while tokens and tokens[-1] in CORP_SUFFIXES: tokens = tokens[:-1]`
loop of `canonicalize_name` (`product_er_toolkit.py` lines 25-26). -/
def dropTrailingCorp (ts : List Str) : List Str :=
  (ts.reverse.dropWhile (fun t => decide (t ∈ CORP_SUFFIXES))).reverse

/-- Token list produced inside `canonicalize_name`
(`product_er_toolkit.py` lines 21-26): uppercase, `&` → `" AND "`, strip all
characters outside `[A-Z0-9 ]` (runs become one space), collapse whitespace and
strip, split into tokens, drop trailing corporate suffixes. -/
def canonToks (s : Str) : List Str :=
  dropTrailingCorp (pySplit (pyStrip
    (subRuns (fun c => !pyWs c) ' ' (subRuns isCanonChar ' ' (replaceAmp (upperS s))))))

/-- Python `canonicalize_name` (`product_er_toolkit.py` lines 19-27).
Non-string input (line 20) cannot arise in this typed model. -/
def canonicalize_name (s : Str) : Str := joinSp (canonToks s)

/-! ### Levenshtein distance -/

/-- Reference definition of Levenshtein distance: the textbook recursion on
first characters; the minimum number of single-character insertions, deletions
and substitutions transforming one string into the other (established against
the edit-script characterization `EChain` below). -/
def levRec : Str → Str → Nat
  | [], bs => bs.length
  | a :: as, [] => (a :: as).length
  | a :: as, b :: bs =>
    min (levRec as bs + (if a = b then 0 else 1))
      (min (levRec as (b :: bs) + 1) (levRec (a :: as) bs + 1))

/-- Inner loop of `levenshtein` (`product_er_toolkit.py` lines 434-436):
compute the cells `v1[j+1]` left to right.  `v0rest` is the tail of the
previous row starting at position `j` (so its head is the diagonal `v0[j]`
and the next element is `v0[j+1]`); `left` is the cell `v1[j]` just
computed. -/
def levRowAux (ai : Char) : Str → List Nat → Nat → List Nat
  | [], _, _ => []
  | bj :: brest, v0rest, left =>
    match v0rest with
    | [] => []
    | d :: rest =>
      let cell := min (left + 1) (min (rest.headD 0 + 1) (d + (if ai = bj then 0 else 1)))
      cell :: levRowAux ai brest rest cell

/-- One iteration of the outer loop of `levenshtein`
(`product_er_toolkit.py` lines 432-437): row `v1` from row `v0`,
with `v1[0] = i + 1`. -/
def levRow (ai : Char) (b : Str) (v0 : List Nat) (i : Nat) : List Nat :=
  (i + 1) :: levRowAux ai b v0 (i + 1)

/-- The outer `for i in range(len(a))` loop of `levenshtein`, threading the
current row (after the `v0, v1 = v1, v0` swap, `v0` always holds the latest
row). -/
def levLoop (b : Str) : Str → List Nat → Nat → List Nat
  | [], v0, _ => v0
  | ai :: arest, v0, i => levLoop b arest (levRow ai b v0 i) (i + 1)

/-- Python `levenshtein` (`product_er_toolkit.py` lines 426-438): the
iterative two-row dynamic program.  The final `v0[len(b)]` is the last entry
of the final row (rows always have length `len(b) + 1`), written here with
`getLastD`. -/
def levenshtein (a b : Str) : Nat :=
  if a = b then 0
  else if a.length = 0 then b.length
  else if b.length = 0 then a.length
  else (levLoop b a (List.range (b.length + 1)) 0).getLastD 0

/-- Single edit step between strings: insert, delete or substitute one
character; `keep` lifts a step over an untouched leading character, so a step
can act at any position. -/
inductive EStep : Str → Str → Prop
  | ins (x : Char) (as : Str) : EStep as (x :: as)
  | del (x : Char) (as : Str) : EStep (x :: as) as
  | sub (x y : Char) (as : Str) : EStep (x :: as) (y :: as)
  | keep (x : Char) {as bs : Str} : EStep as bs → EStep (x :: as) (x :: bs)

/-- `EChain a b n`: `b` is reachable from `a` by `n` single edit steps. -/
inductive EChain : Str → Str → Nat → Prop
  | refl (a : Str) : EChain a a 0
  | step {a b c : Str} {n : Nat} : EStep a b → EChain b c n → EChain a c (n + 1)

/-- Specification row of the two-row dynamic program: the row of reference
distances `levRec arev (revPrefix j)` where `arev` is the reversed processed
prefix of `a` and the `j`-th entry corresponds to the reversed length-`j`
prefix of `b` (`bacc` accumulates it, `btail` is what remains). -/
def specRow (arev : Str) : Str → Str → List Nat
  | bacc, [] => [levRec arev bacc]
  | bacc, bj :: rest => levRec arev bacc :: specRow arev (bj :: bacc) rest

/-! ### BK-tree (`product_er_toolkit.py` lines 799-826)

The `BKTree` class is built with the default `distance_fn`, which is
`levenshtein` (line 801); `generate_candidates` always uses the default.
Children dictionaries are modelled as insertion-ordered association lists.
The Python `search` walks an explicit stack (LIFO), so it visits children in
reversed insertion order; the model below uses direct recursion, which visits
the same nodes and returns the same set of `(term, distance)` pairs in a
different order (only membership in the result is ever used). -/

/-- Node of the `BKTree` (`product_er_toolkit.py` lines 803-805). -/
inductive BKNode where
  | node : Str → List (Nat × BKNode) → BKNode

mutual
/-- Python `BKTree.add` (`product_er_toolkit.py` lines 806-814) on a nonempty
tree: compute `d = distance_fn(term, node.term)`, descend along the child with
edge `d` while one exists, then hang a fresh node. -/
def BKNode.add : BKNode → Str → BKNode
  | .node t ch, term => .node t (BKNode.addIn ch (levenshtein term t) term)
/-- Descend step of `BKTree.add`: if key `k` is present, recurse into that
child; otherwise append `children[k] = Node(term)` (dict insertion order). -/
def BKNode.addIn : List (Nat × BKNode) → Nat → Str → List (Nat × BKNode)
  | [], k, term => [(k, .node term [])]
  | (d, c) :: rest, k, term =>
    if d = k then (d, BKNode.add c term) :: rest
    else (d, c) :: BKNode.addIn rest k term
end

mutual
/-- Python `BKTree.search` (`product_er_toolkit.py` lines 815-826) from a
node: report the node when `d <= max_dist` and recurse into children whose
edge `cd` satisfies `d - max_dist <= cd <= d + max_dist` (computed over the
integers, as in Python). -/
def BKNode.search (q : Str) (maxd : Nat) : BKNode → List (Str × Nat)
  | .node t ch =>
    (if levenshtein q t ≤ maxd then [(t, levenshtein q t)] else []) ++
      BKNode.searchKids q maxd (levenshtein q t) ch
/-- Child loop of `BKTree.search` with the pruning bounds `lo`/`hi`. -/
def BKNode.searchKids (q : Str) (maxd d : Nat) : List (Nat × BKNode) → List (Str × Nat)
  | [] => []
  | (cd, c) :: rest =>
    (if (d : Int) - maxd ≤ (cd : Int) ∧ (cd : Int) ≤ (d : Int) + maxd
     then BKNode.search q maxd c else []) ++ BKNode.searchKids q maxd d rest
end

mutual
/-- All terms stored in a BK-tree node (the node's own term first). -/
def BKNode.terms : BKNode → List Str
  | .node t ch => t :: BKNode.termsKids ch
/-- All terms stored below a children list. -/
def BKNode.termsKids : List (Nat × BKNode) → List Str
  | [] => []
  | (_, c) :: rest => BKNode.terms c ++ BKNode.termsKids rest
end

/-- Python `BKTree.add` including the empty-tree case (`self.tree is None`,
lines 807-808). -/
def BKTree.add : Option BKNode → Str → Option BKNode
  | none, t => some (.node t [])
  | some n, t => some (n.add t)

/-- Python `BKTree.search` including the empty-tree case (line 817). -/
def BKTree.search (q : Str) (maxd : Nat) : Option BKNode → List (Str × Nat)
  | none => []
  | some n => n.search q maxd

/-- Tree obtained by inserting `terms` in order into a fresh `BKTree()`. -/
def buildBK (terms : List Str) : Option BKNode := terms.foldl BKTree.add none

/-- Structural invariant of the BK-tree: every term in the subtree hanging
under edge `cd` of a node is at `levenshtein` distance exactly `cd` from that
node's term (and the subtree is itself well-formed). -/
inductive BKWF : BKNode → Prop
  | mk {t : Str} {ch : List (Nat × BKNode)} :
      (∀ p ∈ ch, ∀ s ∈ BKNode.terms p.2, levenshtein s t = p.1) →
      (∀ p ∈ ch, BKWF p.2) →
      BKWF (.node t ch)

/-! ### UNSPSC helpers and records -/

/-- Python `validate_unspsc` (`product_er_toolkit.py` lines 29-34): true iff
the stripped code is exactly 8 ASCII digits (non-string input cannot arise in
the typed model; `isdigit` is modelled on ASCII digits). -/
def validate_unspsc (u : Str) : Bool :=
  if u = [] then false
  else (pyStrip u).length = 8 && (pyStrip u).all (fun c => 48 ≤ c.toNat && c.toNat ≤ 57)

/-- Python `normalize_unspsc` (`product_er_toolkit.py` lines 36-40): strip
whitespace only (the `None` branch cannot arise in the typed model). -/
def normalize_unspsc (u : Str) : Str := pyStrip u

/-- One catalog record, with the fields read by `build_pair_features` and
`generate_candidates` (absent keys default to the empty string in the Python,
so fields are total here). -/
structure Rec where
  manufacturer : Str
  part_number : Str
  unspsc : Str
  gtin : Str
  title : Str
  description : Str

/-- The feature `unspsc_exact` of `build_pair_features`
(`product_er_toolkit.py` lines 666-668). -/
def bpf_unspsc_exact (a b : Rec) : ℚ :=
  let ua := normalize_unspsc a.unspsc
  let ub := normalize_unspsc b.unspsc
  if ua ≠ [] ∧ ub ≠ [] ∧ ua = ub then 1 else 0

/-- The feature `unspsc_segment_match` (2-digit prefix,
`product_er_toolkit.py` lines 671-672). -/
def bpf_unspsc_segment_match (a b : Rec) : ℚ :=
  let ua := normalize_unspsc a.unspsc
  let ub := normalize_unspsc b.unspsc
  if ua ≠ [] ∧ ub ≠ [] ∧ 2 ≤ ua.length ∧ 2 ≤ ub.length ∧ ua.take 2 = ub.take 2 then 1 else 0

/-- The feature `unspsc_family_match` (4-digit prefix,
`product_er_toolkit.py` lines 673-674). -/
def bpf_unspsc_family_match (a b : Rec) : ℚ :=
  let ua := normalize_unspsc a.unspsc
  let ub := normalize_unspsc b.unspsc
  if ua ≠ [] ∧ ub ≠ [] ∧ 4 ≤ ua.length ∧ 4 ≤ ub.length ∧ ua.take 4 = ub.take 4 then 1 else 0

/-- The feature `unspsc_class_match` (6-digit prefix,
`product_er_toolkit.py` lines 675-676). -/
def bpf_unspsc_class_match (a b : Rec) : ℚ :=
  let ua := normalize_unspsc a.unspsc
  let ub := normalize_unspsc b.unspsc
  if ua ≠ [] ∧ ub ≠ [] ∧ 6 ≤ ua.length ∧ 6 ≤ ub.length ∧ ua.take 6 = ub.take 6 then 1 else 0

/-- The lower-cased concatenation `title + " " + description` used by the text
features of `build_pair_features` (`product_er_toolkit.py` lines 743-744). -/
def textAll (r : Rec) : Str := lowerS (r.title ++ ' ' :: r.description)

/-- The feature `text_tfidf_cos` of `build_pair_features`
(`product_er_toolkit.py` lines 748-758).  The external sklearn
`TfidfVectorizer` + `cosine_similarity` computation is abstracted as the
function `tfidf`; a raised `ValueError` (empty/degenerate vocabulary) is its
`Except.error` case, which the `try/except` catches and turns into `0.0`. -/
def bpf_text_tfidf_cos (tfidf : Str → Str → Except Unit ℚ) (a b : Rec) : ℚ :=
  if pyStrip (textAll a) ≠ [] ∧ pyStrip (textAll b) ≠ [] then
    match tfidf (textAll a) (textAll b) with
    | Except.ok v => v
    | Except.error _ => 0
  else 0

/-! ### Manufacturer alias manager (`manufacturer_alias_manager.py`) -/

/-- ASCII alphanumeric class `[a-zA-Z0-9]`. -/
def isAlnumAscii (c : Char) : Bool :=
  (65 ≤ c.toNat && c.toNat ≤ 90) || (97 ≤ c.toNat && c.toNat ≤ 122) ||
  (48 ≤ c.toNat && c.toNat ≤ 57)

/-- Python `sub in s` substring containment. -/
def strContains (sub : Str) : Str → Bool
  | [] => sub = []
  | c :: cs => sub.isPrefixOf (c :: cs) || strContains sub cs

/-- The `location_words` list of `_is_valid_manufacturer_name`
(`manufacturer_alias_manager.py` lines 221-224). -/
def location_words : List Str :=
  (["switzerland", "germany", "united kingdom", "canada", "france",
    "italy", "japan", "netherlands", "sweden", "norway", "denmark",
    "australia", "brazil", "mexico", "spain", "portugal", "poland",
    "czech", "hungary", "austria", "belgium", "finland", "ireland"].map String.toList)

/-- The `product_words` list of `_is_valid_manufacturer_name`
(`manufacturer_alias_manager.py` lines 232-234). -/
def product_words : List Str :=
  (["corporation", "inc", "llc", "ltd", "co", "company", "group",
    "holdings", "enterprises", "international", "global", "systems",
    "technologies", "solutions", "services", "products", "industries"].map String.toList)

/-- Python `ManufacturerAliasManager._is_valid_manufacturer_name`
(`manufacturer_alias_manager.py` lines 194-245).  The alphanumeric-ratio test
`len(re.sub(r"[^a-zA-Z0-9\s]", "", name)) < len(name) * 0.5` keeps
alphanumerics AND whitespace and is written with integers as
`2 * kept < len`. -/
def is_valid_manufacturer_name (name : Str) : Bool :=
  if name = [] ∨ (pyStrip name).length < 3 then false
  else if (pyStrip name).length < 3 then false
  else if 2 * ((pyStrip name).filter (fun c => isAlnumAscii c || pyWs c)).length
      < (pyStrip name).length then false
  else if location_words.any (fun w => strContains w (lowerS (pyStrip name))) then false
  else if decide (lowerS (pyStrip name) ∈ product_words) then false
  else if (pySplit (lowerS (pyStrip name))).length = 1 ∧
      (pySplit (lowerS (pyStrip name))).headD [] ∈ product_words then false
  else true

/-- Combining diacritical marks block U+0300-U+036F: the model of
`unicodedata.category(c) == "Mn"` for the characters reachable here.  NFD
decomposition of precomposed characters is part of the external `unicodedata`
library and is not modelled (the engine's own logic is ASCII). -/
def isCombiningMark (c : Char) : Bool := 768 ≤ c.toNat && c.toNat ≤ 879

/-- Python `normalize_manufacturer` (`product_er_toolkit.py` lines 42-46):
drop combining marks, then canonicalize. -/
def normalize_manufacturer (s : Str) : Str :=
  canonicalize_name (s.filter (fun c => !isCombiningMark c))

/-- Association-list lookup, modelling Python `dict.get`. -/
def aget {α : Type} (m : List (Str × α)) (k : Str) : Option α :=
  (m.find? (fun p => decide (p.1 = k))).map (·.2)

/-- Association-list assignment, modelling Python `dict[k] = v` (in-place
update of an existing key, else append — CPython insertion order). -/
def aset {α : Type} : List (Str × α) → Str → α → List (Str × α)
  | [], k, v => [(k, v)]
  | (k', v') :: rest, k, v =>
    if k' = k then (k', v) :: rest else (k', v') :: aset rest k v

/-- Association-list in-place value update (for `dict[k].add(x)`). -/
def aupdate {α : Type} : List (Str × α) → Str → (α → α) → List (Str × α)
  | [], _, _ => []
  | (k', v') :: rest, k, f =>
    if k' = k then (k', f v') :: rest else (k', v') :: aupdate rest k f

/-- Python `set.add` on the ordered-list model of a set. -/
def setAdd (s : List Str) (x : Str) : List Str := if x ∈ s then s else s ++ [x]

/-- State of a `ManufacturerAliasManager` (`manufacturer_alias_manager.py`
lines 45-48): the four dictionaries; alias sets are modelled as ordered
duplicate-free lists. -/
structure ManufacturerAliasManager where
  alias_to_canonical : List (Str × Str)
  canonical_to_aliases : List (Str × List Str)
  normalized_to_canonical : List (Str × Str)
  canonical_to_normalized : List (Str × Str)

/-- Python `ManufacturerAliasManager.get_canonical_name`
(`manufacturer_alias_manager.py` lines 333-372): normalize, direct alias
lookup (a falsy — empty — stored value falls through, as `if canonical:`
does), else the name may itself be canonical, else `None`. -/
def get_canonical_name (m : ManufacturerAliasManager) (name : Str) : Option Str :=
  if name = [] then none
  else
    let n := normalize_manufacturer name
    if n = [] then none
    else
      match aget m.alias_to_canonical n with
      | some c =>
        if c ≠ [] then some c
        else if (aget m.canonical_to_aliases n).isSome then some n else none
      | none => if (aget m.canonical_to_aliases n).isSome then some n else none

/-- Python `ManufacturerAliasManager.get_aliases`
(`manufacturer_alias_manager.py` lines 374-403); the `.copy()` is the
identity in this immutable model. -/
def get_aliases (m : ManufacturerAliasManager) (name : Str) : List Str :=
  if name = [] then []
  else
    let n := normalize_manufacturer name
    if n = [] then []
    else (aget m.canonical_to_aliases n).getD []

/-- Python `ManufacturerAliasManager.get_all_aliases_for_name`
(`manufacturer_alias_manager.py` lines 405-424). -/
def get_all_aliases_for_name (m : ManufacturerAliasManager) (name : Str) : List Str :=
  match get_canonical_name m name with
  | some c => get_aliases m c
  | none =>
    let n := normalize_manufacturer name
    if n ≠ [] then [n] else []

/-- Python `ManufacturerAliasManager.add_manual_alias`
(`manufacturer_alias_manager.py` lines 463-487). -/
def add_manual_alias (m : ManufacturerAliasManager) (canonical_name alias_name : Str) :
    ManufacturerAliasManager :=
  let cn := normalize_manufacturer canonical_name
  let an := normalize_manufacturer alias_name
  if cn ≠ [] ∧ an ≠ [] then
    let m1 := if (aget m.canonical_to_aliases cn).isSome then m.canonical_to_aliases
              else aset m.canonical_to_aliases cn []
    { alias_to_canonical := aset m.alias_to_canonical an cn
      canonical_to_aliases := aupdate m1 cn (fun s => setAdd s an)
      canonical_to_normalized := aset m.canonical_to_normalized cn canonical_name
      normalized_to_canonical := aset m.normalized_to_canonical cn cn }
  else m

/-! ### Part-number variant generation (`product_er_toolkit.py` lines 48-424)

The Python iterates over `set` objects in several places (collected prefixes,
the variant set); CPython's iteration order over a `set` is hash-dependent.
The model uses first-insertion order (`setAdd` / `dedupList`) instead, a
deterministic representative.  None of the verified properties depend on the
order of these lists, only on their members. -/

/-- ASCII letter class `[A-Za-z]`. -/
def isAsciiLetter (c : Char) : Bool :=
  (65 ≤ c.toNat && c.toNat ≤ 90) || (97 ≤ c.toNat && c.toNat ≤ 122)

/-- ASCII digit class `[0-9]`. -/
def isDigitC (c : Char) : Bool := 48 ≤ c.toNat && c.toNat ≤ 57

/-- Uppercase vowel test `c in 'AEIOU'`. -/
def isVowelU (c : Char) : Bool :=
  c = 'A' || c = 'E' || c = 'I' || c = 'O' || c = 'U'

/-- First-occurrence deduplication, the deterministic model of `list(set(…))`
and of iterating a Python `set` built by successive `add`s. -/
def dedupList (l : List Str) : List Str := l.foldl setAdd []

/-- Strategy 5 of `_generate_manufacturer_prefixes` (lines 99-112): first
character plus each consonant immediately following a vowel. -/
def sylGo : Str → Bool → Str
  | [], _ => []
  | c :: cs, prevV =>
    if prevV && !isVowelU c then c :: sylGo cs (isVowelU c)
    else sylGo cs (isVowelU c)

/-- The prefix-relevance score of `_generate_manufacturer_prefixes`
(lines 118-126), with `max_len = 6` as at the call site. -/
def score_pref (name p : Str) : Int :=
  (6 - (p.length : Int)) * 2 +
  (if p.headD ' ' = name.headD ' ' then 5 else -10) +
  ((p.filter (fun c => !isVowelU c)).length : Int)

/-- Python `_generate_manufacturer_prefixes(name, min_len=2, max_len=6)`
(`product_er_toolkit.py` lines 48-131), as called from
`_extract_manufacturer_prefix`.  The `lru_cache` is pure memoization.  The
five strategies are collected into a deduplicated list (set model), filtered
to lengths 2-6, stably sorted by descending relevance score, and capped
at 8. -/
def generate_manufacturer_prefixes (name0 : Str) : List Str :=
  let name := pyStrip (upperS name0)
  if name = [] then []
  else
    let lens := [2, 3, 4, 5, 6]
    let s1 := lens.filterMap (fun k => if k ≤ name.length then some (name.take k) else none)
    let consonants := name.filter (fun c => !isVowelU c)
    let s2 := lens.filterMap (fun k =>
      if k ≤ consonants.length then some (consonants.take k) else none)
    let words := pySplit (name.map (fun c => if c = '-' || c = '_' then ' ' else c))
    let s3 :=
      if 1 < words.length then
        let acronym := words.filterMap List.head?
        (if 2 ≤ acronym.length ∧ acronym.length ≤ 6 then [acronym] else []) ++
        (if 6 < acronym.length then [acronym.take 6] else [])
      else []
    let s4 :=
      (if 2 < name.length then [[name.headD ' ', name.getLastD ' ']] else []) ++
      (if 3 < name.length then [name.headD ' ' :: name.drop (name.length - 2)] else [])
    let syl := name.headD ' ' :: sylGo (name.drop 1) (isVowelU (name.headD ' '))
    let s5 := lens.filterMap (fun k => if k ≤ syl.length then some (syl.take k) else none)
    let prefixes := dedupList (s1 ++ s2 ++ s3 ++ s4 ++ s5)
    let valid := prefixes.filter (fun p => 2 ≤ p.length && p.length ≤ 6)
    (valid.insertionSort (fun p q => score_pref name q ≤ score_pref name p)).take 8

/-- The known-prefix set of `_extract_manufacturer_prefix` (lines 200-206):
generated prefixes plus the first word of the manufacturer name.  (For a
whitespace-only truthy name Python would raise on `split()[0]`; that input is
unreachable from `pn_variants`, which passes a canonicalized name.) -/
def knownPrefixes (m : Str) : List Str :=
  setAdd (List.foldl setAdd [] ((generate_manufacturer_prefixes m).map upperS))
    ((pySplit (upperS m)).headD [])

/-- Separator class `[-_/.\s]` of the first prefix pattern. -/
def isSepP1 (c : Char) : Bool :=
  c = '-' || c = '_' || c = '/' || c = '.' || pyWs c

/-- The test for letter count `k` of the first prefix pattern: `k` letters,
a separator, then at least one non-newline character. -/
def p1cond (s : Str) (k : Nat) : Bool :=
  decide (k < s.length) && (s.take k).all isAsciiLetter && isSepP1 (s.getD k ' ') &&
  decide (k + 1 < s.length) && !decide (s.getD (k + 1) ' ' = '\n')

/-- Model of `re.match(r"^([A-Za-z]{2,6})[-_/.\s](.+)", pn)` (line 210):
greedy letter count `k` from 6 down to 2, then a separator, then at least one
non-newline character; `group(2)` is the maximal newline-free run after the
separator.  Returns `(group(1).upper(), group(2))`. -/
def matchP1 (s : Str) : Option (Str × Str) :=
  match [6, 5, 4, 3, 2].find? (p1cond s) with
  | some k => some (upperS (s.take k), (s.drop (k + 1)).takeWhile (fun c => !decide (c = '\n')))
  | none => none

/-- The test for letter count `k` of the second prefix pattern: `k` letters,
a digit, then at least one non-newline character. -/
def p2cond (s : Str) (k : Nat) : Bool :=
  decide (k < s.length) && (s.take k).all isAsciiLetter && isDigitC (s.getD k ' ') &&
  decide (k + 1 < s.length) && !decide (s.getD (k + 1) ' ' = '\n')

/-- Model of `re.match(r"^([A-Za-z]{2,6})([0-9].+)", pn)` (line 211):
greedy letter count `k`, then a digit, then at least one non-newline
character; `group(2)` is the digit followed by the maximal newline-free
run. -/
def matchP2 (s : Str) : Option (Str × Str) :=
  match [6, 5, 4, 3, 2].find? (p2cond s) with
  | some k =>
    some (upperS (s.take k),
      s.getD k ' ' :: (s.drop (k + 1)).takeWhile (fun c => !decide (c = '\n')))
  | none => none

/-- Membership of the five separator characters checked by
`_extract_manufacturer_prefix` in `pn[:len(prefix)+1]` (line 247). -/
def hasSepSpace (t : Str) : Bool :=
  t.contains '-' || t.contains '_' || t.contains '/' || t.contains '.' || t.contains ' '

/-- The candidate validation and scoring of `_extract_manufacturer_prefix`
(lines 223-248): `none` models the `continue` on too-short groups, otherwise
the score (`100`/`50` per known-prefix relation, `-1` for generic matches,
plus prefix length and separator bonus when positive). -/
def candScore (known : List Str) (pn pfx rem : Str) : Option Int :=
  if rem ≠ [] ∧ 2 ≤ rem.length ∧ 2 ≤ pfx.length then
    some (
      let base : Int :=
        if known ≠ [] then
          if pfx ∈ known then 100
          else if known.any (fun kp => kp.isPrefixOf pfx || pfx.isPrefixOf kp) then 50
          else -1
        else -1
      if 0 < base then
        base + pfx.length + (if hasSepSpace (pn.take (pfx.length + 1)) then 10 else 0)
      else base)
  else none

/-- The generic fallback of `_extract_manufacturer_prefix` (lines 255-264):
validity check for one pattern's match. -/
def fbCheck (c : Option (Str × Str)) : Option (Str × Str) :=
  match c with
  | some pr => if pr.2 ≠ [] ∧ 2 ≤ pr.2.length ∧ 2 ≤ pr.1.length then some pr else none
  | none => none

/-- One iteration of the `for pattern in patterns` loop of
`_extract_manufacturer_prefix` (lines 218-250), folding the current best
`(match, score)` through one pattern's result. -/
def empStep (known : List Str) (pn : Str) (acc : (Str × Str) × Int) (c : Option (Str × Str)) :
    (Str × Str) × Int :=
  match c with
  | none => acc
  | some pr =>
    match candScore known pn pr.1 pr.2 with
    | none => acc
    | some sc => if acc.2 < sc then (pr, sc) else acc

/-- The known-prefix set as a function of the optional manufacturer name
(lines 200-206, with the `if manufacturer_name:` truthiness guard). -/
def knownOf (mfr : Option Str) : List Str :=
  match mfr with
  | some m => if m ≠ [] then knownPrefixes m else []
  | none => []

/-- Python `_extract_manufacturer_prefix` (`product_er_toolkit.py`
lines 183-266).  The Python binds `best_match, best_score` once; the model
repeats the fold expression instead of a `let`. -/
def extract_manufacturer_pref (pn : Str) (mfr : Option Str) : Str × Str :=
  if pn = [] then ([], pn)
  else if ([matchP1 pn, matchP2 pn].foldl (empStep (knownOf mfr) pn) (([], pn), -1)).2 < 0
      ∧ mfr.getD [] = [] then
    match (fbCheck (matchP1 pn)).orElse (fun _ => fbCheck (matchP2 pn)) with
    | some pr => pr
    | none => ([matchP1 pn, matchP2 pn].foldl (empStep (knownOf mfr) pn) (([], pn), -1)).1
  else ([matchP1 pn, matchP2 pn].foldl (empStep (knownOf mfr) pn) (([], pn), -1)).1

/-- One alternative of a unit-suffix pattern: a case-insensitive literal, or a
literal followed by one to three digits (`rev\d{1,3}` etc.). -/
inductive AltSpec where
  | lit : Str → AltSpec
  | litD : Str → AltSpec

/-- Try the alternatives (in pattern order) at a fixed position `t`: the
alternative must match a prefix of `t` case-insensitively and leave an
all-whitespace tail (the `\s*$` of the pattern); for `litD`, the digit count
is tried greedily (3, then 2, then 1).  Returns the matched text in its
original case. -/
def matchAltAt : List AltSpec → Str → Option Str
  | [], _ => none
  | AltSpec.lit l :: rest, t =>
    if l.length ≤ t.length ∧ lowerS (t.take l.length) = l ∧ (t.drop l.length).all pyWs
    then some (t.take l.length)
    else matchAltAt rest t
  | AltSpec.litD l :: rest, t =>
    if l.length ≤ t.length ∧ lowerS (t.take l.length) = l then
      match [3, 2, 1].find? (fun d =>
          decide (d ≤ (t.drop l.length).length) &&
          ((t.drop l.length).take d).all isDigitC &&
          ((t.drop l.length).drop d).all pyWs) with
      | some d => some (t.take (l.length + d))
      | none => matchAltAt rest t
    else matchAltAt rest t

/-- Greedy `\s*` before the alternatives: try widths `w, w-1, …, 0`. -/
def tryWGo (alts : List AltSpec) (t : Str) : Nat → Option Str
  | 0 => matchAltAt alts t
  | w + 1 =>
    match matchAltAt alts (t.drop (w + 1)) with
    | some r => some r
    | none => tryWGo alts t w

/-- Match `\s*(ALTS)\s*$` at a fixed position. -/
def tryWsAlt (alts : List AltSpec) (t : Str) : Option Str :=
  tryWGo alts t ((t.takeWhile pyWs).length)

/-- Model of `re.match(r"(.*?)\s*(ALTS)\s*$", pn, re.IGNORECASE)`
(lines 274-289): the lazy `(.*?)` takes the smallest newline-free prefix
such that the rest matches; returns `(len(group(1)), group(2) text)`. -/
def fsGo (alts : List AltSpec) : Str → Nat → Option (Nat × Str)
  | [], i =>
    match tryWsAlt alts [] with
    | some g2 => some (i, g2)
    | none => none
  | c :: rest, i =>
    match tryWsAlt alts (c :: rest) with
    | some g2 => some (i, g2)
    | none => if c = '\n' then none else fsGo alts rest (i + 1)

/-- Alternatives of the first unit pattern
`(ea|each|pcs|pieces?|pk|pack|unit|units?|ct|count|qty|quantity)`, with the
greedy optional `s?` expanded in order. -/
def unitAlts1 : List AltSpec :=
  (["ea", "each", "pcs", "pieces", "piece", "pk", "pack", "unit", "units",
    "unit", "ct", "count", "qty", "quantity"].map (fun s => AltSpec.lit s.toList))

/-- Alternatives of `(bulk|retail|consumer|commercial|std|standard)`. -/
def unitAlts2 : List AltSpec :=
  (["bulk", "retail", "consumer", "commercial", "std", "standard"].map
    (fun s => AltSpec.lit s.toList))

/-- Alternatives of `(rev\d{1,3}|version\d{1,3}|v\d{1,3}|r\d{1,3})`. -/
def unitAlts3 : List AltSpec :=
  (["rev", "version", "v", "r"].map (fun s => AltSpec.litD s.toList))

/-- Alternatives of `(new|old|original|replacement|refurb)`. -/
def unitAlts4 : List AltSpec :=
  (["new", "old", "original", "replacement", "refurb"].map
    (fun s => AltSpec.lit s.toList))

/-- One pattern attempt of `_extract_unit_suffix` (lines 281-289), including
the validation `len(remaining.strip()) >= 3 and len(suffix) <= 10`. -/
def suffixTryPattern (alts : List AltSpec) (pn : Str) : Option (Str × Str) :=
  match fsGo alts pn 0 with
  | some (i, g2) =>
    if 3 ≤ (pyStrip (pn.take i)).length ∧ (upperS g2).length ≤ 10
    then some (pn.take i, upperS g2)
    else none
  | none => none

/-- Python `_extract_unit_suffix` (`product_er_toolkit.py` lines 268-291):
try the four patterns in order, else `(pn, "")`. -/
def extract_unit_suffix (pn : Str) : Str × Str :=
  ((suffixTryPattern unitAlts1 pn).orElse (fun _ =>
   (suffixTryPattern unitAlts2 pn).orElse (fun _ =>
   (suffixTryPattern unitAlts3 pn).orElse (fun _ =>
   suffixTryPattern unitAlts4 pn)))).getD (pn, [])

/-- The `while changed` loop of `_extract_all_suffixes` (lines 301-309), with
fuel: every productive iteration strictly shortens `current` (the matched
suffix consumes at least one character), so `length + 1` iterations always
suffice and the fuel-0 branch is unreachable from `extract_all_suffixes`. -/
def easGo : Nat → Str → Str × List Str
  | 0, cur => (cur, [])
  | fuel + 1, cur =>
    if (extract_unit_suffix cur).2 ≠ [] ∧ (extract_unit_suffix cur).1 ≠ cur then
      ((easGo fuel (pyStrip (extract_unit_suffix cur).1)).1,
       (easGo fuel (pyStrip (extract_unit_suffix cur).1)).2 ++ [(extract_unit_suffix cur).2])
    else (cur, [])

/-- Python `_extract_all_suffixes` (`product_er_toolkit.py` lines 293-311):
iteratively strip trailing unit suffixes; suffixes are collected in original
left-to-right order. -/
def extract_all_suffixes (pn : Str) : Str × List Str :=
  easGo (pn.length + 1) (pyStrip pn)

/-- Separator class `[-_/\.]` of the step-4 fallback patterns and of the
variant normalization. -/
def isSepPN (c : Char) : Bool := c = '-' || c = '_' || c = '/' || c = '.'

/-- Greedy `\s+` (at least one) before the alternatives: try widths
`w, …, 1`. -/
def tryWPos (alts : List AltSpec) (t : Str) : Nat → Option Str
  | 0 => none
  | w + 1 =>
    match matchAltAt alts (t.drop (w + 1)) with
    | some r => some r
    | none => tryWPos alts t w

/-- Does `\s+(ALTS)\s*$` match at this position? -/
def matchAAt (alts : List AltSpec) (t : Str) : Bool :=
  (tryWPos alts t ((t.takeWhile pyWs).length)).isSome

/-- After the optional separator of `\s*[-_/\.]?\s*(ALTS)\s*$`: either the
alternatives (with leading `\s*`) directly, or one separator then the
alternatives. -/
def bSepPart (alts : List AltSpec) (t : Str) : Bool :=
  (tryWsAlt alts t).isSome ||
  (match t with
   | c :: rest => isSepPN c && (tryWsAlt alts rest).isSome
   | [] => false)

/-- Widths of the leading `\s*` of the `B`-shaped fallback patterns. -/
def tryW1 (alts : List AltSpec) (t : Str) : Nat → Bool
  | 0 => bSepPart alts t
  | w + 1 => bSepPart alts (t.drop (w + 1)) || tryW1 alts t w

/-- Does `\s*[-_/\.]?\s*(ALTS)\s*$` match at this position? -/
def matchBAt (alts : List AltSpec) (t : Str) : Bool :=
  tryW1 alts t ((t.takeWhile pyWs).length)

/-- Leftmost match position of a fallback pattern (`re.sub` replaces the
single `$`-anchored match, so the result is the prefix before it). -/
def subfGo (atPos : Str → Bool) : Str → Nat → Option Nat
  | [], m => if atPos [] then some m else none
  | c :: rest, m =>
    if atPos (c :: rest) then some m else subfGo atPos rest (m + 1)

/-- One attempt of the step-4 `for suffix_pattern in suffixes_to_remove` loop
(lines 403-410) for a single pattern, threading the first successful
result. -/
def s4step (cur : Str) (acc : Option Str) (atPos : Str → Bool) : Option Str :=
  match acc with
  | some r => some r
  | none =>
    match subfGo atPos cur 0 with
    | some m =>
      if cur.take m ≠ cur ∧ pyStrip (cur.take m) ≠ [] then some (cur.take m) else none
    | none => none

/-- One pass over the four `suffixes_to_remove` patterns of `pn_variants`
step 4 (lines 392-411): the first pattern whose removal changes the string
and leaves non-whitespace content. -/
def s4Apply (cur : Str) : Option Str :=
  [fun t => matchAAt unitAlts1 t, fun t => matchAAt unitAlts2 t,
   fun t => matchBAt unitAlts3 t, fun t => matchBAt unitAlts4 t].foldl (s4step cur) none

/-- The `while changed` loop of `pn_variants` step 4 (lines 400-411),
collecting each intermediate `cleaned` value added to the variant set; fueled
as in `easGo` (each step strictly shortens the string). -/
def s4Go : Nat → Str → List Str
  | 0, _ => []
  | fuel + 1, cur =>
    match s4Apply cur with
    | some cleaned => cleaned :: s4Go fuel cleaned
    | none => []

/-- Step-4 fallback variants of `pn_variants`. -/
def step4Fallback (original : Str) : List Str :=
  s4Go (original.length + 1) original

/-- Variant normalization steps of `pn_variants` step 5 (lines 415-422). -/
def removeWsAll (v : Str) : Str := v.filter (fun c => !pyWs c)

/-- Separator removal `re.sub(r"[-_/\.]", "", ·)`. -/
def removeSeps (v : Str) : Str := v.filter (fun c => !isSepPN c)

/-- OCR correction `O -> 0` (both cases). -/
def ocrO (v : Str) : Str := v.map (fun c => if c = 'O' || c = 'o' then '0' else c)

/-- OCR correction `I/l -> 1`: the uppercase letter `I` and the lowercase
letter `l` only, exactly as `replace("I","1").replace("l","1")`. -/
def ocrI (v : Str) : Str := v.map (fun c => if c = 'I' || c = 'l' then '1' else c)

/-- The step-3 variant composition of `pn_variants` (lines 343-390) as a
function of the extracted prefix, core and suffix list. -/
def variantCore (pfx core : Str) (sufs : List Str) : List Str :=
  if pfx ≠ [] ∧ core ≠ [] ∧ sufs ≠ [] then
    [core, pfx ++ core] ++ sufs.map (fun s => core ++ s) ++
    (if 1 < sufs.length then [core ++ sufs.headD [], core ++ sufs.flatten] else [])
  else if pfx ≠ [] ∧ core ≠ [] then [core, pfx ++ core]
  else if core ≠ [] ∧ sufs ≠ [] then
    [core] ++ sufs.map (fun s => core ++ s) ++
    (if 1 < sufs.length then [core ++ sufs.headD [], core ++ sufs.flatten] else [])
  else if core ≠ [] then [core]
  else []

/-- The `variants` collected by steps 1-4 of `pn_variants` (lines 332-411),
as an event list (the Python uses a `set`; duplicates are harmless because
only the deduplicated uppercase image is returned). -/
def pnBaseVariants (original : Str) (norm_mfr : Option Str) : List Str :=
  [original] ++
  variantCore (extract_manufacturer_pref original norm_mfr).1
    (extract_all_suffixes (extract_manufacturer_pref original norm_mfr).2).1
    (extract_all_suffixes (extract_manufacturer_pref original norm_mfr).2).2 ++
  (if ¬((extract_manufacturer_pref original norm_mfr).1 ≠ [] ∨
      (extract_all_suffixes (extract_manufacturer_pref original norm_mfr).2).2 ≠ []) then
    step4Fallback original
  else [])

/-- The step-5 expansion of one variant (lines 415-422): the variant itself,
its whitespace-free form, the separator-free form, and the two OCR
corrections applied cumulatively. -/
def step5Of (v : Str) : List Str :=
  [v, removeWsAll v, removeSeps (removeWsAll v),
   ocrO (removeSeps (removeWsAll v)),
   ocrI (ocrO (removeSeps (removeWsAll v)))]

/-- The normalized-manufacturer context computed by `pn_variants` (line 339):
`normalize_manufacturer(manufacturer_name) if manufacturer_name else None`. -/
def normMfrOf (manufacturer_name : Option Str) : Option Str :=
  match manufacturer_name with
  | some m => if m ≠ [] then some (normalize_manufacturer m) else none
  | none => none

/-- Python `pn_variants` (`product_er_toolkit.py` lines 313-424): intelligent
prefix/suffix decomposition, variant composition, fallback stripping, and the
universal normalization of step 5 applied to every variant; the returned
`list({v.upper() …})` is modelled as the first-occurrence deduplication of
the uppercased, non-empty expanded variants. -/
def pn_variants (pn : Str) (manufacturer_name : Option Str) : List Str :=
  if pyStrip pn = [] then []
  else
    dedupList
      (((((pnBaseVariants (pyStrip pn) (normMfrOf manufacturer_name)).flatMap
          step5Of).filter (fun v => v ≠ []))).map upperS)

/-- Case-equivalence of characters under the I/L restriction: the two
characters have the same uppercase image, and characters whose uppercase
image is `I` or `L` are literally equal.  (The OCR step of `pn_variants`
rewrites `I` and `l` — but not `i` and `L` — before the final upcasing, so
only this restricted case-insensitivity can hold.) -/
def ceq (c c' : Char) : Prop :=
  pyUpperChar c = pyUpperChar c' ∧
  ((pyUpperChar c = 'I' ∨ pyUpperChar c = 'L') → c = c')

instance (c c' : Char) : Decidable (ceq c c') :=
  inferInstanceAs (Decidable (_ ∧ _))

/-! ### Jaro-Winkler similarity (`product_er_toolkit.py` lines 440-468) -/

/-- `match_distance = (max(len1, len2) // 2) - 1`, which is `-1` when both
strings have length 1 (hence the `Int`). -/
def jwMd (u1 u2 : Str) : Int := ((max u1.length u2.length / 2 : Nat) : Int) - 1

/-- Set a flag list entry to `true`. -/
def setAt : List Bool → Nat → List Bool
  | [], _ => []
  | _ :: t, 0 => true :: t
  | b :: t, n + 1 => b :: setAt t n

/-- The inner `for j in range(start, end)` of the match phase: the first
unmatched position of `s2` in the window holding character `c`. -/
def findMatch (c : Char) (s2 : Str) (s2m : List Bool) (start fin : Nat) : Option Nat :=
  (List.range' start (fin - start)).find? (fun j =>
    !(s2m.getD j true) && decide (s2.getD j ' ' = c))

/-- The match phase of `jaro_winkler` (lines 448-455): walk `s1` with index
`i`, marking at most one fresh `s2` position per character inside the match
window; returns the `s1` flag list and the final `s2` flag list. -/
def jwP1Go (s2 : Str) (md : Int) : Str → Nat → List Bool → List Bool × List Bool
  | [], _, s2m => ([], s2m)
  | c :: rest, i, s2m =>
    match findMatch c s2 s2m (max 0 ((i : Int) - md)).toNat
        (min ((i : Int) + md + 1) (s2.length : Int)).toNat with
    | some j =>
      ((jwP1Go s2 md rest (i + 1) (setAt s2m j)).1.cons true,
       (jwP1Go s2 md rest (i + 1) (setAt s2m j)).2)
    | none =>
      ((jwP1Go s2 md rest (i + 1) s2m).1.cons false,
       (jwP1Go s2 md rest (i + 1) s2m).2)

/-- The transposition phase of `jaro_winkler` (lines 457-462): compare the
matched characters of `s1` (in order) with the matched characters of `s2`
(in order — the inner `while not s2_matches[k]` is the `dropWhile`); counts
mismatched pairs (the Python `transpositions` before the halving). -/
def jwTrans : List (Char × Bool) → List (Char × Bool) → Nat
  | [], _ => 0
  | (c1, b1) :: rest1, l2 =>
    if b1 then
      match l2.dropWhile (fun p => !p.2) with
      | (c2, _) :: rest2 => (if c1 = c2 then 0 else 1) + jwTrans rest1 rest2
      | [] => 0
    else jwTrans rest1 l2

/-- `matches` of `jaro_winkler`. -/
def jwM (u1 u2 : Str) : Nat :=
  (jwP1Go u2 (jwMd u1 u2) u1 0 (List.replicate u2.length false)).1.countP (fun b => b)

/-- The (un-halved) transposition count of `jaro_winkler`. -/
def jwT (u1 u2 : Str) : Nat :=
  jwTrans (u1.zip (jwP1Go u2 (jwMd u1 u2) u1 0 (List.replicate u2.length false)).1)
    (u2.zip (jwP1Go u2 (jwMd u1 u2) u1 0 (List.replicate u2.length false)).2)

/-- Common-prefix length capped at `max_l = 4` (lines 464-467). -/
def jwPrefix (u1 u2 : Str) : Nat :=
  min (((u1.zip u2).takeWhile (fun p => decide (p.1 = p.2))).length) 4

/-- The Jaro score (line 463); `transpositions /= 2` is the `/ 2` on the
transposition count. -/
def jwJaro (u1 u2 : Str) : ℚ :=
  ((jwM u1 u2 : ℚ) / u1.length + (jwM u1 u2 : ℚ) / u2.length +
   ((jwM u1 u2 : ℚ) - (jwT u1 u2 : ℚ) / 2) / (jwM u1 u2 : ℚ)) / 3

/-- Python `jaro_winkler` (`product_er_toolkit.py` lines 440-468) with the
default `p = 0.1`, `max_l = 4` used by `generate_candidates`.  (`irreducible`
only keeps definitional unfolding cheap in proofs; the definition remains
fully executable and the kernel is unaffected.) -/
@[irreducible] def jaro_winkler (s1 s2 : Str) : ℚ :=
  if upperS s1 = upperS s2 then 1
  else if upperS s1 = [] ∨ upperS s2 = [] then 0
  else if jwM (upperS s1) (upperS s2) = 0 then 0
  else jwJaro (upperS s1) (upperS s2) +
    (jwPrefix (upperS s1) (upperS s2) : ℚ) * (1 / 10) *
      (1 - jwJaro (upperS s1) (upperS s2))

/-! ### Token extraction and rarity (`product_er_toolkit.py` lines 828-843) -/

/-- Character class `[A-Za-z0-9\+\-_/\.]` of `extract_tokens`. -/
def tokenChar (c : Char) : Bool :=
  isAlnumAscii c || c = '+' || c = '-' || c = '_' || c = '/' || c = '.'

/-- Maximal runs of `tokenChar` characters (the matches of the greedy
`[...]{2,}` scan, before the length filter); accumulator holds the current
run reversed. -/
def tokenRunsGo : Str → Str → List Str
  | acc, [] => if acc = [] then [] else [acc.reverse]
  | acc, c :: cs =>
    if tokenChar c then tokenRunsGo (c :: acc) cs
    else if acc = [] then tokenRunsGo [] cs
    else acc.reverse :: tokenRunsGo [] cs

/-- Python `extract_tokens` (lines 828-830): the set of maximal
token-character runs of length at least 2 (set modelled as
first-occurrence-ordered deduplicated list). -/
def extract_tokens (s : Str) : List Str :=
  dedupList ((tokenRunsGo [] s).filter (fun t => 2 ≤ t.length))

/-- Document frequencies of tokens over the `B` texts (lines 834-839),
insertion-ordered. -/
def dfCounts (texts : List Str) : List (Str × Nat) :=
  texts.foldl (fun m t =>
    (extract_tokens t).foldl (fun m2 tok => aset m2 tok ((aget m2 tok).getD 0 + 1)) m) []

/-- The key set of Python `rare_tokens` (lines 831-843) with the call-site
parameters `min_df = 1`, `max_df_ratio = 0.15`: tokens whose document count
is between `1` and `max(1, int(0.15 * n))`.  Only membership in the rarity
dictionary is ever used by `generate_candidates`, so the `log`-based rarity
values are not modelled; `int(0.15 * n)` agrees with `3 * n / 20` (integer
division) for every catalog size `n` (checked exhaustively far beyond any
realistic size). -/
def rareSet (texts : List Str) : List Str :=
  (dfCounts texts).filterMap (fun p =>
    if 1 ≤ p.2 ∧ p.2 ≤ max 1 (3 * texts.length / 20) then some p.1 else none)

/-! ### Candidate generation (`product_er_toolkit.py` lines 845-1003)

`pandas` dataframes are modelled as `List Rec` with the row position as the
index; `df.iterrows()` is enumeration in order.  The derived columns
(`mfr_norm`, `unspsc_clean`, `pn_variants`, `text_all`) are modelled as
functions of the row.  Score dictionaries keyed by row index are
insertion-ordered association lists; iteration over the Python set
intersection `mfr_matched & pn_matched` (whose order is hash-dependent) is
modelled in first-match order — the iteration only bumps keys that are
already present, so neither the key order nor the final values depend on
it. -/

/-- Derived column `mfr_norm`. -/
def mfr_norm (r : Rec) : Str := normalize_manufacturer r.manufacturer

/-- Derived column `unspsc_clean`. -/
def unspsc_clean (r : Rec) : Str := normalize_unspsc r.unspsc

/-- Derived column `pn_variants`: the variants of the part number in the
context of the normalized manufacturer. -/
def pnvsOf (r : Rec) : List Str := pn_variants r.part_number (some (mfr_norm r))

/-- `str(row.get('gtin','')).strip().upper()`. -/
def gtinKey (r : Rec) : Str := upperS (pyStrip r.gtin)

/-- The GTIN placeholder filter `gtin and gtin not in ['NAN','NONE','','0']`
(lines 882, 911). -/
def gtinValid (g : Str) : Bool :=
  g ≠ [] && !(decide (g ∈ (["NAN", "NONE", "", "0"].map String.toList)))

/-- `dict.setdefault(k, []).append(j)` on an index dictionary. -/
def ipush (m : List (Str × List Nat)) (k : Str) (j : Nat) : List (Str × List Nat) :=
  aset m k ((aget m k).getD [] ++ [j])

/-- Generic index builder: one optional key per `B` row. -/
def idxBy (f : Rec → Option Str) (dfb : List Rec) : List (Str × List Nat) :=
  dfb.enum.foldl (fun m p =>
    match f p.2 with
    | some k => ipush m k p.1
    | none => m) []

/-- The GTIN index `gtin_to_b` (lines 908-913). -/
def gtinIndex (dfb : List Rec) : List (Str × List Nat) :=
  idxBy (fun b => if gtinValid (gtinKey b) then some (gtinKey b) else none) dfb

/-- The UNSPSC key of a `B` row, defined when the cleaned code is a
well-formed 8-character string (line 901). -/
def unspscKey (pre : Nat) (b : Rec) : Option Str :=
  if unspsc_clean b ≠ [] ∧ (unspsc_clean b).length = 8
  then some ((unspsc_clean b).take pre) else none

/-- The manufacturer index `mfr_to_b` (lines 887-899) with optional
alias-manager enrichment. -/
def mfrIndex (am : Option ManufacturerAliasManager) (dfb : List Rec) :
    List (Str × List Nat) :=
  dfb.enum.foldl (fun m p =>
    if mfr_norm p.2 ≠ [] then
      match am with
      | some mgr =>
        (get_all_aliases_for_name mgr p.2.manufacturer).foldl
          (fun m2 al => if al ≠ mfr_norm p.2 then ipush m2 al p.1 else m2)
          (match get_canonical_name mgr p.2.manufacturer with
           | some c =>
             if c ≠ [] ∧ c ≠ mfr_norm p.2
             then ipush (ipush m (mfr_norm p.2) p.1) c p.1
             else ipush m (mfr_norm p.2) p.1
           | none => ipush m (mfr_norm p.2) p.1)
      | none => ipush m (mfr_norm p.2) p.1
    else m) []

/-- One part-number variant step of the PN index / BK-tree build
(lines 916-921): a fresh variant is added to the tree and opens an index
entry, a known variant only extends its entry. -/
def pnFold (st : List (Str × List Nat) × Option BKNode) (v : Str) (j : Nat) :
    List (Str × List Nat) × Option BKNode :=
  match aget st.1 v with
  | some l => (aset st.1 v (l ++ [j]), st.2)
  | none => (st.1 ++ [(v, [j])], BKTree.add st.2 v)

/-- The PN index `pn_to_bidx` together with the BK-tree `bk`
(lines 916-921). -/
def pnState (dfb : List Rec) : List (Str × List Nat) × Option BKNode :=
  dfb.enum.foldl (fun st p => (pnvsOf p.2).foldl (fun st2 v => pnFold st2 v p.1) st)
    ([], none)

/-- The per-row rare-token sets `b_token_sets` (lines 924-927). -/
def bTokenSets (rset : List Str) (dfb : List Rec) : List (Nat × List Str) :=
  dfb.enum.map (fun p => (p.1, (extract_tokens (textAll p.2)).filter (fun t => t ∈ rset)))

/-- The rare tokens of the `A` row (line 985). -/
def aRareOf (rset : List Str) (a : Rec) : List Str :=
  (extract_tokens (textAll a)).filter (fun t => t ∈ rset)

/-- GTIN matching events (lines 881-885): each hit contributes `10.0`. -/
def evGtin (gidx : List (Str × List Nat)) (a : Rec) : List (Nat × ℚ) :=
  if gtinValid (gtinKey a) then ((aget gidx (gtinKey a)).getD []).map (fun j => (j, 10))
  else []

/-- Manufacturer matching events (lines 887-910 of the scoring loop): exact
normalized match (`1.0`), canonical-name match (`1.0`), alias matches
(`0.8`). -/
def evMfr (midx : List (Str × List Nat)) (am : Option ManufacturerAliasManager)
    (a : Rec) : List (Nat × ℚ) :=
  if mfr_norm a ≠ [] then
    ((aget midx (mfr_norm a)).getD []).map (fun j => (j, 1)) ++
    (match am with
     | some mgr =>
       (match get_canonical_name mgr a.manufacturer with
        | some c =>
          if c ≠ [] ∧ c ≠ mfr_norm a
          then ((aget midx c).getD []).map (fun j => (j, 1))
          else []
        | none => []) ++
       (get_all_aliases_for_name mgr a.manufacturer).flatMap (fun al =>
         if al ≠ mfr_norm a
         then ((aget midx al).getD []).map (fun j => (j, (8 : ℚ) / 10))
         else [])
     | none => [])
  else []

/-- UNSPSC hierarchical matching events (lines 936-952): exact `3.0`, class
`2.0`, family `1.5`, segment `1.0`, in source order. -/
def evUnspsc (u8 u6 u4 u2 : List (Str × List Nat)) (a : Rec) : List (Nat × ℚ) :=
  if unspsc_clean a ≠ [] ∧ (unspsc_clean a).length = 8 then
    ((aget u8 (unspsc_clean a)).getD []).map (fun j => (j, 3)) ++
    ((aget u6 ((unspsc_clean a).take 6)).getD []).map (fun j => (j, 2)) ++
    ((aget u4 ((unspsc_clean a).take 4)).getD []).map (fun j => (j, (3 : ℚ) / 2)) ++
    ((aget u2 ((unspsc_clean a).take 2)).getD []).map (fun j => (j, 1))
  else []

/-- `best_jw`: the maximum Jaro-Winkler score over all alias pairs
(lines 962-966), starting from `0.0`. -/
def bestAliasJW (mgr : ManufacturerAliasManager) (a b : Rec) : ℚ :=
  (get_all_aliases_for_name mgr a.manufacturer).foldl (fun best alA =>
    (get_all_aliases_for_name mgr b.manufacturer).foldl (fun b2 alB =>
      max b2 (jaro_winkler alA alB)) best) 0

/-- Jaro-Winkler manufacturer events (lines 953-970): the direct score when
it reaches the threshold, and `best_jw * 0.9` for the alias comparison. -/
def evJw (jw_mfr : ℚ) (am : Option ManufacturerAliasManager) (dfb : List Rec)
    (a : Rec) : List (Nat × ℚ) :=
  dfb.enum.flatMap (fun p =>
    if mfr_norm a ≠ [] ∧ mfr_norm p.2 ≠ [] then
      (if jw_mfr ≤ jaro_winkler (mfr_norm a) (mfr_norm p.2)
       then [(p.1, jaro_winkler (mfr_norm a) (mfr_norm p.2))] else []) ++
      (match am with
       | some mgr =>
         if jw_mfr ≤ bestAliasJW mgr a p.2
         then [(p.1, bestAliasJW mgr a p.2 * ((9 : ℚ) / 10))] else []
       | none => [])
    else [])

/-- Part-number matching events (lines 972-979): exact variant hits `3.0`,
BK-tree fuzzy hits `max(0.0, 2.0 - 0.5 * d)`. -/
def evPn (pidx : List (Str × List Nat)) (bk : Option BKNode) (pn_max_edit : Nat)
    (a : Rec) : List (Nat × ℚ) :=
  (pnvsOf a).flatMap (fun v =>
    (match aget pidx v with
     | some l => l.map (fun j => (j, 3))
     | none => []) ++
    (BKTree.search v pn_max_edit bk).flatMap (fun vd =>
      ((aget pidx vd.1).getD []).map (fun j => (j, max 0 (2 - (vd.2 : ℚ) / 2)))))

/-- Rare-token overlap events (lines 980-984): `0.5` per shared rare
token. -/
def evRare (rset : List Str) (btoks : List (Nat × List Str)) (a : Rec) :
    List (Nat × ℚ) :=
  if aRareOf rset a ≠ [] then
    btoks.flatMap (fun p =>
      if (aRareOf rset a).filter (fun t => t ∈ p.2) ≠ [] then
        [(p.1, (1 : ℚ) / 2 * ((aRareOf rset a).filter (fun t => t ∈ p.2)).length)]
      else [])
  else []

/-- `set.add` for row indices. -/
def setAddN (s : List Nat) (x : Nat) : List Nat := if x ∈ s then s else s ++ [x]

/-- First-occurrence deduplication of row indices. -/
def dedupN (l : List Nat) : List Nat := l.foldl setAddN []

/-- Synergy boost events (lines 988-991): `5.0` for every candidate matched
on both the manufacturer and the part-number dimension. -/
def evSyn (mfrM pnM : List Nat) : List (Nat × ℚ) :=
  (dedupN mfrM).filterMap (fun j => if j ∈ pnM then some (j, 5) else none)

/-- All scoring events of one `A` row against the prepared `B` indexes, in
source order.  The `mfr_matched` and `pn_matched` sets are exactly the keys
of the manufacturer/Jaro-Winkler and part-number events (every bump in those
phases is paired with the corresponding `.add`). -/
def eventsOf (jw_mfr : ℚ) (pn_max_edit : Nat) (am : Option ManufacturerAliasManager)
    (dfb : List Rec) (a : Rec) : List (Nat × ℚ) :=
  evGtin (gtinIndex dfb) a ++
  evMfr (mfrIndex am dfb) am a ++
  evUnspsc (idxBy (unspscKey 8) dfb) (idxBy (unspscKey 6) dfb)
    (idxBy (unspscKey 4) dfb) (idxBy (unspscKey 2) dfb) a ++
  evJw jw_mfr am dfb a ++
  evPn (pnState dfb).1 (pnState dfb).2 pn_max_edit a ++
  evRare (rareSet (dfb.map textAll)) (bTokenSets (rareSet (dfb.map textAll)) dfb) a ++
  evSyn ((evMfr (mfrIndex am dfb) am a ++ evJw jw_mfr am dfb a).map (·.1))
    ((evPn (pnState dfb).1 (pnState dfb).2 pn_max_edit a).map (·.1))

/-- `dict.get` on the index-keyed score dictionary. -/
def nget (m : List (Nat × ℚ)) (k : Nat) : Option ℚ :=
  (m.find? (fun p => decide (p.1 = k))).map (·.2)

/-- `dict[k] = v` on the score dictionary (insertion-ordered). -/
def nset : List (Nat × ℚ) → Nat → ℚ → List (Nat × ℚ)
  | [], k, v => [(k, v)]
  | (k', v') :: rest, k, v =>
    if k' = k then (k', v) :: rest else (k', v') :: nset rest k v

/-- `cand_scores[j] = cand_scores.get(j, 0) + w`. -/
def bump (m : List (Nat × ℚ)) (j : Nat) (w : ℚ) : List (Nat × ℚ) :=
  nset m j ((nget m j).getD 0 + w)

/-- The accumulated `cand_scores` dictionary of one `A` row (the events
folded through `bump`). -/
def candScoresOf (jw_mfr : ℚ) (pn_max_edit : Nat)
    (am : Option ManufacturerAliasManager) (dfb : List Rec) (a : Rec) :
    List (Nat × ℚ) :=
  (eventsOf jw_mfr pn_max_edit am dfb a).foldl (fun m e => bump m e.1 e.2) []

/-- The candidate list of one `A` row (lines 993-997):
`sorted(cand_scores.items(), key=lambda x: -x[1])` is the stable descending
sort of the insertion-ordered items; then truncation and key extraction. -/
def candidatesFor (jw_mfr : ℚ) (pn_max_edit : Nat) (max_cands_per_item : Nat)
    (am : Option ManufacturerAliasManager) (dfb : List Rec) (a : Rec) : List Nat :=
  if candScoresOf jw_mfr pn_max_edit am dfb a ≠ [] then
    ((((candScoresOf jw_mfr pn_max_edit am dfb a).insertionSort
        (fun p q => q.2 ≤ p.2)).take max_cands_per_item).map (·.1))
  else []

/-- Python `generate_candidates` (`product_er_toolkit.py` lines 845-1003):
the map from each `A` row index to its candidate list. -/
def generate_candidates (df_a df_b : List Rec) (jw_mfr : ℚ) (pn_max_edit : Nat)
    (max_cands_per_item : Nat) (alias_manager : Option ManufacturerAliasManager) :
    List (Nat × List Nat) :=
  df_a.enum.map (fun p =>
    (p.1, candidatesFor jw_mfr pn_max_edit max_cands_per_item alias_manager df_b p.2))

-- ### THEOREMS (everything below this line is proofs about the model above)

/-! ### Character and string helper lemmas -/

theorem pyUpperChar_of_canon {c : Char} (h : isCanonChar c = true) :
    pyUpperChar c = c := by
  simp only [isCanonChar, Bool.or_eq_true, Bool.and_eq_true, decide_eq_true_eq] at h
  unfold pyUpperChar
  rw [if_neg]
  simp only [Bool.and_eq_true, decide_eq_true_eq, not_and, not_le]
  omega

theorem mem_subRunsGo {keep : Char → Bool} {r : Char} :
    ∀ {b : Bool} {s : Str} {c : Char}, c ∈ subRunsGo keep r b s →
      keep c = true ∨ c = r := by
  intro b s
  induction s generalizing b with
  | nil => intro c h; simp [subRunsGo] at h
  | cons x xs ih =>
    intro c h
    by_cases hx : keep x = true
    · simp only [subRunsGo, hx, if_pos, List.mem_cons] at h
      rcases h with h | h
      · subst h; exact Or.inl hx
      · exact ih h
    · simp only [subRunsGo, hx, Bool.false_eq_true, if_false] at h
      cases b with
      | true => exact ih h
      | false =>
        simp only [Bool.false_eq_true, if_false, List.mem_cons] at h
        rcases h with h | h
        · exact Or.inr h
        · exact ih h

theorem mem_subRunsGo_src {keep : Char → Bool} {r : Char} :
    ∀ {b : Bool} {s : Str} {c : Char}, c ∈ subRunsGo keep r b s →
      c ∈ s ∨ c = r := by
  intro b s
  induction s generalizing b with
  | nil => intro c h; simp [subRunsGo] at h
  | cons x xs ih =>
    intro c h
    by_cases hx : keep x = true
    · simp only [subRunsGo, hx, if_pos, List.mem_cons] at h
      rcases h with h | h
      · exact Or.inl (by simp [h])
      · rcases ih h with h' | h'
        · exact Or.inl (List.mem_cons_of_mem _ h')
        · exact Or.inr h'
    · simp only [subRunsGo, hx, Bool.false_eq_true, if_false] at h
      have step : c ∈ subRunsGo keep r true xs ∨ c = r → c ∈ x :: xs ∨ c = r := by
        intro hh
        rcases hh with hh | hh
        · rcases ih hh with h' | h'
          · exact Or.inl (List.mem_cons_of_mem _ h')
          · exact Or.inr h'
        · exact Or.inr hh
      cases b with
      | true => exact step (Or.inl h)
      | false =>
        simp only [Bool.false_eq_true, if_false, List.mem_cons] at h
        rcases h with h | h
        · exact Or.inr h
        · exact step (Or.inl h)

theorem subRunsGo_eq_self {keep : Char → Bool} {r : Char} :
    ∀ {b : Bool} {s : Str}, (∀ c ∈ s, keep c = true) → subRunsGo keep r b s = s := by
  intro b s
  induction s generalizing b with
  | nil => intro _; rfl
  | cons x xs ih =>
    intro h
    have hx : keep x = true := h x (List.mem_cons_self x xs)
    simp only [subRunsGo, hx, if_pos]
    exact congrArg (x :: ·) (ih fun c hc => h c (List.mem_cons_of_mem _ hc))

theorem subRunsGo_flag {keep : Char → Bool} {r c : Char} {b : Bool} {cs : Str}
    (h : keep c = true) :
    subRunsGo keep r b (c :: cs) = c :: subRunsGo keep r false cs := by
  simp [subRunsGo, h]

theorem subRunsGo_append_keep {keep : Char → Bool} {r : Char} {t s : Str}
    (ht : ∀ c ∈ t, keep c = true) :
    subRunsGo keep r false (t ++ s) = t ++ subRunsGo keep r false s := by
  induction t with
  | nil => rfl
  | cons x xs ih =>
    have hx : keep x = true := ht x (List.mem_cons_self x xs)
    simp only [List.cons_append, subRunsGo, hx, if_pos]
    exact congrArg (x :: ·) (ih fun c hc => ht c (List.mem_cons_of_mem _ hc))

theorem replaceAmp_eq_self {s : Str} (h : '&' ∉ s) : replaceAmp s = s := by
  induction s with
  | nil => rfl
  | cons x xs ih =>
    have hx : x ≠ '&' := fun hh => h (hh ▸ List.mem_cons_self x xs)
    simp only [replaceAmp, List.flatMap_cons, if_neg hx, List.singleton_append]
    have := ih (fun hh => h (List.mem_cons_of_mem _ hh))
    simp only [replaceAmp] at this
    exact congrArg (x :: ·) this

theorem upperS_eq_self {s : Str} (h : ∀ c ∈ s, pyUpperChar c = c) : upperS s = s := by
  induction s with
  | nil => rfl
  | cons x xs ih =>
    simp only [upperS, List.map_cons]
    rw [h x (List.mem_cons_self x xs)]
    have := ih fun c hc => h c (List.mem_cons_of_mem _ hc)
    simp only [upperS] at this
    rw [this]

theorem mem_pyStrip {s : Str} {c : Char} (h : c ∈ pyStrip s) : c ∈ s := by
  unfold pyStrip at h
  rw [List.mem_reverse] at h
  have h2 := (List.dropWhile_sublist pyWs (l := (s.dropWhile pyWs).reverse)).mem h
  rw [List.mem_reverse] at h2
  exact (List.dropWhile_sublist pyWs (l := s)).mem h2

theorem dropWhile_head_false {α : Type} {p : α → Bool} :
    ∀ {l : List α} {a : α} {t : List α}, l.dropWhile p = a :: t → p a = false := by
  intro l
  induction l with
  | nil => intro a t h; simp [List.dropWhile] at h
  | cons x xs ih =>
    intro a t h
    rw [List.dropWhile_cons] at h
    by_cases hx : p x = true
    · rw [if_pos hx] at h; exact ih h
    · rw [if_neg hx] at h
      cases h
      simpa using hx

theorem dropWhile_eq_self_of_head {α : Type} {p : α → Bool} {l : List α}
    (h : l = [] ∨ ∃ a t, l = a :: t ∧ p a = false) : l.dropWhile p = l := by
  rcases h with h | ⟨a, t, rfl, ha⟩
  · subst h; rfl
  · rw [List.dropWhile_cons, if_neg (by simp [ha])]

theorem dropWhile_idem {α : Type} {p : α → Bool} (l : List α) :
    (l.dropWhile p).dropWhile p = l.dropWhile p := by
  rcases hd : l.dropWhile p with _ | ⟨a, t⟩
  · rfl
  · exact dropWhile_eq_self_of_head (Or.inr ⟨a, t, rfl, dropWhile_head_false hd⟩)

/-! ### Token-level lemmas about `pySplit` and `joinSp` -/

theorem pySplitGo_ne_nil :
    ∀ {acc s : Str} {t : Str}, t ∈ pySplitGo acc s → acc ≠ [] ∨ s ≠ [] → t ≠ [] := by
  intro acc s
  induction s generalizing acc with
  | nil =>
    intro t h _
    by_cases hacc : acc = []
    · simp [pySplitGo, hacc] at h
    · simp only [pySplitGo, if_neg hacc, List.mem_singleton] at h
      subst h
      simpa using hacc
  | cons c cs ih =>
    intro t h _
    by_cases hc : pyWs c = true
    · simp only [pySplitGo, hc, if_pos] at h
      by_cases hacc : acc = []
      · rw [if_pos hacc] at h
        by_cases hcs : cs = []
        · subst hcs; simp [pySplitGo] at h
        · exact ih h (Or.inr hcs)
      · rw [if_neg hacc] at h
        rcases List.mem_cons.1 h with h' | h'
        · subst h'; simpa using hacc
        · by_cases hcs : cs = []
          · subst hcs; simp [pySplitGo] at h'
          · exact ih h' (Or.inr hcs)
    · simp only [pySplitGo, hc, Bool.false_eq_true, if_false] at h
      exact ih h (Or.inl (by simp))

theorem pySplitGo_chars :
    ∀ {acc s : Str} {t : Str}, t ∈ pySplitGo acc s → ∀ c ∈ t, c ∈ acc ∨ c ∈ s := by
  intro acc s
  induction s generalizing acc with
  | nil =>
    intro t h c hc
    by_cases hacc : acc = []
    · simp [pySplitGo, hacc] at h
    · simp only [pySplitGo, if_neg hacc, List.mem_singleton] at h
      subst h
      exact Or.inl (List.mem_reverse.1 hc)
  | cons x xs ih =>
    intro t h c hc
    by_cases hx : pyWs x = true
    · simp only [pySplitGo, hx, if_pos] at h
      by_cases hacc : acc = []
      · rw [if_pos hacc] at h
        rcases ih h c hc with h' | h'
        · simp at h'
        · exact Or.inr (List.mem_cons_of_mem _ h')
      · rw [if_neg hacc] at h
        rcases List.mem_cons.1 h with h' | h'
        · subst h'; exact Or.inl (List.mem_reverse.1 hc)
        · rcases ih h' c hc with h'' | h''
          · simp at h''
          · exact Or.inr (List.mem_cons_of_mem _ h'')
    · simp only [pySplitGo, hx, Bool.false_eq_true, if_false] at h
      rcases ih h c hc with h' | h'
      · rcases List.mem_cons.1 h' with h'' | h''
        · exact Or.inr (h'' ▸ List.mem_cons_self x xs)
        · exact Or.inl h''
      · exact Or.inr (List.mem_cons_of_mem _ h')

theorem pySplitGo_noWs :
    ∀ {acc s : Str}, (∀ c ∈ acc, pyWs c = false) →
      ∀ {t : Str}, t ∈ pySplitGo acc s → ∀ c ∈ t, pyWs c = false := by
  intro acc s
  induction s generalizing acc with
  | nil =>
    intro hacc t h c hc
    by_cases ha : acc = []
    · simp [pySplitGo, ha] at h
    · simp only [pySplitGo, if_neg ha, List.mem_singleton] at h
      subst h
      exact hacc c (List.mem_reverse.1 hc)
  | cons x xs ih =>
    intro hacc t h c hc
    by_cases hx : pyWs x = true
    · simp only [pySplitGo, hx, if_pos] at h
      by_cases ha : acc = []
      · rw [if_pos ha] at h
        exact ih (by simp) h c hc
      · rw [if_neg ha] at h
        rcases List.mem_cons.1 h with h' | h'
        · subst h'; exact hacc c (List.mem_reverse.1 hc)
        · exact ih (by simp) h' c hc
    · simp only [pySplitGo, hx, Bool.false_eq_true, if_false] at h
      refine ih ?_ h c hc
      intro c' hc'
      rcases List.mem_cons.1 hc' with h' | h'
      · subst h'; simpa using hx
      · exact hacc c' h'

theorem pySplitGo_token {t : Str} :
    ∀ {acc s : Str}, (∀ c ∈ t, pyWs c = false) →
      pySplitGo acc (t ++ s) = pySplitGo (t.reverse ++ acc) s := by
  induction t with
  | nil => intro acc s _; simp
  | cons x xs ih =>
    intro acc s ht
    have hx : pyWs x = false := ht x (List.mem_cons_self x xs)
    simp only [List.cons_append, pySplitGo, hx, Bool.false_eq_true, if_false]
    rw [show xs.append s = xs ++ s from rfl, ih (fun c hc => ht c (List.mem_cons_of_mem _ hc))]
    simp

theorem joinSp_head {t : Str} {ts : List Str} (h : t ≠ []) :
    ∃ c cs, joinSp (t :: ts) = c :: cs ∧ c ∈ t := by
  rcases t with _ | ⟨c, rest⟩
  · exact absurd rfl h
  · cases ts with
    | nil => exact ⟨c, rest, rfl, List.mem_cons_self _ _⟩
    | cons t' ts' => exact ⟨c, rest ++ ' ' :: joinSp (t' :: ts'), rfl, List.mem_cons_self _ _⟩

theorem mem_joinSp {ts : List Str} {c : Char} (h : c ∈ joinSp ts) :
    (∃ t ∈ ts, c ∈ t) ∨ c = ' ' := by
  induction ts with
  | nil => simp [joinSp] at h
  | cons t rest ih =>
    cases rest with
    | nil =>
      simp only [joinSp] at h
      exact Or.inl ⟨t, List.mem_cons_self _ _, h⟩
    | cons t' ts' =>
      simp only [joinSp, List.mem_append, List.mem_cons] at h
      rcases h with h | h | h
      · exact Or.inl ⟨t, List.mem_cons_self _ _, h⟩
      · exact Or.inr h
      · rcases ih h with ⟨u, hu, hcu⟩ | h'
        · exact Or.inl ⟨u, List.mem_cons_of_mem _ hu, hcu⟩
        · exact Or.inr h'

theorem joinSp_append_single {ts : List Str} {x : Str} (h : ts ≠ []) :
    joinSp (ts ++ [x]) = joinSp ts ++ ' ' :: x := by
  induction ts with
  | nil => exact absurd rfl h
  | cons t rest ih =>
    cases rest with
    | nil => rfl
    | cons t' ts' =>
      have hih := ih (by simp)
      show t ++ ' ' :: joinSp ((t' :: ts') ++ [x]) = (t ++ ' ' :: joinSp (t' :: ts')) ++ ' ' :: x
      rw [hih]
      simp

theorem joinSp_reverse (ts : List Str) :
    (joinSp ts).reverse = joinSp ((ts.map List.reverse).reverse) := by
  induction ts with
  | nil => rfl
  | cons t rest ih =>
    cases rest with
    | nil => simp [joinSp]
    | cons t' ts' =>
      simp only [joinSp, List.reverse_append, List.reverse_cons, List.map_cons]
      rw [ih]
      have hne : ((t' :: ts').map List.reverse).reverse ≠ [] := by simp
      have h1 : (List.map List.reverse ts').reverse ++ [t'.reverse] ++ [t.reverse]
          = ((t' :: ts').map List.reverse).reverse ++ [t.reverse] := by simp
      rw [h1, joinSp_append_single hne]
      simp

theorem collapse_joinSp {ts : List Str}
    (h : ∀ t ∈ ts, t ≠ [] ∧ ∀ c ∈ t, pyWs c = false) :
    subRuns (fun c => !pyWs c) ' ' (joinSp ts) = joinSp ts := by
  induction ts with
  | nil => rfl
  | cons t rest ih =>
    cases rest with
    | nil =>
      simp only [joinSp]
      exact subRunsGo_eq_self fun c hc => by
        simp [(h t (List.mem_cons_self _ _)).2 c hc]
    | cons t' ts' =>
      have ht := h t (List.mem_cons_self _ _)
      have hrest : ∀ u ∈ t' :: ts', u ≠ [] ∧ ∀ c ∈ u, pyWs c = false :=
        fun u hu => h u (List.mem_cons_of_mem _ hu)
      obtain ⟨c, cs, hj, hc⟩ := @joinSp_head _ ts' (hrest t' (List.mem_cons_self _ _)).1
      simp only [joinSp, subRuns]
      rw [subRunsGo_append_keep (fun d hd => by simp [ht.2 d hd])]
      have hws : (fun c => !pyWs c) ' ' = false := by decide
      simp only [subRunsGo, hws, Bool.false_eq_true, if_false]
      rw [hj, subRunsGo_flag (by simp [(hrest t' (List.mem_cons_self _ _)).2 c hc]), ← hj]
      have := ih hrest
      simp only [subRuns] at this
      rw [hj] at this
      rw [subRunsGo_flag (by simp [(hrest t' (List.mem_cons_self _ _)).2 c hc])] at this
      rw [this, hj]

theorem pyStrip_joinSp {ts : List Str}
    (h : ∀ t ∈ ts, t ≠ [] ∧ ∀ c ∈ t, pyWs c = false) :
    pyStrip (joinSp ts) = joinSp ts := by
  cases ts with
  | nil => rfl
  | cons t rest =>
    obtain ⟨c, cs, hj, hc⟩ := @joinSp_head _ rest (h t (List.mem_cons_self _ _)).1
    have hd1 : (joinSp (t :: rest)).dropWhile pyWs = joinSp (t :: rest) := by
      refine dropWhile_eq_self_of_head (Or.inr ⟨c, cs, hj, ?_⟩)
      exact (h t (List.mem_cons_self _ _)).2 c hc
    have hrev : (joinSp (t :: rest)).reverse = joinSp (((t :: rest).map List.reverse).reverse) :=
      joinSp_reverse _
    have hrevtoks : ∀ u ∈ ((t :: rest).map List.reverse).reverse,
        u ≠ [] ∧ ∀ c ∈ u, pyWs c = false := by
      intro u hu
      rw [List.mem_reverse, List.mem_map] at hu
      obtain ⟨v, hv, rfl⟩ := hu
      exact ⟨by simpa using (h v hv).1, fun d hd => (h v hv).2 d (List.mem_reverse.1 hd)⟩
    have hne2 : ((t :: rest).map List.reverse).reverse ≠ [] := by simp
    have hd2 : ((joinSp (t :: rest)).reverse).dropWhile pyWs = (joinSp (t :: rest)).reverse := by
      rw [hrev]
      obtain ⟨u, us, hL⟩ := List.exists_cons_of_ne_nil hne2
      have hu : u ∈ ((t :: rest).map List.reverse).reverse := hL ▸ List.mem_cons_self _ _
      rw [hL]
      obtain ⟨c', cs', hj', hc'⟩ := @joinSp_head _ us (hrevtoks u hu).1
      exact dropWhile_eq_self_of_head
        (Or.inr ⟨c', cs', hj', (hrevtoks u hu).2 c' hc'⟩)
    unfold pyStrip
    rw [hd1, hd2, List.reverse_reverse]

theorem pySplit_joinSp {ts : List Str}
    (h : ∀ t ∈ ts, t ≠ [] ∧ ∀ c ∈ t, pyWs c = false) :
    pySplit (joinSp ts) = ts := by
  induction ts with
  | nil => rfl
  | cons t rest ih =>
    have ht := h t (List.mem_cons_self _ _)
    cases rest with
    | nil =>
      show pySplitGo [] (joinSp [t]) = [t]
      have : joinSp [t] = t ++ [] := by simp [joinSp]
      rw [this, pySplitGo_token ht.2]
      simp only [List.append_nil, pySplitGo]
      rw [if_neg (by simpa using ht.1)]
      simp
    | cons t' ts' =>
      have hrest : ∀ u ∈ t' :: ts', u ≠ [] ∧ ∀ c ∈ u, pyWs c = false :=
        fun u hu => h u (List.mem_cons_of_mem _ hu)
      show pySplitGo [] (joinSp (t :: t' :: ts')) = t :: t' :: ts'
      simp only [joinSp]
      rw [pySplitGo_token ht.2]
      have hsp : pyWs ' ' = true := by decide
      simp only [pySplitGo, hsp, if_pos]
      rw [if_neg (by simpa using ht.1)]
      have := ih hrest
      simp only [pySplit] at this
      simp only [List.append_nil, List.reverse_reverse, this]

/-! ### Characterization of `canonicalize_name`'s output, and idempotence (C5) -/

theorem canonToks_spec (s : Str) :
    ∀ t ∈ canonToks s, t ≠ [] ∧ ∀ c ∈ t, isCanonChar c = true ∧ pyWs c = false := by
  intro t ht
  unfold canonToks dropTrailingCorp at ht
  rw [List.mem_reverse] at ht
  have ht2 := (List.dropWhile_sublist _
    (l := (pySplit (pyStrip (subRuns (fun c => !pyWs c) ' '
      (subRuns isCanonChar ' ' (replaceAmp (upperS s)))))).reverse)).mem ht
  rw [List.mem_reverse] at ht2
  constructor
  · exact pySplitGo_ne_nil ht2 (Or.inr (by
      intro hnil
      rw [hnil] at ht2
      simp [pySplit, pySplitGo] at ht2))
  · intro c hc
    have hcnows : pyWs c = false := pySplitGo_noWs (by simp) ht2 c hc
    refine ⟨?_, hcnows⟩
    rcases pySplitGo_chars ht2 c hc with h' | h'
    · simp at h'
    · have h3 := mem_pyStrip h'
      rcases mem_subRunsGo_src h3 with h4 | h4
      · rcases mem_subRunsGo h4 with h5 | h5
        · exact h5
        · subst h5; decide
      · subst h4; decide

theorem dropTrailingCorp_reverse (ts : List Str) :
    (dropTrailingCorp ts).reverse =
      ts.reverse.dropWhile (fun t => decide (t ∈ CORP_SUFFIXES)) := by
  unfold dropTrailingCorp
  rw [List.reverse_reverse]

theorem dropTrailingCorp_idem (ts : List Str) :
    dropTrailingCorp (dropTrailingCorp ts) = dropTrailingCorp ts := by
  unfold dropTrailingCorp
  rw [List.reverse_reverse, dropWhile_idem]

theorem dropTrailingCorp_canonToks (s : Str) :
    dropTrailingCorp (canonToks s) = canonToks s := by
  unfold canonToks
  rw [dropTrailingCorp_idem]

/-- C5: `canonicalize_name` is idempotent: applying it twice yields the same
result as applying it once, for every input string. -/
theorem c5_canonicalize_name_idempotent (s : Str) :
    canonicalize_name (canonicalize_name s) = canonicalize_name s := by
  have hspec := canonToks_spec s
  set T := canonToks s with hT
  have htoks : ∀ t ∈ T, t ≠ [] ∧ ∀ c ∈ t, pyWs c = false :=
    fun t ht => ⟨(hspec t ht).1, fun c hc => ((hspec t ht).2 c hc).2⟩
  show joinSp (canonToks (joinSp T)) = joinSp T
  have hchars : ∀ c ∈ joinSp T, isCanonChar c = true := by
    intro c hc
    rcases mem_joinSp hc with ⟨t, ht, hct⟩ | h'
    · exact ((hspec t ht).2 c hct).1
    · subst h'; decide
  have h1 : upperS (joinSp T) = joinSp T :=
    upperS_eq_self fun c hc => pyUpperChar_of_canon (hchars c hc)
  have h2 : replaceAmp (joinSp T) = joinSp T := by
    refine replaceAmp_eq_self fun hamp => ?_
    have := hchars '&' hamp
    simp [isCanonChar] at this
  have h3 : subRuns isCanonChar ' ' (joinSp T) = joinSp T :=
    subRunsGo_eq_self fun c hc => hchars c hc
  have h4 : subRuns (fun c => !pyWs c) ' ' (joinSp T) = joinSp T :=
    collapse_joinSp htoks
  have h5 : pyStrip (joinSp T) = joinSp T := pyStrip_joinSp htoks
  have h6 : pySplit (joinSp T) = T := pySplit_joinSp htoks
  show joinSp (canonToks (joinSp T)) = joinSp T
  unfold canonToks
  rw [h1, h2, h3, h4, h5, h6, hT, dropTrailingCorp_canonToks]

/-! ### Levenshtein: basic bounds -/

theorem levRec_nil_right (a : Str) : levRec a [] = a.length := by
  cases a <;> simp [levRec]

theorem levRec_self (a : Str) : levRec a a = 0 := by
  induction a with
  | nil => simp [levRec]
  | cons x xs ih => simp [levRec, ih]

theorem levRec_cons_left (x : Char) (xs ys : Str) :
    levRec (x :: xs) ys ≤ 1 + levRec xs ys := by
  cases ys with
  | nil => simp [levRec_nil_right, List.length_cons]; omega
  | cons y ys' => simp only [levRec]; omega

theorem levRec_cons_right (y : Char) (xs ys : Str) :
    levRec xs (y :: ys) ≤ 1 + levRec xs ys := by
  cases xs with
  | nil => simp [levRec, List.length_cons]; omega
  | cons x xs' => simp only [levRec]; omega

theorem levRec_le_drop_left (x : Char) (xs : Str) :
    ∀ ys : Str, levRec xs ys ≤ 1 + levRec (x :: xs) ys := by
  intro ys
  induction ys generalizing xs with
  | nil => simp only [levRec_nil_right, List.length_cons]; omega
  | cons y ys' ih =>
    have h3 : levRec xs (y :: ys') ≤ 1 + levRec xs ys' := levRec_cons_right y xs ys'
    have hih : levRec xs ys' ≤ 1 + levRec (x :: xs) ys' := ih xs
    simp only [levRec]
    omega

theorem levRec_le_drop_right (y : Char) (ys : Str) :
    ∀ xs : Str, levRec xs ys ≤ 1 + levRec xs (y :: ys) := by
  intro xs
  induction xs generalizing ys with
  | nil => simp only [levRec, List.length_cons]; omega
  | cons x xs' ih =>
    have h2 : levRec (x :: xs') ys ≤ 1 + levRec xs' ys := levRec_cons_left x xs' ys
    have hih : levRec xs' ys ≤ 1 + levRec xs' (y :: ys) := ih ys
    simp only [levRec]
    omega

theorem levRec_sub_left (x y : Char) (as : Str) :
    ∀ c : Str, levRec (x :: as) c ≤ 1 + levRec (y :: as) c := by
  intro c
  induction c with
  | nil => simp [levRec_nil_right]
  | cons z c' ih =>
    have hx : (if x = z then 0 else 1) ≤ 1 + (if y = z then 0 else 1) := by
      split <;> split <;> omega
    simp only [levRec]
    omega

theorem levRec_keep_lipschitz {as bs : Str}
    (H : ∀ c : Str, levRec as c ≤ 1 + levRec bs c) (z : Char) :
    ∀ c : Str, levRec (z :: as) c ≤ 1 + levRec (z :: bs) c := by
  intro c
  induction c with
  | nil =>
    have h0 := H []
    simp only [levRec_nil_right] at h0 ⊢
    simp only [List.length_cons]
    omega
  | cons w c' ih =>
    have h1 := H c'
    have h2 := H (w :: c')
    simp only [levRec]
    omega

theorem estep_levRec_le {a b : Str} (h : EStep a b) :
    ∀ c : Str, levRec a c ≤ 1 + levRec b c := by
  induction h with
  | ins x as => exact levRec_le_drop_left x as
  | del x as => exact levRec_cons_left x as
  | sub x y as => exact levRec_sub_left x y as
  | keep x hstep ih => exact levRec_keep_lipschitz ih x

/-! ### Levenshtein: edit chains -/

theorem echain_trans {a b c : Str} {m n : Nat}
    (h1 : EChain a b m) (h2 : EChain b c n) : EChain a c (m + n) := by
  induction h1 with
  | refl a => simpa using h2
  | step hs _ ih =>
    have h3 := EChain.step hs (ih h2)
    have harith : ∀ k l : Nat, k + l + 1 = k + 1 + l := by omega
    exact harith _ _ ▸ h3

theorem echain_snoc {a b c : Str} {n : Nat}
    (h1 : EChain a b n) (h2 : EStep b c) : EChain a c (n + 1) :=
  echain_trans h1 (EChain.step h2 (EChain.refl c))

theorem echain_keep {as bs : Str} {n : Nat} (x : Char)
    (h : EChain as bs n) : EChain (x :: as) (x :: bs) n := by
  induction h with
  | refl a => exact EChain.refl _
  | step hs _ ih => exact EChain.step (EStep.keep x hs) ih

theorem echain_nil_to (bs : Str) : EChain [] bs bs.length := by
  induction bs with
  | nil => exact EChain.refl _
  | cons y ys ih => exact echain_snoc ih (EStep.ins y ys)

theorem echain_to_nil (as : Str) : EChain as [] as.length := by
  induction as with
  | nil => exact EChain.refl _
  | cons x xs ih => exact EChain.step (EStep.del x xs) ih

theorem echain_of_levRec (a : Str) : ∀ b : Str, EChain a b (levRec a b) := by
  induction a with
  | nil => intro b; simpa [levRec] using echain_nil_to b
  | cons x as iha =>
    intro b
    induction b with
    | nil => simpa [levRec_nil_right] using echain_to_nil (x :: as)
    | cons y bs ihb =>
      have hunf : levRec (x :: as) (y :: bs)
          = min (levRec as bs + (if x = y then 0 else 1))
              (min (levRec as (y :: bs) + 1) (levRec (x :: as) bs + 1)) := by
        simp [levRec]
      rcases min_choice (levRec as bs + (if x = y then 0 else 1))
          (min (levRec as (y :: bs) + 1) (levRec (x :: as) bs + 1)) with h1 | h1
      · rw [hunf, h1]
        by_cases hxy : x = y
        · subst hxy
          simpa using echain_keep x (iha bs)
        · rw [if_neg hxy]
          exact EChain.step (EStep.sub x y as) (echain_keep y (iha bs))
      · rw [hunf, h1]
        rcases min_choice (levRec as (y :: bs) + 1) (levRec (x :: as) bs + 1) with h2 | h2
        · rw [h2]
          exact EChain.step (EStep.del x as) (iha (y :: bs))
        · rw [h2]
          exact echain_snoc ihb (EStep.ins y bs)

theorem levRec_le_echain {a b : Str} {n : Nat} (h : EChain a b n) : levRec a b ≤ n := by
  induction h with
  | refl a => simp [levRec_self]
  | step hs _ ih =>
    refine le_trans (estep_levRec_le hs _) ?_
    omega

theorem levRec_triangle (a b c : Str) : levRec a c ≤ levRec a b + levRec b c :=
  levRec_le_echain (echain_trans (echain_of_levRec a b) (echain_of_levRec b c))

theorem estep_symm {a b : Str} (h : EStep a b) : EStep b a := by
  induction h with
  | ins x as => exact EStep.del x as
  | del x as => exact EStep.ins x as
  | sub x y as => exact EStep.sub y x as
  | keep x _ ih => exact EStep.keep x ih

theorem echain_symm {a b : Str} {n : Nat} (h : EChain a b n) : EChain b a n := by
  induction h with
  | refl a => exact EChain.refl _
  | step hs _ ih => exact echain_snoc ih (estep_symm hs)

theorem levRec_symm (a b : Str) : levRec a b = levRec b a :=
  Nat.le_antisymm (levRec_le_echain (echain_symm (echain_of_levRec b a)))
    (levRec_le_echain (echain_symm (echain_of_levRec a b)))

theorem levRec_eq_zero_iff {a b : Str} : levRec a b = 0 ↔ a = b := by
  constructor
  · intro h
    induction a generalizing b with
    | nil =>
      cases b with
      | nil => rfl
      | cons y bs => simp [levRec] at h
    | cons x as ih =>
      cases b with
      | nil => simp [levRec_nil_right] at h
      | cons y bs =>
        simp only [levRec, Nat.min_eq_zero_iff, Nat.add_eq_zero] at h
        rcases h with ⟨h1, h2⟩ | ⟨h1, h2⟩ | ⟨h1, h2⟩
        · have hxy : x = y := by
            by_contra hne
            rw [if_neg hne] at h2
            omega
          rw [hxy, ih h1]
        · omega
        · omega
  · rintro rfl
    exact levRec_self a

/-! ### Levenshtein: invariance under reversal -/

theorem estep_append_one {u v : Str} (d : Char) (h : EStep u v) :
    EStep (u ++ [d]) (v ++ [d]) := by
  induction h with
  | ins x as => exact EStep.ins x (as ++ [d])
  | del x as => exact EStep.del x (as ++ [d])
  | sub x y as => exact EStep.sub x y (as ++ [d])
  | keep x _ ih => exact EStep.keep x ih

theorem estep_ins_last (u : Str) (x : Char) : EStep u (u ++ [x]) := by
  induction u with
  | nil => exact EStep.ins x []
  | cons c u' ih => exact EStep.keep c ih

theorem estep_del_last (u : Str) (x : Char) : EStep (u ++ [x]) u := by
  induction u with
  | nil => exact EStep.del x []
  | cons c u' ih => exact EStep.keep c ih

theorem estep_sub_last (u : Str) (x y : Char) : EStep (u ++ [x]) (u ++ [y]) := by
  induction u with
  | nil => exact EStep.sub x y []
  | cons c u' ih => exact EStep.keep c ih

theorem estep_rev {a b : Str} (h : EStep a b) : EStep a.reverse b.reverse := by
  induction h with
  | ins x as => simpa [List.reverse_cons] using estep_ins_last as.reverse x
  | del x as => simpa [List.reverse_cons] using estep_del_last as.reverse x
  | sub x y as => simpa [List.reverse_cons] using estep_sub_last as.reverse x y
  | keep x _ ih => simpa [List.reverse_cons] using estep_append_one x ih

theorem echain_rev {a b : Str} {n : Nat} (h : EChain a b n) :
    EChain a.reverse b.reverse n := by
  induction h with
  | refl a => exact EChain.refl _
  | step hs _ ih => exact EChain.step (estep_rev hs) ih

theorem levRec_rev (a b : Str) : levRec a.reverse b.reverse = levRec a b := by
  refine Nat.le_antisymm (levRec_le_echain (echain_rev (echain_of_levRec a b))) ?_
  have := levRec_le_echain (echain_rev (echain_of_levRec a.reverse b.reverse))
  simpa using this

/-! ### Levenshtein: the two-row program computes `levRec` (C9) -/

theorem specRow_shape (arev bacc btail : Str) :
    ∃ t, specRow arev bacc btail = levRec arev bacc :: t := by
  cases btail <;> exact ⟨_, rfl⟩

theorem specRow_headD (arev bacc btail : Str) (k : Nat) :
    (specRow arev bacc btail).headD k = levRec arev bacc := by
  cases btail <;> rfl

theorem levRowAux_spec (ai : Char) (arev : Str) :
    ∀ (btail bacc : Str),
      levRowAux ai btail (specRow arev bacc btail) (levRec (ai :: arev) bacc)
        = (specRow (ai :: arev) bacc btail).tail := by
  intro btail
  induction btail with
  | nil => intro bacc; rfl
  | cons bj rest ih =>
    intro bacc
    simp only [specRow, levRowAux]
    obtain ⟨t, ht⟩ := specRow_shape arev (bj :: bacc) rest
    have hup : (specRow arev (bj :: bacc) rest).headD 0 = levRec arev (bj :: bacc) :=
      specRow_headD _ _ _ _
    have hcell :
        min (levRec (ai :: arev) bacc + 1)
          (min ((specRow arev (bj :: bacc) rest).headD 0 + 1)
            (levRec arev bacc + (if ai = bj then 0 else 1)))
        = levRec (ai :: arev) (bj :: bacc) := by
      rw [hup]
      simp only [levRec]
      omega
    rw [hcell, ih (bj :: bacc)]
    obtain ⟨t', ht'⟩ := specRow_shape (ai :: arev) (bj :: bacc) rest
    rw [ht']
    rfl

theorem levRow_spec (ai : Char) (arev b : Str) :
    levRow ai b (specRow arev [] b) arev.length = specRow (ai :: arev) [] b := by
  unfold levRow
  have hhead : arev.length + 1 = levRec (ai :: arev) [] := by
    simp [levRec_nil_right]
  rw [hhead, levRowAux_spec ai arev b []]
  obtain ⟨t, ht⟩ := specRow_shape (ai :: arev) [] b
  rw [ht]
  rfl

theorem levLoop_spec (b : Str) :
    ∀ (arest arev : Str),
      levLoop b arest (specRow arev [] b) arev.length
        = specRow (arest.reverse ++ arev) [] b := by
  intro arest
  induction arest with
  | nil => intro arev; simp [levLoop]
  | cons ai rest ih =>
    intro arev
    show levLoop b rest (levRow ai b (specRow arev [] b) arev.length) (arev.length + 1)
        = specRow ((ai :: rest).reverse ++ arev) [] b
    rw [levRow_spec]
    have : arev.length + 1 = (ai :: arev).length := rfl
    rw [this, ih (ai :: arev)]
    congr 1
    simp

theorem specRow_range (btail : Str) :
    ∀ bacc : Str, specRow [] bacc btail
      = (List.range (btail.length + 1)).map (fun j => bacc.length + j) := by
  induction btail with
  | nil =>
    intro bacc
    have : List.range 1 = [0] := rfl
    simp [specRow, levRec, this]
  | cons bj rest ih =>
    intro bacc
    have hlev : levRec [] bacc = bacc.length := by simp [levRec]
    simp only [specRow, hlev, List.length_cons]
    rw [ih (bj :: bacc)]
    simp only [List.length_cons]
    conv_rhs => rw [List.range_succ_eq_map]
    simp only [List.map_cons, List.map_map, Nat.add_zero]
    congr 1
    apply List.map_congr_left
    intro j hj
    simp only [Function.comp_apply]
    omega

theorem specRow_getLastD (btail : Str) :
    ∀ (bacc arev : Str) (d : Nat),
      (specRow arev bacc btail).getLastD d = levRec arev (btail.reverse ++ bacc) := by
  induction btail with
  | nil => intro bacc arev d; rfl
  | cons bj rest ih =>
    intro bacc arev d
    simp only [specRow, List.getLastD_cons]
    rw [ih (bj :: bacc) arev]
    congr 1
    simp

theorem levenshtein_eq_levRec (a b : Str) : levenshtein a b = levRec a b := by
  unfold levenshtein
  by_cases hab : a = b
  · simp [hab, levRec_self]
  · rw [if_neg hab]
    by_cases ha : a.length = 0
    · have : a = [] := List.length_eq_zero.1 ha
      subst this
      simp [levRec]
    · rw [if_neg ha]
      by_cases hb : b.length = 0
      · have : b = [] := List.length_eq_zero.1 hb
        subst this
        simp [levRec_nil_right]
      · rw [if_neg hb]
        have hinit : List.range (b.length + 1) = specRow [] [] b := by
          rw [specRow_range b []]
          simp
        rw [hinit]
        have h0 : (0 : Nat) = ([] : Str).length := rfl
        rw [h0, levLoop_spec b a [], specRow_getLastD]
        simp [levRec_rev]

/-! ### BK-tree lemmas and C6 -/

theorem BKNode.strongInd (P : BKNode → Prop)
    (h : ∀ t ch, (∀ p ∈ ch, P p.2) → P (.node t ch)) : ∀ n, P n
  | .node t ch => h t ch (fun p hp => BKNode.strongInd P h p.2)
termination_by n => sizeOf n
decreasing_by
  have h1 := List.sizeOf_lt_of_mem hp
  cases p with
  | mk a b =>
    simp only [Prod.mk.sizeOf_spec] at h1
    simp [BKNode.node.sizeOf_spec]
    omega

theorem lev_symm (a b : Str) : levenshtein a b = levenshtein b a := by
  rw [levenshtein_eq_levRec, levenshtein_eq_levRec, levRec_symm]

theorem lev_triangle (a b c : Str) :
    levenshtein a c ≤ levenshtein a b + levenshtein b c := by
  rw [levenshtein_eq_levRec, levenshtein_eq_levRec, levenshtein_eq_levRec]
  exact levRec_triangle a b c

theorem lev_eq_zero_iff {a b : Str} : levenshtein a b = 0 ↔ a = b := by
  rw [levenshtein_eq_levRec]
  exact levRec_eq_zero_iff

theorem mem_termsKids {ch : List (Nat × BKNode)} {s : Str} :
    s ∈ BKNode.termsKids ch ↔ ∃ p, p ∈ ch ∧ s ∈ BKNode.terms p.2 := by
  induction ch with
  | nil => simp [BKNode.termsKids]
  | cons p rest ih =>
    cases p with
    | mk d c =>
      simp only [BKNode.termsKids, List.mem_append, ih, List.mem_cons]
      constructor
      · rintro (h | ⟨q, hq, hs⟩)
        · exact ⟨(d, c), Or.inl rfl, h⟩
        · exact ⟨q, Or.inr hq, hs⟩
      · rintro ⟨q, hq | hq, hs⟩
        · subst hq; exact Or.inl hs
        · exact Or.inr ⟨q, hq, hs⟩

theorem mem_add_terms (n : BKNode) :
    ∀ (term s : Str), s ∈ (n.add term).terms ↔ s = term ∨ s ∈ n.terms := by
  induction n using BKNode.strongInd with
  | h t ch ihch =>
    intro term s
    have key : ∀ (ch' : List (Nat × BKNode)),
        (∀ p ∈ ch', ∀ term s : Str, s ∈ (p.2.add term).terms ↔ s = term ∨ s ∈ p.2.terms) →
        ∀ k : Nat, s ∈ BKNode.termsKids (BKNode.addIn ch' k term) ↔
          s = term ∨ s ∈ BKNode.termsKids ch' := by
      intro ch'
      induction ch' with
      | nil =>
        intro _ k
        simp [BKNode.addIn, BKNode.termsKids, BKNode.terms]
      | cons p rest ihl =>
        intro hall k
        cases p with
        | mk d c =>
          by_cases hk : d = k
          · simp only [BKNode.addIn, if_pos hk, BKNode.termsKids, List.mem_append]
            rw [hall (d, c) (List.mem_cons_self _ _) term s]
            tauto
          · simp only [BKNode.addIn, if_neg hk, BKNode.termsKids, List.mem_append]
            rw [ihl (fun p hp => hall p (List.mem_cons_of_mem _ hp)) k]
            tauto
    show s ∈ BKNode.terms (.node t (BKNode.addIn ch (levenshtein term t) term)) ↔ _
    simp only [BKNode.terms, List.mem_cons]
    rw [key ch (fun p hp term s => ihch p hp term s) (levenshtein term t)]
    tauto

theorem bkwf_add (n : BKNode) :
    ∀ term : Str, BKWF n → BKWF (n.add term) := by
  induction n using BKNode.strongInd with
  | h t ch ihch =>
    intro term hwf
    cases hwf with
    | mk hdist hkids =>
      have key : ∀ (ch' : List (Nat × BKNode)),
          (∀ p ∈ ch', ∀ s ∈ p.2.terms, levenshtein s t = p.1) →
          (∀ p ∈ ch', BKWF p.2) →
          (∀ p ∈ ch', ∀ term : Str, BKWF p.2 → BKWF (p.2.add term)) →
          (∀ p ∈ ch', ∀ term s : Str, s ∈ (p.2.add term).terms ↔ s = term ∨ s ∈ p.2.terms) →
          ∀ k : Nat, k = levenshtein term t →
            (∀ p ∈ BKNode.addIn ch' k term, ∀ s ∈ p.2.terms, levenshtein s t = p.1) ∧
            (∀ p ∈ BKNode.addIn ch' k term, BKWF p.2) := by
        intro ch'
        induction ch' with
        | nil =>
          intro _ _ _ _ k hk
          constructor
          · intro p hp s hs
            simp only [BKNode.addIn, List.mem_singleton] at hp
            subst hp
            simp only [BKNode.terms, BKNode.termsKids, List.mem_singleton] at hs
            subst hs
            exact hk.symm
          · intro p hp
            simp only [BKNode.addIn, List.mem_singleton] at hp
            subst hp
            exact BKWF.mk (by simp) (by simp)
        | cons p rest ihl =>
          intro hd hw hadd hmem k hk
          cases p with
          | mk d c =>
            by_cases hdk : d = k
            · constructor
              · intro p hp s hs
                simp only [BKNode.addIn, if_pos hdk, List.mem_cons] at hp
                rcases hp with hp | hp
                · subst hp
                  rw [hmem (d, c) (List.mem_cons_self _ _) term s] at hs
                  rcases hs with hs | hs
                  · subst hs
                    rw [← hk, hdk]
                  · exact hd (d, c) (List.mem_cons_self _ _) s hs
                · exact hd _ (List.mem_cons_of_mem _ hp) s hs
              · intro p hp
                simp only [BKNode.addIn, if_pos hdk, List.mem_cons] at hp
                rcases hp with hp | hp
                · subst hp
                  exact hadd (d, c) (List.mem_cons_self _ _) term
                    (hw (d, c) (List.mem_cons_self _ _))
                · exact hw _ (List.mem_cons_of_mem _ hp)
            · have hrest := ihl (fun p hp => hd p (List.mem_cons_of_mem _ hp))
                (fun p hp => hw p (List.mem_cons_of_mem _ hp))
                (fun p hp => hadd p (List.mem_cons_of_mem _ hp))
                (fun p hp => hmem p (List.mem_cons_of_mem _ hp)) k hk
              constructor
              · intro p hp s hs
                simp only [BKNode.addIn, if_neg hdk, List.mem_cons] at hp
                rcases hp with hp | hp
                · subst hp
                  exact hd (d, c) (List.mem_cons_self _ _) s hs
                · exact hrest.1 p hp s hs
              · intro p hp
                simp only [BKNode.addIn, if_neg hdk, List.mem_cons] at hp
                rcases hp with hp | hp
                · subst hp
                  exact hw (d, c) (List.mem_cons_self _ _)
                · exact hrest.2 p hp
      have hk := key ch hdist hkids (fun p hp => ihch p hp) (fun p hp => mem_add_terms p.2)
        (levenshtein term t) rfl
      exact BKWF.mk hk.1 hk.2

theorem bk_search_sound (n : BKNode) :
    ∀ (q : Str) (maxd : Nat) (s : Str) (ds : Nat),
      (s, ds) ∈ BKNode.search q maxd n → ds = levenshtein q s ∧ ds ≤ maxd := by
  induction n using BKNode.strongInd with
  | h t ch ihch =>
    intro q maxd s ds hmem
    have key : ∀ (ch' : List (Nat × BKNode)),
        (∀ p ∈ ch', ∀ (q : Str) (maxd : Nat) (s : Str) (ds : Nat),
          (s, ds) ∈ BKNode.search q maxd p.2 → ds = levenshtein q s ∧ ds ≤ maxd) →
        ∀ d : Nat, (s, ds) ∈ BKNode.searchKids q maxd d ch' →
          ds = levenshtein q s ∧ ds ≤ maxd := by
      intro ch'
      induction ch' with
      | nil => intro _ d h; simp [BKNode.searchKids] at h
      | cons p rest ihl =>
        intro hall d h
        cases p with
        | mk cd c =>
          simp only [BKNode.searchKids, List.mem_append] at h
          rcases h with h | h
          · by_cases hcond : (d : Int) - maxd ≤ (cd : Int) ∧ (cd : Int) ≤ (d : Int) + maxd
            · rw [if_pos hcond] at h
              exact hall (cd, c) (List.mem_cons_self _ _) q maxd s ds h
            · rw [if_neg hcond] at h
              simp at h
          · exact ihl (fun p hp => hall p (List.mem_cons_of_mem _ hp)) d h
    simp only [BKNode.search, List.mem_append] at hmem
    rcases hmem with hmem | hmem
    · by_cases hcond : levenshtein q t ≤ maxd
      · rw [if_pos hcond] at hmem
        simp only [List.mem_singleton, Prod.mk.injEq] at hmem
        rcases hmem with ⟨rfl, rfl⟩
        exact ⟨rfl, hcond⟩
      · rw [if_neg hcond] at hmem
        simp at hmem
    · exact key ch (fun p hp => ihch p hp) (levenshtein q t) hmem

theorem mem_searchKids_of {q : Str} {maxd d : Nat} {x : Str × Nat} :
    ∀ (ch : List (Nat × BKNode)) (p : Nat × BKNode), p ∈ ch →
      ((d : Int) - maxd ≤ (p.1 : Int) ∧ (p.1 : Int) ≤ (d : Int) + maxd) →
      x ∈ BKNode.search q maxd p.2 → x ∈ BKNode.searchKids q maxd d ch := by
  intro ch
  induction ch with
  | nil => intro p hp; simp at hp
  | cons hd rest ihl =>
    intro p hp hcond hx
    rcases List.mem_cons.1 hp with heq | hp2
    · subst heq
      cases p with
      | mk cd c =>
        simp only [BKNode.searchKids, List.mem_append]
        exact Or.inl (by rw [if_pos hcond]; exact hx)
    · cases hd with
      | mk cd c =>
        simp only [BKNode.searchKids, List.mem_append]
        exact Or.inr (ihl p hp2 hcond hx)

theorem bk_search_complete (n : BKNode) :
    ∀ (q s : Str) (maxd : Nat), BKWF n → s ∈ n.terms → levenshtein q s ≤ maxd →
      (s, levenshtein q s) ∈ BKNode.search q maxd n := by
  induction n using BKNode.strongInd with
  | h t ch ihch =>
    intro q s maxd hwf hs hle
    cases hwf with
    | mk hdist hkids =>
      simp only [BKNode.terms, List.mem_cons] at hs
      simp only [BKNode.search, List.mem_append]
      rcases hs with rfl | hs
      · exact Or.inl (by rw [if_pos hle]; simp)
      · obtain ⟨p, hp, hsp⟩ := mem_termsKids.1 hs
        have hcd : levenshtein s t = p.1 := hdist p hp s hsp
        have htr1 : levenshtein q t ≤ levenshtein q s + levenshtein s t :=
          lev_triangle q s t
        have htr2 : levenshtein s t ≤ levenshtein s q + levenshtein q t :=
          lev_triangle s q t
        have hsymm : levenshtein s q = levenshtein q s := lev_symm s q
        have hcond : ((levenshtein q t : Int) - maxd ≤ (p.1 : Int) ∧
            (p.1 : Int) ≤ (levenshtein q t : Int) + maxd) := by
          rw [← hcd]
          constructor <;> (push_cast; omega)
        have hchild := ihch p hp q s maxd (hkids p hp) hsp hle
        exact Or.inr (mem_searchKids_of ch p hp hcond hchild)

theorem buildBK_wf_aux :
    ∀ (l : List Str) (o : Option BKNode), (∀ n, o = some n → BKWF n) →
      ∀ n, l.foldl BKTree.add o = some n → BKWF n := by
  intro l
  induction l with
  | nil => intro o ho n hn; exact ho n hn
  | cons x l' ih =>
    intro o ho n hn
    refine ih (BKTree.add o x) ?_ n hn
    intro m hm
    cases o with
    | none =>
      simp only [BKTree.add, Option.some.injEq] at hm
      subst hm
      exact BKWF.mk (by simp) (by simp)
    | some n0 =>
      simp only [BKTree.add, Option.some.injEq] at hm
      subst hm
      exact bkwf_add n0 x (ho n0 rfl)

theorem mem_terms_foldl :
    ∀ (l : List Str) (o : Option BKNode) (s : Str),
      (s ∈ l ∨ ∃ n, o = some n ∧ s ∈ n.terms) →
      ∃ n, l.foldl BKTree.add o = some n ∧ s ∈ n.terms := by
  intro l
  induction l with
  | nil =>
    intro o s h
    rcases h with h | ⟨n, hn, hs⟩
    · simp at h
    · exact ⟨n, hn, hs⟩
  | cons x l' ih =>
    intro o s h
    refine ih (BKTree.add o x) s ?_
    rcases h with h | ⟨n, hn, hs⟩
    · rcases List.mem_cons.1 h with rfl | h'
      · right
        cases o with
        | none => exact ⟨_, rfl, by simp [BKTree.add, BKNode.terms, BKNode.termsKids]⟩
        | some n0 =>
          exact ⟨n0.add s, rfl, (mem_add_terms n0 s s).2 (Or.inl rfl)⟩
      · exact Or.inl h'
    · right
      subst hn
      exact ⟨n.add x, rfl, (mem_add_terms n x s).2 (Or.inr hs)⟩

/-- C6: for every list of terms inserted into a fresh `BKTree` (with the
default `levenshtein` metric) and every query `q`: an inserted term `t` at
Levenshtein distance exactly 1 from `q` is returned by `search(q, max_dist)`
whenever `max_dist ≥ 1`; and `search(q, 0)` never returns an inserted term
different from `q`. -/
theorem c6_bktree_search (l : List Str) (q t : Str) (maxd : Nat)
    (h1 : t ∈ l) (h2 : levenshtein q t = 1) (h3 : 1 ≤ maxd) :
    (t, 1) ∈ BKTree.search q maxd (buildBK l) ∧
    (∀ s ds, (s, ds) ∈ BKTree.search q 0 (buildBK l) → s = q) := by
  constructor
  · obtain ⟨n, hn, htn⟩ := mem_terms_foldl l none t (Or.inl h1)
    have hwf : BKWF n := buildBK_wf_aux l none (by simp) n hn
    have hb : buildBK l = some n := hn
    rw [hb]
    have := bk_search_complete n q t maxd hwf htn (by omega)
    simpa [BKTree.search, h2] using this
  · intro s ds hmem
    cases hb : buildBK l with
    | none => rw [hb] at hmem; simp [BKTree.search] at hmem
    | some n =>
      rw [hb] at hmem
      simp only [BKTree.search] at hmem
      obtain ⟨hds, hle⟩ := bk_search_sound n q 0 s ds hmem
      have : levenshtein q s = 0 := by omega
      exact (lev_eq_zero_iff.1 this).symm

/-- C6 witness: inserting `AB` and `CD`, the query `AB1` (one edit from `AB`)
finds `AB` at distance 1 when `max_dist = 1`. -/
theorem c6_bktree_search_witness :
    ("AB".toList, 1) ∈ BKTree.search "AB1".toList 1 (buildBK ["AB".toList, "CD".toList]) :=
  (c6_bktree_search ["AB".toList, "CD".toList] "AB1".toList "AB".toList 1
    (by decide) (by decide) (by decide)).1

/-! ### C9: the two-row `levenshtein` equals the recursive reference -/

/-- C9: the iterative two-row `levenshtein` function returns exactly the
standard Levenshtein edit distance: on every pair of strings it coincides with
the naive recursive reference definition `levRec` (which, by
`echain_of_levRec` and `levRec_le_echain`, is the minimum number of
single-character insertions, deletions and substitutions transforming one
string into the other). -/
theorem c9_levenshtein_equals_reference (a b : Str) : levenshtein a b = levRec a b :=
  levenshtein_eq_levRec a b

/-! ### C2: UNSPSC flags in `build_pair_features` -/

theorem ite_one_eq_one {P : Prop} [Decidable P] :
    (if P then (1 : ℚ) else 0) = 1 ↔ P := by
  split
  · simp [*]
  · simpa [*] using one_ne_zero

theorem validate_unspsc_length {u : Str} (h : validate_unspsc u = true) :
    (normalize_unspsc u).length = 8 := by
  unfold validate_unspsc at h
  split at h
  · simp at h
  · simp only [Bool.and_eq_true, decide_eq_true_eq] at h
    exact h.1

/-- C2 (amended): the UNSPSC flags of `build_pair_features` do not require
well-formed 8-digit codes — they are set from non-emptiness, length and prefix
equality of the whitespace-stripped codes alone (the 8-digit check exists only
in `generate_candidates`' index).  When both codes do validate as 8-digit
strings, the exact/class/family/segment flags equal 1.0 exactly when the
full/6/4/2-digit prefixes agree. -/
theorem c2_unspsc_flags (a b : Rec)
    (ha : validate_unspsc a.unspsc = true) (hb : validate_unspsc b.unspsc = true) :
    (bpf_unspsc_exact a b = 1 ↔ normalize_unspsc a.unspsc = normalize_unspsc b.unspsc) ∧
    (bpf_unspsc_class_match a b = 1 ↔
      (normalize_unspsc a.unspsc).take 6 = (normalize_unspsc b.unspsc).take 6) ∧
    (bpf_unspsc_family_match a b = 1 ↔
      (normalize_unspsc a.unspsc).take 4 = (normalize_unspsc b.unspsc).take 4) ∧
    (bpf_unspsc_segment_match a b = 1 ↔
      (normalize_unspsc a.unspsc).take 2 = (normalize_unspsc b.unspsc).take 2) := by
  have hla := validate_unspsc_length ha
  have hlb := validate_unspsc_length hb
  have hna : normalize_unspsc a.unspsc ≠ [] := by
    intro h
    rw [h] at hla
    simp at hla
  have hnb : normalize_unspsc b.unspsc ≠ [] := by
    intro h
    rw [h] at hlb
    simp at hlb
  refine ⟨?_, ?_, ?_, ?_⟩
  · unfold bpf_unspsc_exact
    rw [ite_one_eq_one]
    constructor
    · exact fun h => h.2.2
    · exact fun h => ⟨hna, hnb, h⟩
  · unfold bpf_unspsc_class_match
    rw [ite_one_eq_one]
    constructor
    · exact fun h => h.2.2.2.2
    · exact fun h => ⟨hna, hnb, by omega, by omega, h⟩
  · unfold bpf_unspsc_family_match
    rw [ite_one_eq_one]
    constructor
    · exact fun h => h.2.2.2.2
    · exact fun h => ⟨hna, hnb, by omega, by omega, h⟩
  · unfold bpf_unspsc_segment_match
    rw [ite_one_eq_one]
    constructor
    · exact fun h => h.2.2.2.2
    · exact fun h => ⟨hna, hnb, by omega, by omega, h⟩

/-- C2 counterexample: with the non-8-digit category code `"AB"` on both
sides, the exact and segment flags are still 1.0, refuting the claim that the
flags are set only for well-formed 8-digit codes. -/
theorem c2_unspsc_flags_counterexample :
    bpf_unspsc_exact (Rec.mk [] [] "AB".toList [] [] [])
        (Rec.mk [] [] "AB".toList [] [] []) = 1 ∧
    bpf_unspsc_segment_match (Rec.mk [] [] "AB".toList [] [] [])
        (Rec.mk [] [] "AB".toList [] [] []) = 1 ∧
    validate_unspsc "AB".toList = false := by
  refine ⟨?_, ?_, by decide⟩
  · unfold bpf_unspsc_exact
    rw [if_pos (by decide)]
  · unfold bpf_unspsc_segment_match
    rw [if_pos (by decide)]

/-- C2 witness: two valid 8-digit codes that agree on the first two digits
produce `unspsc_segment_match = 1`. -/
theorem c2_unspsc_flags_witness :
    bpf_unspsc_segment_match (Rec.mk [] [] "12345678".toList [] [] [])
      (Rec.mk [] [] "12999999".toList [] [] []) = 1 :=
  ((c2_unspsc_flags (Rec.mk [] [] "12345678".toList [] [] [])
      (Rec.mk [] [] "12999999".toList [] [] [])
      (by decide) (by decide)).2.2.2).2 (by decide)

/-! ### C8: `text_tfidf_cos` never raises and defaults to 0.0 -/

/-- C8: the `text_tfidf_cos` feature of `build_pair_features` is a total
function of the pair: it is 0.0 whenever either record's concatenated
title+description is empty or whitespace-only, and 0.0 whenever the external
TF-IDF computation fails with `ValueError` (empty/degenerate vocabulary),
which the `try/except` catches — for every behaviour `tfidf` of the external
vectorizer. -/
theorem c8_text_tfidf_cos_safe (tfidf : Str → Str → Except Unit ℚ) (a b : Rec) :
    (pyStrip (textAll a) = [] ∨ pyStrip (textAll b) = [] →
      bpf_text_tfidf_cos tfidf a b = 0) ∧
    (∀ e, tfidf (textAll a) (textAll b) = Except.error e →
      bpf_text_tfidf_cos tfidf a b = 0) := by
  constructor
  · intro h
    unfold bpf_text_tfidf_cos
    rw [if_neg]
    tauto
  · intro e he
    unfold bpf_text_tfidf_cos
    by_cases hcond : pyStrip (textAll a) ≠ [] ∧ pyStrip (textAll b) ≠ []
    · rw [if_pos hcond, he]
    · rw [if_neg hcond]

/-- C8 witness: records with empty titles and descriptions (whitespace-only
concatenation) yield `text_tfidf_cos = 0`, via the theorem applied to an
always-failing external vectorizer. -/
theorem c8_text_tfidf_cos_safe_witness :
    bpf_text_tfidf_cos (fun _ _ => Except.error ())
      (Rec.mk [] [] [] [] [] []) (Rec.mk [] [] [] [] [] []) = 0 :=
  (c8_text_tfidf_cos_safe (fun _ _ => Except.error ())
    (Rec.mk [] [] [] [] [] []) (Rec.mk [] [] [] [] [] [])).1 (by decide)

/-! ### C7: the subsidiary/brand validity filter -/

/-- C7 (amended): when the filter accepts a name, the stripped name has length
at least 3, at least half of its characters are alphanumeric OR whitespace
(the regex `[^a-zA-Z0-9\s]` keeps whitespace, so whitespace counts toward the
"alphanumeric" half — not purely alphanumeric as claimed), it contains no
known location-name substring, and it is not itself a bare corporate-suffix
word; and the filter rejects `"Germany"` and rejects `"Inc"`. -/
theorem c7_alias_validity_filter :
    (∀ name : Str, is_valid_manufacturer_name name = true →
      3 ≤ (pyStrip name).length ∧
      (pyStrip name).length ≤
        2 * ((pyStrip name).filter (fun c => isAlnumAscii c || pyWs c)).length ∧
      (∀ w ∈ location_words, strContains w (lowerS (pyStrip name)) = false) ∧
      lowerS (pyStrip name) ∉ product_words) ∧
    is_valid_manufacturer_name "Germany".toList = false ∧
    is_valid_manufacturer_name "Inc".toList = false := by
  refine ⟨?_, by decide, by decide⟩
  intro name h
  unfold is_valid_manufacturer_name at h
  split at h
  · simp at h
  · rename_i h0
    push_neg at h0
    split at h
    · simp at h
    · split at h
      · simp at h
      · rename_i h1 h2
        split at h
        · simp at h
        · rename_i h3
          split at h
          · simp at h
          · rename_i h4
            refine ⟨by omega, by omega, ?_, ?_⟩
            · intro w hw
              by_contra hc
              exact h3 (List.any_eq_true.2 ⟨w, hw, by simpa using hc⟩)
            · simpa using h4

/-- C7 counterexample: the filter accepts `"a   b"` although fewer than half
of its characters are alphanumeric (2 of 5; only the alphanumeric-OR-whitespace
count reaches half), refuting the claim's purely-alphanumeric condition. -/
theorem c7_alias_validity_filter_counterexample :
    is_valid_manufacturer_name "a   b".toList = true ∧
    2 * (("a   b".toList).filter isAlnumAscii).length < ("a   b".toList).length := by
  constructor <;> decide

/-- C7 witness: the accepted name `"Siemens"` is not a bare corporate-suffix
word, via the acceptance direction of the filter theorem. -/
theorem c7_alias_validity_filter_witness :
    lowerS (pyStrip "Siemens".toList) ∉ product_words :=
  (c7_alias_validity_filter.1 "Siemens".toList (by decide)).2.2.2

/-! ### C10: `add_manual_alias` round-trips through the lookups -/

theorem aget_aset_self {α : Type} (l : List (Str × α)) (k : Str) (v : α) :
    aget (aset l k v) k = some v := by
  induction l with
  | nil => simp [aset, aget, List.find?]
  | cons p rest ih =>
    cases p with
    | mk k' v' =>
      by_cases hk : k' = k
      · subst hk
        simp [aset, aget, List.find?]
      · simp only [aset, if_neg hk]
        simp only [aget, List.find?] at ih ⊢
        have hdec : (decide (k' = k)) = false := by simp [hk]
        rw [hdec]
        exact ih

theorem aget_aupdate_self {α : Type} (l : List (Str × α)) (k : Str) (f : α → α) :
    aget (aupdate l k f) k = (aget l k).map f := by
  induction l with
  | nil => simp [aupdate, aget, List.find?]
  | cons p rest ih =>
    cases p with
    | mk k' v' =>
      by_cases hk : k' = k
      · subst hk
        simp [aupdate, aget, List.find?]
      · simp only [aupdate, if_neg hk]
        simp only [aget, List.find?] at ih ⊢
        have hdec : (decide (k' = k)) = false := by simp [hk]
        rw [hdec]
        exact ih

theorem mem_setAdd_self (s : List Str) (x : Str) : x ∈ setAdd s x := by
  unfold setAdd
  split
  · assumption
  · simp

theorem normalize_manufacturer_nil : normalize_manufacturer ([] : Str) = [] := by
  decide

/-- C10: immediately after `add_manual_alias(canonical_name, alias_name)`
(with both normalized forms non-empty, the guard under which the method
stores anything), `get_canonical_name(alias_name)` returns
`normalize_manufacturer(canonical_name)` and `get_aliases(canonical_name)`
contains `normalize_manufacturer(alias_name)` — from any prior manager
state. -/
theorem c10_add_manual_alias_roundtrip (m : ManufacturerAliasManager) (c a : Str)
    (hc : normalize_manufacturer c ≠ []) (ha : normalize_manufacturer a ≠ []) :
    get_canonical_name (add_manual_alias m c a) a = some (normalize_manufacturer c) ∧
    normalize_manufacturer a ∈ get_aliases (add_manual_alias m c a) c := by
  have hanil : a ≠ [] := by
    intro h
    rw [h, normalize_manufacturer_nil] at ha
    exact ha rfl
  have hcnil : c ≠ [] := by
    intro h
    rw [h, normalize_manufacturer_nil] at hc
    exact hc rfl
  have hm' : add_manual_alias m c a = {
      alias_to_canonical :=
        aset m.alias_to_canonical (normalize_manufacturer a) (normalize_manufacturer c)
      canonical_to_aliases :=
        aupdate (if (aget m.canonical_to_aliases (normalize_manufacturer c)).isSome
          then m.canonical_to_aliases
          else aset m.canonical_to_aliases (normalize_manufacturer c) [])
          (normalize_manufacturer c) (fun s => setAdd s (normalize_manufacturer a))
      canonical_to_normalized :=
        aset m.canonical_to_normalized (normalize_manufacturer c) c
      normalized_to_canonical :=
        aset m.normalized_to_canonical (normalize_manufacturer c)
          (normalize_manufacturer c) } := by
    unfold add_manual_alias
    rw [if_pos ⟨hc, ha⟩]
  constructor
  · unfold get_canonical_name
    rw [if_neg hanil, if_neg ha, hm']
    dsimp only
    rw [aget_aset_self]
    dsimp only
    rw [if_pos hc]
  · unfold get_aliases
    rw [if_neg hcnil, if_neg hc, hm']
    dsimp only
    rw [aget_aupdate_self]
    rcases hcase : aget (if (aget m.canonical_to_aliases (normalize_manufacturer c)).isSome
        then m.canonical_to_aliases
        else aset m.canonical_to_aliases (normalize_manufacturer c) [])
        (normalize_manufacturer c) with _ | s
    · exfalso
      revert hcase
      split
      · rename_i hsome
        intro hcase
        rcases Option.isSome_iff_exists.1 hsome with ⟨v, hv⟩
        rw [hcase] at hv
        exact Option.noConfusion hv
      · intro hcase
        rw [aget_aset_self] at hcase
        exact Option.noConfusion hcase
    · exact mem_setAdd_self s (normalize_manufacturer a)

/-- C10 witness: starting from the empty manager, adding the alias
`AcmeX` for `Acme` makes `get_canonical_name("AcmeX")` return `ACME`. -/
theorem c10_add_manual_alias_roundtrip_witness :
    get_canonical_name
      (add_manual_alias (ManufacturerAliasManager.mk [] [] [] [])
        "Acme".toList "AcmeX".toList) "AcmeX".toList
      = some (normalize_manufacturer "Acme".toList) :=
  (c10_add_manual_alias_roundtrip (ManufacturerAliasManager.mk [] [] [] [])
    "Acme".toList "AcmeX".toList (by decide) (by decide)).1


/-! ### Claim C3: `pn_variants` normal form and case-insensitivity

The OCR step of `pn_variants` runs before the final uppercasing, so full
case-insensitivity fails (see the counterexample).  The rest of this section
proves the amended, restricted congruence: `pn_variants` is invariant under
`List.Forall₂ ceq`. -/


/-! ### Case-equivalence machinery for `pn_variants` (claim C3) -/

theorem char_eq_of_toNat {a b : Char} (h : a.toNat = b.toNat) : a = b :=
  Char.ext (UInt32.ext h)

theorem toNat_charOfNat {n : Nat} (h : n ≤ 122) : (Char.ofNat n).toNat = n := by
  have hv : n.isValidChar := Or.inl (by omega)
  simp [Char.ofNat, hv]
  rfl

theorem ceq_refl (c : Char) : ceq c c := ⟨rfl, fun _ => rfl⟩

theorem ceqS_refl (s : Str) : List.Forall₂ ceq s s :=
  List.forall₂_same.2 (fun c _ => ceq_refl c)

theorem pyUpperChar_toNat (c : Char) :
    (pyUpperChar c).toNat =
      if 97 ≤ c.toNat ∧ c.toNat ≤ 122 then c.toNat - 32 else c.toNat := by
  unfold pyUpperChar
  by_cases hc : 97 ≤ c.toNat ∧ c.toNat ≤ 122
  · rw [if_pos (by simp [hc.1, hc.2]), if_pos hc, toNat_charOfNat (by omega)]
  · rw [if_neg (by simp only [Bool.and_eq_true, decide_eq_true_eq]; exact hc), if_neg hc]

theorem ceq_cases {c c' : Char} (h : ceq c c') :
    c = c' ∨ ∃ n, 65 ≤ n ∧ n ≤ 90 ∧ n ≠ 73 ∧ n ≠ 76 ∧
      (c.toNat = n ∨ c.toNat = n + 32) ∧ (c'.toNat = n ∨ c'.toNat = n + 32) := by
  obtain ⟨h1, h2⟩ := h
  have ht := congrArg Char.toNat h1
  rw [pyUpperChar_toNat, pyUpperChar_toNat] at ht
  by_cases hI : pyUpperChar c = 'I' ∨ pyUpperChar c = 'L'
  · exact Or.inl (h2 hI)
  · have hIn : (pyUpperChar c).toNat ≠ 73 ∧ (pyUpperChar c).toNat ≠ 76 := by
      constructor
      · intro hn; exact hI (Or.inl (char_eq_of_toNat (by rw [hn]; rfl)))
      · intro hn; exact hI (Or.inr (char_eq_of_toNat (by rw [hn]; rfl)))
    rw [pyUpperChar_toNat] at hIn
    by_cases hc : 97 ≤ c.toNat ∧ c.toNat ≤ 122
    · by_cases hc' : 97 ≤ c'.toNat ∧ c'.toNat ≤ 122
      · rw [if_pos hc, if_pos hc'] at ht
        exact Or.inl (char_eq_of_toNat (by omega))
      · rw [if_pos hc, if_neg hc'] at ht
        rw [if_pos hc] at hIn
        exact Or.inr ⟨c.toNat - 32, by omega, by omega, by omega, by omega,
          Or.inr (by omega), Or.inl (by omega)⟩
    · by_cases hc' : 97 ≤ c'.toNat ∧ c'.toNat ≤ 122
      · rw [if_neg hc, if_pos hc'] at ht
        rw [if_neg hc] at hIn
        exact Or.inr ⟨c.toNat, by omega, by omega, by omega, by omega,
          Or.inl rfl, Or.inr (by omega)⟩
      · rw [if_neg hc, if_neg hc'] at ht
        exact Or.inl (char_eq_of_toNat ht)

theorem ceq_eq_iff_of_not_letter {c c' : Char} (h : ceq c c') {x : Char}
    (hx : x.toNat < 65 ∨ (90 < x.toNat ∧ x.toNat < 97) ∨ 122 < x.toNat) :
    c = x ↔ c' = x := by
  rcases ceq_cases h with rfl | ⟨n, h1, h2, _, _, hc, hc'⟩
  · exact Iff.rfl
  · constructor
    · intro he; subst he; exfalso; omega
    · intro he; subst he; exfalso; omega

theorem ceq_decide_eq {c c' : Char} (h : ceq c c') (x : Char)
    (hx : x.toNat < 65 ∨ (90 < x.toNat ∧ x.toNat < 97) ∨ 122 < x.toNat) :
    decide (c = x) = decide (c' = x) :=
  decide_eq_decide.mpr (ceq_eq_iff_of_not_letter h hx)

theorem ceq_toNat_decide_eq {c c' : Char} (h : ceq c c') (m : Nat)
    (hm : m < 65 ∨ (90 < m ∧ m < 97) ∨ 122 < m) :
    decide (c.toNat = m) = decide (c'.toNat = m) := by
  rcases ceq_cases h with rfl | ⟨n, h1, h2, _, _, hc, hc'⟩
  · rfl
  · rw [decide_eq_decide]
    omega

theorem ceq_pyWs {c c' : Char} (h : ceq c c') : pyWs c = pyWs c' := by
  unfold pyWs
  rw [ceq_toNat_decide_eq h 32 (by omega), ceq_toNat_decide_eq h 9 (by omega),
      ceq_toNat_decide_eq h 10 (by omega), ceq_toNat_decide_eq h 13 (by omega),
      ceq_toNat_decide_eq h 11 (by omega), ceq_toNat_decide_eq h 12 (by omega)]

theorem ceq_isAsciiLetter {c c' : Char} (h : ceq c c') :
    isAsciiLetter c = isAsciiLetter c' := by
  rcases ceq_cases h with rfl | ⟨n, h1, h2, _, _, hc, hc'⟩
  · rfl
  · have f : ∀ d : Char, d.toNat = n ∨ d.toNat = n + 32 → isAsciiLetter d = true := by
      intro d hd
      simp only [isAsciiLetter, Bool.or_eq_true, Bool.and_eq_true, decide_eq_true_eq]
      omega
    rw [f c hc, f c' hc']

theorem ceq_isDigitC {c c' : Char} (h : ceq c c') : isDigitC c = isDigitC c' := by
  rcases ceq_cases h with rfl | ⟨n, h1, h2, _, _, hc, hc'⟩
  · rfl
  · have f : ∀ d : Char, d.toNat = n ∨ d.toNat = n + 32 → isDigitC d = false := by
      intro d hd
      apply Bool.eq_false_iff.mpr
      simp only [ne_eq, isDigitC, Bool.and_eq_true, decide_eq_true_eq]
      omega
    rw [f c hc, f c' hc']

theorem ceq_isSepPN {c c' : Char} (h : ceq c c') : isSepPN c = isSepPN c' := by
  unfold isSepPN
  rw [ceq_decide_eq h '-' (by decide), ceq_decide_eq h '_' (by decide),
      ceq_decide_eq h '/' (by decide), ceq_decide_eq h '.' (by decide)]

theorem ceq_isSepP1 {c c' : Char} (h : ceq c c') : isSepP1 c = isSepP1 c' := by
  unfold isSepP1
  rw [ceq_decide_eq h '-' (by decide), ceq_decide_eq h '_' (by decide),
      ceq_decide_eq h '/' (by decide), ceq_decide_eq h '.' (by decide), ceq_pyWs h]

theorem ceq_nl_decide {c c' : Char} (h : ceq c c') :
    decide (c = '\n') = decide (c' = '\n') :=
  ceq_decide_eq h '\n' (by decide)

theorem ceq_lower {c c' : Char} (h : ceq c c') : pyLowerChar c = pyLowerChar c' := by
  rcases ceq_cases h with rfl | ⟨n, h1, h2, _, _, hc, hc'⟩
  · rfl
  · have f : ∀ d : Char, d.toNat = n ∨ d.toNat = n + 32 →
        pyLowerChar d = Char.ofNat (n + 32) := by
      intro d hd
      unfold pyLowerChar
      rcases hd with hd | hd
      · rw [if_pos (by simp only [Bool.and_eq_true, decide_eq_true_eq]; omega)]
        rw [hd]
      · rw [if_neg (by simp only [Bool.and_eq_true, decide_eq_true_eq]; omega)]
        exact char_eq_of_toNat (by rw [toNat_charOfNat (by omega)]; omega)
    rw [f c hc, f c' hc']



theorem ceqS_append {a b u v : Str} (h1 : List.Forall₂ ceq a b)
    (h2 : List.Forall₂ ceq u v) : List.Forall₂ ceq (a ++ u) (b ++ v) := by
  induction h1 with
  | nil => exact h2
  | cons hc ht ih => exact List.Forall₂.cons hc ih

theorem ceqS_upperS {a b : Str} (h : List.Forall₂ ceq a b) : upperS a = upperS b := by
  induction h with
  | nil => rfl
  | cons hc ht ih =>
    simp only [upperS, List.map_cons] at ih ⊢
    rw [hc.1, ih]

theorem ceqS_lowerS {a b : Str} (h : List.Forall₂ ceq a b) : lowerS a = lowerS b := by
  induction h with
  | nil => rfl
  | cons hc ht ih =>
    simp only [lowerS, List.map_cons] at ih ⊢
    rw [ceq_lower hc, ih]

theorem ceqS_map {f : Char → Char} (hf : ∀ {c c' : Char}, ceq c c' → ceq (f c) (f c'))
    {a b : Str} (h : List.Forall₂ ceq a b) : List.Forall₂ ceq (a.map f) (b.map f) := by
  induction h with
  | nil => exact List.Forall₂.nil
  | cons hc ht ih => exact List.Forall₂.cons (hf hc) ih

theorem ceqS_filter {p : Char → Bool} (hp : ∀ {c c' : Char}, ceq c c' → p c = p c')
    {a b : Str} (h : List.Forall₂ ceq a b) :
    List.Forall₂ ceq (a.filter p) (b.filter p) := by
  induction h with
  | nil => exact List.Forall₂.nil
  | @cons c c' as bs hc ht ih =>
    simp only [List.filter_cons]
    rw [hp hc]
    by_cases hpc : p c' = true
    · rw [if_pos hpc, if_pos hpc]
      exact List.Forall₂.cons hc ih
    · rw [if_neg hpc, if_neg hpc]
      exact ih

theorem ceqS_dropWhile {p : Char → Bool} (hp : ∀ {c c' : Char}, ceq c c' → p c = p c')
    {a b : Str} (h : List.Forall₂ ceq a b) :
    List.Forall₂ ceq (a.dropWhile p) (b.dropWhile p) := by
  induction h with
  | nil => exact List.Forall₂.nil
  | @cons c c' as bs hc ht ih =>
    simp only [List.dropWhile_cons]
    rw [hp hc]
    by_cases hpc : p c' = true
    · rw [if_pos hpc, if_pos hpc]
      exact ih
    · rw [if_neg hpc, if_neg hpc]
      exact List.Forall₂.cons hc ht

theorem ceqS_takeWhile {p : Char → Bool} (hp : ∀ {c c' : Char}, ceq c c' → p c = p c')
    {a b : Str} (h : List.Forall₂ ceq a b) :
    List.Forall₂ ceq (a.takeWhile p) (b.takeWhile p) := by
  induction h with
  | nil => exact List.Forall₂.nil
  | @cons c c' as bs hc ht ih =>
    simp only [List.takeWhile_cons]
    rw [hp hc]
    by_cases hpc : p c' = true
    · rw [if_pos hpc, if_pos hpc]
      exact List.Forall₂.cons hc ih
    · rw [if_neg hpc, if_neg hpc]
      exact List.Forall₂.nil

theorem ceqS_reverse {a b : Str} (h : List.Forall₂ ceq a b) :
    List.Forall₂ ceq a.reverse b.reverse := by
  induction h with
  | nil => exact List.Forall₂.nil
  | @cons c c' as bs hc ht ih =>
    simp only [List.reverse_cons]
    exact ceqS_append ih (List.Forall₂.cons hc List.Forall₂.nil)

theorem ceqS_pyStrip {a b : Str} (h : List.Forall₂ ceq a b) :
    List.Forall₂ ceq (pyStrip a) (pyStrip b) :=
  ceqS_reverse (ceqS_dropWhile (fun hc => ceq_pyWs hc)
    (ceqS_reverse (ceqS_dropWhile (fun hc => ceq_pyWs hc) h)))

theorem ceqS_take (n : Nat) {a b : Str} (h : List.Forall₂ ceq a b) :
    List.Forall₂ ceq (a.take n) (b.take n) := by
  induction h generalizing n with
  | nil =>
    simp only [List.take_nil]
    exact List.Forall₂.nil
  | @cons c c' as bs hc ht ih =>
    cases n with
    | zero => exact List.Forall₂.nil
    | succ m =>
      simp only [List.take_succ_cons]
      exact List.Forall₂.cons hc (ih m)

theorem ceqS_drop (n : Nat) {a b : Str} (h : List.Forall₂ ceq a b) :
    List.Forall₂ ceq (a.drop n) (b.drop n) := by
  induction h generalizing n with
  | nil =>
    simp only [List.drop_nil]
    exact List.Forall₂.nil
  | @cons c c' as bs hc ht ih =>
    cases n with
    | zero => exact List.Forall₂.cons hc ht
    | succ m =>
      simp only [List.drop_succ_cons]
      exact ih m

theorem ceqS_getD (d : Char) (i : Nat) {a b : Str} (h : List.Forall₂ ceq a b) :
    ceq (a.getD i d) (b.getD i d) := by
  induction h generalizing i with
  | nil => exact ceq_refl d
  | @cons c c' as bs hc ht ih =>
    cases i with
    | zero => exact hc
    | succ m =>
      simp only [List.getD_cons_succ]
      exact ih m

theorem ceqS_all {p : Char → Bool} (hp : ∀ {c c' : Char}, ceq c c' → p c = p c')
    {a b : Str} (h : List.Forall₂ ceq a b) : a.all p = b.all p := by
  induction h with
  | nil => rfl
  | @cons c c' as bs hc ht ih =>
    simp only [List.all_cons]
    rw [hp hc, ih]

theorem ceqS_contains {x : Char}
    (hx : x.toNat < 65 ∨ (90 < x.toNat ∧ x.toNat < 97) ∨ 122 < x.toNat)
    {a b : Str} (h : List.Forall₂ ceq a b) : a.contains x = b.contains x := by
  induction h with
  | nil => rfl
  | @cons c c' as bs hc ht ih =>
    simp only [List.contains_cons]
    have e : (x == c) = (x == c') :=
      decide_eq_decide.mpr
        (by rw [eq_comm, show (x = c') = (c' = x) from propext eq_comm]
            exact ceq_eq_iff_of_not_letter hc hx)
    rw [e, ih]



theorem ceqS_eq_nil_iff {a b : Str} (h : List.Forall₂ ceq a b) : a = [] ↔ b = [] := by
  cases h with
  | nil => exact Iff.rfl
  | cons hc ht => simp

theorem p1cond_congr {a b : Str} (h : List.Forall₂ ceq a b) : p1cond a = p1cond b := by
  funext k
  unfold p1cond
  rw [h.length_eq, ceqS_all (fun hc => ceq_isAsciiLetter hc) (ceqS_take k h),
      ceq_isSepP1 (ceqS_getD ' ' k h), ceq_nl_decide (ceqS_getD ' ' (k + 1) h)]

theorem p2cond_congr {a b : Str} (h : List.Forall₂ ceq a b) : p2cond a = p2cond b := by
  funext k
  unfold p2cond
  rw [h.length_eq, ceqS_all (fun hc => ceq_isAsciiLetter hc) (ceqS_take k h),
      ceq_isDigitC (ceqS_getD ' ' k h), ceq_nl_decide (ceqS_getD ' ' (k + 1) h)]

theorem matchP1_congr {a b : Str} (h : List.Forall₂ ceq a b) :
    (matchP1 a = none ∧ matchP1 b = none) ∨
    ∃ p r r', matchP1 a = some (p, r) ∧ matchP1 b = some (p, r') ∧
      List.Forall₂ ceq r r' := by
  unfold matchP1
  rw [p1cond_congr h]
  cases hf : [6, 5, 4, 3, 2].find? (p1cond b) with
  | none => exact Or.inl ⟨rfl, rfl⟩
  | some k =>
    refine Or.inr ⟨upperS (a.take k),
      (a.drop (k + 1)).takeWhile (fun c => !decide (c = '\n')),
      (b.drop (k + 1)).takeWhile (fun c => !decide (c = '\n')), rfl, ?_, ?_⟩
    · rw [ceqS_upperS (ceqS_take k h)]
    · exact ceqS_takeWhile (fun hc => by rw [ceq_nl_decide hc]) (ceqS_drop (k + 1) h)

theorem matchP2_congr {a b : Str} (h : List.Forall₂ ceq a b) :
    (matchP2 a = none ∧ matchP2 b = none) ∨
    ∃ p r r', matchP2 a = some (p, r) ∧ matchP2 b = some (p, r') ∧
      List.Forall₂ ceq r r' := by
  unfold matchP2
  rw [p2cond_congr h]
  cases hf : [6, 5, 4, 3, 2].find? (p2cond b) with
  | none => exact Or.inl ⟨rfl, rfl⟩
  | some k =>
    refine Or.inr ⟨upperS (a.take k),
      a.getD k ' ' :: (a.drop (k + 1)).takeWhile (fun c => !decide (c = '\n')),
      b.getD k ' ' :: (b.drop (k + 1)).takeWhile (fun c => !decide (c = '\n')), rfl, ?_, ?_⟩
    · rw [ceqS_upperS (ceqS_take k h)]
    · exact List.Forall₂.cons (ceqS_getD ' ' k h)
        (ceqS_takeWhile (fun hc => by rw [ceq_nl_decide hc]) (ceqS_drop (k + 1) h))

theorem hasSepSpace_congr {a b : Str} (h : List.Forall₂ ceq a b) :
    hasSepSpace a = hasSepSpace b := by
  unfold hasSepSpace
  rw [ceqS_contains (by decide) h, ceqS_contains (by decide) h,
      ceqS_contains (by decide) h, ceqS_contains (by decide) h,
      ceqS_contains (by decide) h]

theorem candScore_congr (known : List Str) (pfx : Str) {pnA pnB remA remB : Str}
    (hpn : List.Forall₂ ceq pnA pnB) (hrem : List.Forall₂ ceq remA remB) :
    candScore known pnA pfx remA = candScore known pnB pfx remB := by
  unfold candScore
  have hviff : (remA ≠ [] ∧ 2 ≤ remA.length ∧ 2 ≤ pfx.length) ↔
      (remB ≠ [] ∧ 2 ≤ remB.length ∧ 2 ≤ pfx.length) := by
    rw [hrem.length_eq, ne_eq, ceqS_eq_nil_iff hrem]
  by_cases hv : remB ≠ [] ∧ 2 ≤ remB.length ∧ 2 ≤ pfx.length
  · rw [if_pos (hviff.mpr hv), if_pos hv,
        hasSepSpace_congr (ceqS_take (pfx.length + 1) hpn)]
  · rw [if_neg (fun hA => hv (hviff.mp hA)), if_neg hv]

theorem empStep_congr {known : List Str} {pnA pnB : Str}
    (hpn : List.Forall₂ ceq pnA pnB) {accA accB : (Str × Str) × Int}
    (h1 : accA.1.1 = accB.1.1) (h2 : List.Forall₂ ceq accA.1.2 accB.1.2)
    (h3 : accA.2 = accB.2) {cA cB : Option (Str × Str)}
    (hc : (cA = none ∧ cB = none) ∨
      ∃ p r r', cA = some (p, r) ∧ cB = some (p, r') ∧ List.Forall₂ ceq r r') :
    (empStep known pnA accA cA).1.1 = (empStep known pnB accB cB).1.1 ∧
    List.Forall₂ ceq (empStep known pnA accA cA).1.2 (empStep known pnB accB cB).1.2 ∧
    (empStep known pnA accA cA).2 = (empStep known pnB accB cB).2 := by
  rcases hc with ⟨hA, hB⟩ | ⟨p, r, r', hA, hB, hr⟩
  · rw [hA, hB]
    exact ⟨h1, h2, h3⟩
  · rw [hA, hB]
    unfold empStep
    dsimp only
    rw [candScore_congr known p hpn hr]
    cases hsc : candScore known pnB p r' with
    | none => exact ⟨h1, h2, h3⟩
    | some sc =>
      dsimp only
      rw [h3]
      by_cases hlt : accB.2 < sc
      · rw [if_pos hlt, if_pos hlt]
        exact ⟨rfl, hr, rfl⟩
      · rw [if_neg hlt, if_neg hlt]
        exact ⟨h1, h2, h3⟩

theorem fbCheck_congr {cA cB : Option (Str × Str)}
    (hc : (cA = none ∧ cB = none) ∨
      ∃ p r r', cA = some (p, r) ∧ cB = some (p, r') ∧ List.Forall₂ ceq r r') :
    (fbCheck cA = none ∧ fbCheck cB = none) ∨
    ∃ p r r', fbCheck cA = some (p, r) ∧ fbCheck cB = some (p, r') ∧
      List.Forall₂ ceq r r' := by
  rcases hc with ⟨hA, hB⟩ | ⟨p, r, r', hA, hB, hr⟩
  · rw [hA, hB]
    exact Or.inl ⟨rfl, rfl⟩
  · rw [hA, hB]
    unfold fbCheck
    dsimp only
    have hviff : (r ≠ [] ∧ 2 ≤ r.length ∧ 2 ≤ p.length) ↔
        (r' ≠ [] ∧ 2 ≤ r'.length ∧ 2 ≤ p.length) := by
      rw [hr.length_eq, ne_eq, ceqS_eq_nil_iff hr]
    by_cases hv : r' ≠ [] ∧ 2 ≤ r'.length ∧ 2 ≤ p.length
    · rw [if_pos (hviff.mpr hv), if_pos hv]
      exact Or.inr ⟨p, r, r', rfl, rfl, hr⟩
    · rw [if_neg (fun hA2 => hv (hviff.mp hA2)), if_neg hv]
      exact Or.inl ⟨rfl, rfl⟩

theorem emp_congr {a b : Str} (h : List.Forall₂ ceq a b) (mfr : Option Str) :
    (extract_manufacturer_pref a mfr).1 = (extract_manufacturer_pref b mfr).1 ∧
    List.Forall₂ ceq (extract_manufacturer_pref a mfr).2
      (extract_manufacturer_pref b mfr).2 := by
  unfold extract_manufacturer_pref
  by_cases hb : b = []
  · have ha : a = [] := (ceqS_eq_nil_iff h).mpr hb
    rw [if_pos ha, if_pos hb]
    exact ⟨rfl, h⟩
  · have ha : a ≠ [] := fun he => hb ((ceqS_eq_nil_iff h).mp he)
    rw [if_neg ha, if_neg hb]
    have s0 : ((([], a), (-1 : Int)) : (Str × Str) × Int).1.1 =
        ((([], b), (-1 : Int)) : (Str × Str) × Int).1.1 := rfl
    have s1 := @empStep_congr (knownOf mfr) _ _ h _ _ s0 h rfl _ _ (matchP1_congr h)
    have s2 := @empStep_congr (knownOf mfr) _ _ h _ _ s1.1 s1.2.1 s1.2.2 _ _ (matchP2_congr h)
    have hfoldA : [matchP1 a, matchP2 a].foldl (empStep (knownOf mfr) a) (([], a), -1) =
        empStep (knownOf mfr) a (empStep (knownOf mfr) a (([], a), -1) (matchP1 a))
          (matchP2 a) := rfl
    have hfoldB : [matchP1 b, matchP2 b].foldl (empStep (knownOf mfr) b) (([], b), -1) =
        empStep (knownOf mfr) b (empStep (knownOf mfr) b (([], b), -1) (matchP1 b))
          (matchP2 b) := rfl
    rw [hfoldA, hfoldB]
    rcases s2 with ⟨e1, e2, e3⟩
    by_cases hcond : (empStep (knownOf mfr) b (empStep (knownOf mfr) b (([], b), -1)
        (matchP1 b)) (matchP2 b)).2 < 0 ∧ mfr.getD [] = []
    · rw [if_pos (by rw [e3]; exact hcond), if_pos hcond]
      rcases fbCheck_congr (matchP1_congr h) with ⟨f1A, f1B⟩ | ⟨p, r, r', f1A, f1B, hr⟩
      · rw [f1A, f1B]
        rcases fbCheck_congr (matchP2_congr h) with ⟨f2A, f2B⟩ | ⟨p, r, r', f2A, f2B, hr⟩
        · rw [f2A, f2B]
          exact ⟨e1, e2⟩
        · rw [f2A, f2B]
          exact ⟨rfl, hr⟩
      · rw [f1A, f1B]
        exact ⟨rfl, hr⟩
    · rw [if_neg (by rw [e3]; exact hcond), if_neg hcond]
      exact ⟨e1, e2⟩



theorem forall2_append {α β : Type} {r : α → β → Prop} {a b : List α} {u v : List β}
    (h1 : List.Forall₂ r a u) (h2 : List.Forall₂ r b v) :
    List.Forall₂ r (a ++ b) (u ++ v) := by
  induction h1 with
  | nil => exact h2
  | cons hc ht ih => exact List.Forall₂.cons hc ih

theorem take_eq_self_iff_le {l : List Char} {n : Nat} : l.take n = l ↔ l.length ≤ n := by
  constructor
  · intro he
    have hlen := congrArg List.length he
    rw [List.length_take] at hlen
    omega
  · intro hle
    exact List.take_of_length_le hle

theorem matchAltAt_congr (alts : List AltSpec) {a b : Str} (h : List.Forall₂ ceq a b) :
    (matchAltAt alts a = none ∧ matchAltAt alts b = none) ∨
    ∃ g g', matchAltAt alts a = some g ∧ matchAltAt alts b = some g' ∧
      List.Forall₂ ceq g g' := by
  induction alts with
  | nil => exact Or.inl ⟨rfl, rfl⟩
  | cons alt rest ih =>
    cases alt with
    | lit l =>
      simp only [matchAltAt]
      have hviff : (l.length ≤ a.length ∧ lowerS (a.take l.length) = l ∧
          (a.drop l.length).all pyWs) ↔
          (l.length ≤ b.length ∧ lowerS (b.take l.length) = l ∧
          (b.drop l.length).all pyWs) := by
        rw [h.length_eq, ceqS_lowerS (ceqS_take l.length h),
            ceqS_all (fun hc => ceq_pyWs hc) (ceqS_drop l.length h)]
      by_cases hv : l.length ≤ b.length ∧ lowerS (b.take l.length) = l ∧
          (b.drop l.length).all pyWs
      · rw [if_pos (hviff.mpr hv), if_pos hv]
        exact Or.inr ⟨a.take l.length, b.take l.length, rfl, rfl, ceqS_take l.length h⟩
      · rw [if_neg (fun hA => hv (hviff.mp hA)), if_neg hv]
        exact ih
    | litD l =>
      simp only [matchAltAt]
      have hviff : (l.length ≤ a.length ∧ lowerS (a.take l.length) = l) ↔
          (l.length ≤ b.length ∧ lowerS (b.take l.length) = l) := by
        rw [h.length_eq, ceqS_lowerS (ceqS_take l.length h)]
      by_cases hv : l.length ≤ b.length ∧ lowerS (b.take l.length) = l
      · rw [if_pos (hviff.mpr hv), if_pos hv]
        have hfind : [3, 2, 1].find? (fun d =>
            decide (d ≤ (a.drop l.length).length) &&
            ((a.drop l.length).take d).all isDigitC &&
            ((a.drop l.length).drop d).all pyWs) = [3, 2, 1].find? (fun d =>
            decide (d ≤ (b.drop l.length).length) &&
            ((b.drop l.length).take d).all isDigitC &&
            ((b.drop l.length).drop d).all pyWs) := by
          have hd := ceqS_drop l.length h
          congr 1
          funext d
          rw [hd.length_eq, ceqS_all (fun hc => ceq_isDigitC hc) (ceqS_take d hd),
              ceqS_all (fun hc => ceq_pyWs hc) (ceqS_drop d hd)]
        rw [hfind]
        cases hfd : [3, 2, 1].find? (fun d =>
            decide (d ≤ (b.drop l.length).length) &&
            ((b.drop l.length).take d).all isDigitC &&
            ((b.drop l.length).drop d).all pyWs) with
        | none => exact ih
        | some d =>
          exact Or.inr ⟨a.take (l.length + d), b.take (l.length + d), rfl, rfl,
            ceqS_take (l.length + d) h⟩
      · rw [if_neg (fun hA => hv (hviff.mp hA)), if_neg hv]
        exact ih

theorem tryWGo_congr (alts : List AltSpec) {a b : Str} (h : List.Forall₂ ceq a b)
    (w : Nat) :
    (tryWGo alts a w = none ∧ tryWGo alts b w = none) ∨
    ∃ g g', tryWGo alts a w = some g ∧ tryWGo alts b w = some g' ∧
      List.Forall₂ ceq g g' := by
  induction w with
  | zero =>
    simp only [tryWGo]
    exact matchAltAt_congr alts h
  | succ w ih =>
    simp only [tryWGo]
    rcases matchAltAt_congr alts (ceqS_drop (w + 1) h) with ⟨mA, mB⟩ | ⟨g, g', mA, mB, hg⟩
    · rw [mA, mB]
      exact ih
    · rw [mA, mB]
      exact Or.inr ⟨g, g', rfl, rfl, hg⟩

theorem tryWsAlt_congr (alts : List AltSpec) {a b : Str} (h : List.Forall₂ ceq a b) :
    (tryWsAlt alts a = none ∧ tryWsAlt alts b = none) ∨
    ∃ g g', tryWsAlt alts a = some g ∧ tryWsAlt alts b = some g' ∧
      List.Forall₂ ceq g g' := by
  unfold tryWsAlt
  rw [(ceqS_takeWhile (fun hc => ceq_pyWs hc) h).length_eq]
  exact tryWGo_congr alts h _

theorem fsGo_congr (alts : List AltSpec) {a b : Str} (h : List.Forall₂ ceq a b) :
    ∀ (i : Nat),
    (fsGo alts a i = none ∧ fsGo alts b i = none) ∨
    ∃ j g g', fsGo alts a i = some (j, g) ∧ fsGo alts b i = some (j, g') ∧
      List.Forall₂ ceq g g' := by
  induction h with
  | nil =>
    intro i
    simp only [fsGo]
    cases ht : tryWsAlt alts ([] : Str) with
    | none => exact Or.inl ⟨rfl, rfl⟩
    | some g => exact Or.inr ⟨i, g, g, rfl, rfl, ceqS_refl g⟩
  | @cons c c' as bs hc ht ih =>
    intro i
    simp only [fsGo]
    rcases tryWsAlt_congr alts (List.Forall₂.cons hc ht) with ⟨tA, tB⟩ | ⟨g, g', tA, tB, hg⟩
    · rw [tA, tB]
      have hnl : (c = '\n') ↔ (c' = '\n') := ceq_eq_iff_of_not_letter hc (by decide)
      by_cases hcn : c' = '\n'
      · rw [if_pos (hnl.mpr hcn), if_pos hcn]
        exact Or.inl ⟨rfl, rfl⟩
      · rw [if_neg (fun hA => hcn (hnl.mp hA)), if_neg hcn]
        exact ih (i + 1)
    · rw [tA, tB]
      exact Or.inr ⟨i, g, g', rfl, rfl, hg⟩

theorem suffixTryPattern_congr (alts : List AltSpec) {a b : Str}
    (h : List.Forall₂ ceq a b) :
    (suffixTryPattern alts a = none ∧ suffixTryPattern alts b = none) ∨
    ∃ i s, suffixTryPattern alts a = some (a.take i, s) ∧
      suffixTryPattern alts b = some (b.take i, s) := by
  unfold suffixTryPattern
  rcases fsGo_congr alts h 0 with ⟨fA, fB⟩ | ⟨j, g, g', fA, fB, hg⟩
  · rw [fA, fB]
    exact Or.inl ⟨rfl, rfl⟩
  · rw [fA, fB]
    dsimp only
    have hviff : (3 ≤ (pyStrip (a.take j)).length ∧ (upperS g).length ≤ 10) ↔
        (3 ≤ (pyStrip (b.take j)).length ∧ (upperS g').length ≤ 10) := by
      rw [(ceqS_pyStrip (ceqS_take j h)).length_eq, ceqS_upperS hg]
    by_cases hv : 3 ≤ (pyStrip (b.take j)).length ∧ (upperS g').length ≤ 10
    · rw [if_pos (hviff.mpr hv), if_pos hv]
      exact Or.inr ⟨j, upperS g', by rw [ceqS_upperS hg], rfl⟩
    · rw [if_neg (fun hA => hv (hviff.mp hA)), if_neg hv]
      exact Or.inl ⟨rfl, rfl⟩

theorem extract_unit_suffix_congr {a b : Str} (h : List.Forall₂ ceq a b) :
    ∃ i s, extract_unit_suffix a = (a.take i, s) ∧
      extract_unit_suffix b = (b.take i, s) := by
  unfold extract_unit_suffix
  rcases suffixTryPattern_congr unitAlts1 h with ⟨h1A, h1B⟩ | ⟨i, s, h1A, h1B⟩
  · rw [h1A, h1B]
    rcases suffixTryPattern_congr unitAlts2 h with ⟨h2A, h2B⟩ | ⟨i, s, h2A, h2B⟩
    · rw [h2A, h2B]
      rcases suffixTryPattern_congr unitAlts3 h with ⟨h3A, h3B⟩ | ⟨i, s, h3A, h3B⟩
      · rw [h3A, h3B]
        rcases suffixTryPattern_congr unitAlts4 h with ⟨h4A, h4B⟩ | ⟨i, s, h4A, h4B⟩
        · rw [h4A, h4B]
          refine ⟨a.length, [], ?_, ?_⟩
          · simp [Option.orElse, List.take_length]
          · simp [Option.orElse, h.length_eq.symm, List.take_of_length_le]
        · rw [h4A, h4B]
          exact ⟨i, s, by simp [Option.orElse], by simp [Option.orElse]⟩
      · rw [h3A, h3B]
        exact ⟨i, s, by simp [Option.orElse], by simp [Option.orElse]⟩
    · rw [h2A, h2B]
      exact ⟨i, s, by simp [Option.orElse], by simp [Option.orElse]⟩
  · rw [h1A, h1B]
    exact ⟨i, s, by simp [Option.orElse], by simp [Option.orElse]⟩



theorem easGo_congr : ∀ (fuel : Nat) {a b : Str}, List.Forall₂ ceq a b →
    List.Forall₂ ceq (easGo fuel a).1 (easGo fuel b).1 ∧
    (easGo fuel a).2 = (easGo fuel b).2 := by
  intro fuel
  induction fuel with
  | zero =>
    intro a b h
    exact ⟨h, rfl⟩
  | succ f ih =>
    intro a b h
    obtain ⟨i, s, hA, hB⟩ := extract_unit_suffix_congr h
    simp only [easGo]
    rw [hA, hB]
    dsimp only
    have htake : (a.take i = a) ↔ (b.take i = b) := by
      rw [take_eq_self_iff_le, take_eq_self_iff_le, h.length_eq]
    by_cases hcnd : s ≠ [] ∧ b.take i ≠ b
    · rw [if_pos ⟨hcnd.1, fun hA2 => hcnd.2 (htake.mp hA2)⟩, if_pos hcnd]
      have hrec := ih (ceqS_pyStrip (ceqS_take i h))
      exact ⟨hrec.1, by rw [hrec.2]⟩
    · rw [if_neg (fun hA2 => hcnd ⟨hA2.1, fun hB2 => hA2.2 (htake.mpr hB2)⟩), if_neg hcnd]
      exact ⟨h, rfl⟩

theorem extract_all_suffixes_congr {a b : Str} (h : List.Forall₂ ceq a b) :
    List.Forall₂ ceq (extract_all_suffixes a).1 (extract_all_suffixes b).1 ∧
    (extract_all_suffixes a).2 = (extract_all_suffixes b).2 := by
  unfold extract_all_suffixes
  rw [h.length_eq]
  exact easGo_congr (b.length + 1) (ceqS_pyStrip h)

theorem tryWPos_congr (alts : List AltSpec) {a b : Str} (h : List.Forall₂ ceq a b)
    (w : Nat) :
    (tryWPos alts a w = none ∧ tryWPos alts b w = none) ∨
    ∃ g g', tryWPos alts a w = some g ∧ tryWPos alts b w = some g' ∧
      List.Forall₂ ceq g g' := by
  induction w with
  | zero => exact Or.inl ⟨rfl, rfl⟩
  | succ w ih =>
    simp only [tryWPos]
    rcases matchAltAt_congr alts (ceqS_drop (w + 1) h) with ⟨mA, mB⟩ | ⟨g, g', mA, mB, hg⟩
    · rw [mA, mB]
      exact ih
    · rw [mA, mB]
      exact Or.inr ⟨g, g', rfl, rfl, hg⟩

theorem matchAAt_congr (alts : List AltSpec) {a b : Str} (h : List.Forall₂ ceq a b) :
    matchAAt alts a = matchAAt alts b := by
  unfold matchAAt
  rw [(ceqS_takeWhile (fun hc => ceq_pyWs hc) h).length_eq]
  rcases tryWPos_congr alts h ((b.takeWhile pyWs).length) with ⟨tA, tB⟩ | ⟨g, g', tA, tB, hg⟩
  · rw [tA, tB]
  · rw [tA, tB]
    rfl

theorem bSepPart_congr (alts : List AltSpec) {a b : Str} (h : List.Forall₂ ceq a b) :
    bSepPart alts a = bSepPart alts b := by
  unfold bSepPart
  have h1 : (tryWsAlt alts a).isSome = (tryWsAlt alts b).isSome := by
    rcases tryWsAlt_congr alts h with ⟨tA, tB⟩ | ⟨g, g', tA, tB, hg⟩ <;> rw [tA, tB] <;> try rfl
  rw [h1]
  cases h with
  | nil => rfl
  | @cons c c' as bs hc ht =>
    have h2 : (tryWsAlt alts as).isSome = (tryWsAlt alts bs).isSome := by
      rcases tryWsAlt_congr alts ht with ⟨tA, tB⟩ | ⟨g, g', tA, tB, hg⟩ <;> rw [tA, tB] <;> try rfl
    dsimp only
    rw [ceq_isSepPN hc, h2]

theorem tryW1_congr (alts : List AltSpec) {a b : Str} (h : List.Forall₂ ceq a b)
    (w : Nat) : tryW1 alts a w = tryW1 alts b w := by
  induction w with
  | zero =>
    simp only [tryW1]
    exact bSepPart_congr alts h
  | succ w ih =>
    simp only [tryW1]
    rw [bSepPart_congr alts (ceqS_drop (w + 1) h), ih]

theorem matchBAt_congr (alts : List AltSpec) {a b : Str} (h : List.Forall₂ ceq a b) :
    matchBAt alts a = matchBAt alts b := by
  unfold matchBAt
  rw [(ceqS_takeWhile (fun hc => ceq_pyWs hc) h).length_eq]
  exact tryW1_congr alts h _

theorem subfGo_congr {atP : Str → Bool}
    (hat : ∀ {u v : Str}, List.Forall₂ ceq u v → atP u = atP v) :
    ∀ {a b : Str}, List.Forall₂ ceq a b → ∀ (m : Nat),
      subfGo atP a m = subfGo atP b m := by
  intro a b h
  induction h with
  | nil => intro m; rfl
  | @cons c c' as bs hc ht ih =>
    intro m
    simp only [subfGo]
    rw [hat (List.Forall₂.cons hc ht)]
    by_cases hp : atP (c' :: bs) = true
    · rw [if_pos hp, if_pos hp]
    · rw [if_neg hp, if_neg hp]
      exact ih (m + 1)

theorem s4step_congr {a b : Str} (h : List.Forall₂ ceq a b) {atP : Str → Bool}
    (hat : ∀ {u v : Str}, List.Forall₂ ceq u v → atP u = atP v)
    {accA accB : Option Str}
    (hacc : (accA = none ∧ accB = none) ∨
      ∃ m, accA = some (a.take m) ∧ accB = some (b.take m)) :
    (s4step a accA atP = none ∧ s4step b accB atP = none) ∨
    ∃ m, s4step a accA atP = some (a.take m) ∧ s4step b accB atP = some (b.take m) := by
  rcases hacc with ⟨hA, hB⟩ | ⟨m, hA, hB⟩
  · rw [hA, hB]
    unfold s4step
    rw [subfGo_congr hat h 0]
    cases hs : subfGo atP b 0 with
    | none => exact Or.inl ⟨rfl, rfl⟩
    | some m =>
      dsimp only
      have htake : (a.take m = a) ↔ (b.take m = b) := by
        rw [take_eq_self_iff_le, take_eq_self_iff_le, h.length_eq]
      have hstrip : (pyStrip (a.take m) = []) ↔ (pyStrip (b.take m) = []) :=
        ceqS_eq_nil_iff (ceqS_pyStrip (ceqS_take m h))
      by_cases hc : b.take m ≠ b ∧ pyStrip (b.take m) ≠ []
      · rw [if_pos ⟨fun h2 => hc.1 (htake.mp h2), fun h2 => hc.2 (hstrip.mp h2)⟩,
            if_pos hc]
        exact Or.inr ⟨m, rfl, rfl⟩
      · rw [if_neg (fun h2 => hc ⟨fun h3 => h2.1 (htake.mpr h3),
            fun h3 => h2.2 (hstrip.mpr h3)⟩), if_neg hc]
        exact Or.inl ⟨rfl, rfl⟩
  · rw [hA, hB]
    exact Or.inr ⟨m, rfl, rfl⟩

theorem s4Apply_congr {a b : Str} (h : List.Forall₂ ceq a b) :
    (s4Apply a = none ∧ s4Apply b = none) ∨
    ∃ m, s4Apply a = some (a.take m) ∧ s4Apply b = some (b.take m) := by
  have g1 := s4step_congr h (fun hr => matchAAt_congr unitAlts1 hr) (Or.inl ⟨rfl, rfl⟩)
  have g2 := s4step_congr h (fun hr => matchAAt_congr unitAlts2 hr) g1
  have g3 := s4step_congr h (fun hr => matchBAt_congr unitAlts3 hr) g2
  have g4 := s4step_congr h (fun hr => matchBAt_congr unitAlts4 hr) g3
  exact g4

theorem s4Go_congr : ∀ (fuel : Nat) {a b : Str}, List.Forall₂ ceq a b →
    List.Forall₂ (List.Forall₂ ceq) (s4Go fuel a) (s4Go fuel b) := by
  intro fuel
  induction fuel with
  | zero =>
    intro a b h
    exact List.Forall₂.nil
  | succ f ih =>
    intro a b h
    simp only [s4Go]
    rcases s4Apply_congr h with ⟨hA, hB⟩ | ⟨m, hA, hB⟩
    · rw [hA, hB]
      exact List.Forall₂.nil
    · rw [hA, hB]
      exact List.Forall₂.cons (ceqS_take m h) (ih (ceqS_take m h))

theorem step4Fallback_congr {a b : Str} (h : List.Forall₂ ceq a b) :
    List.Forall₂ (List.Forall₂ ceq) (step4Fallback a) (step4Fallback b) := by
  unfold step4Fallback
  rw [h.length_eq]
  exact s4Go_congr (b.length + 1) h



theorem mapAppend_rel {core core' : Str} (h : List.Forall₂ ceq core core')
    (sufs : List Str) :
    List.Forall₂ (List.Forall₂ ceq) (sufs.map (fun s => core ++ s))
      (sufs.map (fun s => core' ++ s)) := by
  induction sufs with
  | nil => exact List.Forall₂.nil
  | cons s ss ih => exact List.Forall₂.cons (ceqS_append h (ceqS_refl s)) ih

theorem variantCore_congr {pfx coreA coreB : Str} {sufs : List Str}
    (hc : List.Forall₂ ceq coreA coreB) :
    List.Forall₂ (List.Forall₂ ceq) (variantCore pfx coreA sufs)
      (variantCore pfx coreB sufs) := by
  unfold variantCore
  have hcn : (coreA ≠ []) ↔ (coreB ≠ []) := by rw [ne_eq, ceqS_eq_nil_iff hc]
  have hcombo : List.Forall₂ (List.Forall₂ ceq)
      (if 1 < sufs.length then [coreA ++ sufs.headD [], coreA ++ sufs.flatten] else [])
      (if 1 < sufs.length then [coreB ++ sufs.headD [], coreB ++ sufs.flatten] else []) := by
    by_cases h2 : 1 < sufs.length
    · rw [if_pos h2, if_pos h2]
      exact List.Forall₂.cons (ceqS_append hc (ceqS_refl _))
        (List.Forall₂.cons (ceqS_append hc (ceqS_refl _)) List.Forall₂.nil)
    · rw [if_neg h2, if_neg h2]
      exact List.Forall₂.nil
  by_cases h1 : pfx ≠ [] ∧ coreB ≠ [] ∧ sufs ≠ []
  · rw [if_pos ⟨h1.1, hcn.mpr h1.2.1, h1.2.2⟩, if_pos h1]
    exact forall2_append (forall2_append
      (List.Forall₂.cons hc (List.Forall₂.cons (ceqS_append (ceqS_refl pfx) hc)
        List.Forall₂.nil))
      (mapAppend_rel hc sufs)) hcombo
  · rw [if_neg (fun hA => h1 ⟨hA.1, hcn.mp hA.2.1, hA.2.2⟩), if_neg h1]
    by_cases h2 : pfx ≠ [] ∧ coreB ≠ []
    · rw [if_pos ⟨h2.1, hcn.mpr h2.2⟩, if_pos h2]
      exact List.Forall₂.cons hc (List.Forall₂.cons (ceqS_append (ceqS_refl pfx) hc)
        List.Forall₂.nil)
    · rw [if_neg (fun hA => h2 ⟨hA.1, hcn.mp hA.2⟩), if_neg h2]
      by_cases h3 : coreB ≠ [] ∧ sufs ≠ []
      · rw [if_pos ⟨hcn.mpr h3.1, h3.2⟩, if_pos h3]
        exact forall2_append (forall2_append
          (List.Forall₂.cons hc List.Forall₂.nil) (mapAppend_rel hc sufs)) hcombo
      · rw [if_neg (fun hA => h3 ⟨hcn.mp hA.1, hA.2⟩), if_neg h3]
        by_cases h4 : coreB ≠ []
        · rw [if_pos (hcn.mpr h4), if_pos h4]
          exact List.Forall₂.cons hc List.Forall₂.nil
        · rw [if_neg (fun hA => h4 (hcn.mp hA)), if_neg h4]
          exact List.Forall₂.nil

theorem ceq_ocrO_char {c c' : Char} (h : ceq c c') :
    ceq (if c = 'O' || c = 'o' then '0' else c)
      (if c' = 'O' || c' = 'o' then '0' else c') := by
  rcases ceq_cases h with rfl | ⟨n, h1, h2, h3, h4, hc, hc'⟩
  · exact ceq_refl _
  · by_cases hn : n = 79
    · subst hn
      have f : ∀ d : Char, d.toNat = 79 ∨ d.toNat = 111 →
          (if d = 'O' || d = 'o' then '0' else d) = '0' := by
        intro d hd
        rcases hd with hd | hd
        · rw [if_pos (by
            simp only [Bool.or_eq_true, decide_eq_true_eq]
            exact Or.inl (char_eq_of_toNat (by rw [hd]; rfl)))]
        · rw [if_pos (by
            simp only [Bool.or_eq_true, decide_eq_true_eq]
            exact Or.inr (char_eq_of_toNat (by rw [hd]; rfl)))]
      rw [f c (by omega), f c' (by omega)]
      exact ceq_refl '0'
    · have f : ∀ d : Char, d.toNat = n ∨ d.toNat = n + 32 →
          (if d = 'O' || d = 'o' then '0' else d) = d := by
        intro d hd
        rw [if_neg ?hcond]
        case hcond =>
          simp only [Bool.or_eq_true, decide_eq_true_eq]
          rintro (rfl | rfl)
          · have : Char.toNat 'O' = 79 := rfl
            omega
          · have : Char.toNat 'o' = 111 := rfl
            omega
      rw [f c hc, f c' hc']
      exact h

theorem ceq_ocrI_char {c c' : Char} (h : ceq c c') :
    ceq (if c = 'I' || c = 'l' then '1' else c)
      (if c' = 'I' || c' = 'l' then '1' else c') := by
  by_cases hIL : pyUpperChar c = 'I' ∨ pyUpperChar c = 'L'
  · rw [h.2 hIL]
    exact ceq_refl _
  · have f : ∀ d : Char, pyUpperChar d = pyUpperChar c →
        (if d = 'I' || d = 'l' then '1' else d) = d := by
      intro d hd
      have hcond : ¬(d = 'I' ∨ d = 'l') := by
        rintro (rfl | rfl)
        · exact hIL (Or.inl (by rw [← hd]; decide))
        · exact hIL (Or.inr (by rw [← hd]; decide))
      rw [if_neg (by simpa using hcond)]
    rw [f c rfl, f c' h.1.symm]
    exact h

theorem step5Of_rel {v w : Str} (h : List.Forall₂ ceq v w) :
    List.Forall₂ (List.Forall₂ ceq) (step5Of v) (step5Of w) := by
  have h1 : List.Forall₂ ceq (removeWsAll v) (removeWsAll w) :=
    ceqS_filter (fun hc => by rw [ceq_pyWs hc]) h
  have h2 : List.Forall₂ ceq (removeSeps (removeWsAll v)) (removeSeps (removeWsAll w)) :=
    ceqS_filter (fun hc => by rw [ceq_isSepPN hc]) h1
  have h3 : List.Forall₂ ceq (ocrO (removeSeps (removeWsAll v)))
      (ocrO (removeSeps (removeWsAll w))) :=
    ceqS_map (fun hc => ceq_ocrO_char hc) h2
  have h4 : List.Forall₂ ceq (ocrI (ocrO (removeSeps (removeWsAll v))))
      (ocrI (ocrO (removeSeps (removeWsAll w)))) :=
    ceqS_map (fun hc => ceq_ocrI_char hc) h3
  exact List.Forall₂.cons h (List.Forall₂.cons h1 (List.Forall₂.cons h2
    (List.Forall₂.cons h3 (List.Forall₂.cons h4 List.Forall₂.nil))))

theorem flatMap_step5_rel : ∀ {la lb : List Str},
    List.Forall₂ (List.Forall₂ ceq) la lb →
    List.Forall₂ (List.Forall₂ ceq) (la.flatMap step5Of) (lb.flatMap step5Of) := by
  intro la lb h
  induction h with
  | nil => exact List.Forall₂.nil
  | @cons v w va wb hvw ht ih =>
    simp only [List.flatMap_cons]
    exact forall2_append (step5Of_rel hvw) ih

theorem filterMapUp_congr : ∀ {la lb : List Str},
    List.Forall₂ (List.Forall₂ ceq) la lb →
    (la.filter (fun v => v ≠ [])).map upperS = (lb.filter (fun v => v ≠ [])).map upperS := by
  intro la lb h
  induction h with
  | nil => rfl
  | @cons v w va wb hvw ht ih =>
    simp only [List.filter_cons]
    have hd : (decide (v ≠ [])) = (decide (w ≠ [])) := by
      rw [decide_eq_decide, ne_eq, ceqS_eq_nil_iff hvw]
    rw [hd]
    by_cases hw : w ≠ []
    · rw [if_pos (by simpa using hw), if_pos (by simpa using hw)]
      simp only [List.map_cons]
      rw [ceqS_upperS hvw, ih]
    · rw [if_neg (by simpa using hw), if_neg (by simpa using hw)]
      exact ih

theorem pnBaseVariants_congr {a b : Str} (h : List.Forall₂ ceq a b) (m : Option Str) :
    List.Forall₂ (List.Forall₂ ceq) (pnBaseVariants a m) (pnBaseVariants b m) := by
  unfold pnBaseVariants
  obtain ⟨e1, e2⟩ := emp_congr h m
  obtain ⟨hcore, hsufs⟩ := extract_all_suffixes_congr e2
  refine forall2_append (forall2_append (List.Forall₂.cons h List.Forall₂.nil) ?_) ?_
  · rw [e1, hsufs]
    exact variantCore_congr hcore
  · rw [e1, hsufs]
    by_cases hf : ¬((extract_manufacturer_pref b m).1 ≠ [] ∨
        (extract_all_suffixes (extract_manufacturer_pref b m).2).2 ≠ [])
    · rw [if_pos hf, if_pos hf]
      exact step4Fallback_congr h
    · rw [if_neg hf, if_neg hf]
      exact List.Forall₂.nil

theorem pn_variants_congr {a b : Str} (h : List.Forall₂ ceq a b) (m : Option Str) :
    pn_variants a m = pn_variants b m := by
  unfold pn_variants
  have hstrip := ceqS_pyStrip h
  have hnil : (pyStrip a = []) ↔ (pyStrip b = []) := ceqS_eq_nil_iff hstrip
  by_cases hb : pyStrip b = []
  · rw [if_pos (hnil.mpr hb), if_pos hb]
  · rw [if_neg (fun hA => hb (hnil.mp hA)), if_neg hb]
    rw [filterMapUp_congr (flatMap_step5_rel (pnBaseVariants_congr hstrip (normMfrOf m)))]



theorem mem_setAdd_iff {s : List Str} {x y : Str} : y ∈ setAdd s x ↔ y ∈ s ∨ y = x := by
  unfold setAdd
  by_cases hx : x ∈ s
  · rw [if_pos hx]
    constructor
    · exact Or.inl
    · rintro (h | rfl)
      · exact h
      · exact hx
  · rw [if_neg hx]
    simp [List.mem_append]

theorem mem_foldl_setAdd : ∀ (l : List Str) (acc : List Str) (x : Str),
    x ∈ l.foldl setAdd acc ↔ x ∈ acc ∨ x ∈ l := by
  intro l
  induction l with
  | nil => simp
  | cons y ys ih =>
    intro acc x
    simp only [List.foldl_cons, ih, mem_setAdd_iff, List.mem_cons]
    tauto

theorem mem_dedupList {l : List Str} {x : Str} : x ∈ dedupList l ↔ x ∈ l := by
  unfold dedupList
  rw [mem_foldl_setAdd]
  simp

theorem mem_pn_variants_norm (pn : Str) (m : Option Str)
    (h1 : pyStrip pn ≠ [])
    (h2 : ocrI (ocrO (removeSeps (removeWsAll (pyStrip pn)))) ≠ []) :
    upperS (ocrI (ocrO (removeSeps (removeWsAll (pyStrip pn))))) ∈ pn_variants pn m := by
  unfold pn_variants
  rw [if_neg h1, mem_dedupList]
  refine List.mem_map.2 ⟨ocrI (ocrO (removeSeps (removeWsAll (pyStrip pn)))), ?_, rfl⟩
  rw [List.mem_filter]
  refine ⟨?_, by simpa using h2⟩
  refine List.mem_flatMap.2 ⟨pyStrip pn, ?_, ?_⟩
  · unfold pnBaseVariants
    simp
  · unfold step5Of
    simp

/-- **C3** (amended).  Part 1: whenever the stripped part number is nonempty
and its whitespace- and separator-stripped OCR image is nonempty, the list
returned by `pn_variants` contains the uppercase of that image, where the OCR
rewriting (`O`,`o` to `0`; `I`,`l` to `1`) is applied before the final
uppercasing.  Part 2: two part numbers that differ only in letter case and
agree on every character whose uppercase form is `I` or `L` produce exactly
the same variant list, for every manufacturer context. -/
theorem c3_pn_variants :
    (∀ (pn : Str) (m : Option Str), pyStrip pn ≠ [] →
      ocrI (ocrO (removeSeps (removeWsAll (pyStrip pn)))) ≠ [] →
      upperS (ocrI (ocrO (removeSeps (removeWsAll (pyStrip pn))))) ∈ pn_variants pn m) ∧
    (∀ (pn pn' : Str) (m : Option Str), List.Forall₂ ceq pn pn' →
      pn_variants pn m = pn_variants pn' m) :=
  ⟨mem_pn_variants_norm, fun _ pn' m h => pn_variants_congr h m⟩

/-- **C3** witness: both parts of the amended theorem at concrete inputs:
`AB12` is among the variants of `"ab-12"`, and `"abc"`/`"ABC"` (no I/L
characters) give identical variant lists. -/
theorem c3_pn_variants_witness :
    upperS (ocrI (ocrO (removeSeps (removeWsAll (pyStrip "ab-12".toList))))) ∈
      pn_variants "ab-12".toList none ∧
    pn_variants "abc".toList none = pn_variants "ABC".toList none :=
  ⟨c3_pn_variants.1 "ab-12".toList none (by decide) (by decide),
   c3_pn_variants.2 "abc".toList "ABC".toList none
     (List.Forall₂.cons (by decide) (List.Forall₂.cons (by decide)
       (List.Forall₂.cons (by decide) List.Forall₂.nil)))⟩

/-- **C3** counterexample to the original claim: `"i"` and `"I"` differ only
in letter case, and the uppercase separator-stripped OCR-normalized form of
`"i"` is `"1"`; yet `pn_variants "I"` contains `"1"` while `pn_variants "i"`
does not — so the normal form described by the claim is missing and the two
variant sets differ.  (`pn_variants` uppercases only after the OCR step,
which rewrites `I` but not `i`.) -/
theorem c3_pn_variants_counterexample :
    upperS "i".toList = upperS "I".toList ∧
    ocrI (ocrO (removeSeps (removeWsAll (upperS (pyStrip "i".toList))))) = "1".toList ∧
    "1".toList ∈ pn_variants "I".toList none ∧
    "1".toList ∉ pn_variants "i".toList none :=
  ⟨by decide, by decide, by decide, by decide⟩



/-! ### Claims C1 and C4: `generate_candidates` scoring and ranking -/


/-! ### Score-dictionary lemmas for `generate_candidates` -/

theorem nget_nset_self (l : List (Nat × ℚ)) (k : Nat) (v : ℚ) :
    nget (nset l k v) k = some v := by
  induction l with
  | nil => simp [nset, nget, List.find?]
  | cons p rest ih =>
    cases p with
    | mk k' v' =>
      by_cases hk : k' = k
      · subst hk
        simp [nset, nget, List.find?]
      · simp only [nset, if_neg hk]
        simp only [nget, List.find?] at ih ⊢
        have hdec : (decide (k' = k)) = false := by simp [hk]
        rw [hdec]
        exact ih

theorem nget_nset_other (l : List (Nat × ℚ)) (k : Nat) (v : ℚ) (k' : Nat)
    (h : k' ≠ k) : nget (nset l k v) k' = nget l k' := by
  induction l with
  | nil =>
    simp only [nset, nget, List.find?]
    have hdec : (decide (k = k')) = false := decide_eq_false (fun he => h he.symm)
    rw [hdec]
  | cons p rest ih =>
    cases p with
    | mk k0 v0 =>
      by_cases hk : k0 = k
      · subst hk
        simp only [nset, if_pos rfl]
        simp only [nget, List.find?]
        have hdec : (decide (k0 = k')) = false := decide_eq_false (fun he => h he.symm)
        rw [hdec]
      · simp only [nset, if_neg hk]
        simp only [nget, List.find?] at ih ⊢
        by_cases h0 : k0 = k'
        · subst h0
          simp
        · have hdec : (decide (k0 = k')) = false := by simp [h0]
          rw [hdec]
          exact ih

theorem nset_keys (l : List (Nat × ℚ)) (k : Nat) (v : ℚ) :
    (nset l k v).map (·.1) =
      if k ∈ l.map (·.1) then l.map (·.1) else l.map (·.1) ++ [k] := by
  induction l with
  | nil => simp [nset]
  | cons p rest ih =>
    cases p with
    | mk k0 v0 =>
      by_cases hk : k0 = k
      · subst hk
        simp [nset]
      · simp only [nset, if_neg hk, List.map_cons, ih]
        by_cases hmem : k ∈ rest.map (·.1)
        · rw [if_pos hmem, if_pos (by simp [hmem])]
        · rw [if_neg hmem, if_neg (by
            simp only [List.mem_cons]
            rintro (he | he)
            · exact hk he.symm
            · exact hmem he)]
          rfl

theorem nget_bump_self (m : List (Nat × ℚ)) (j : Nat) (w : ℚ) :
    (nget (bump m j w) j).getD 0 = (nget m j).getD 0 + w := by
  unfold bump
  rw [nget_nset_self]
  rfl

theorem nget_bump_other (m : List (Nat × ℚ)) (j : Nat) (w : ℚ) (k : Nat) (h : k ≠ j) :
    nget (bump m j w) k = nget m k := by
  unfold bump
  exact nget_nset_other m j _ k h

theorem bump_keys (m : List (Nat × ℚ)) (j : Nat) (w : ℚ) :
    (bump m j w).map (·.1) =
      if j ∈ m.map (·.1) then m.map (·.1) else m.map (·.1) ++ [j] :=
  nset_keys m j _

theorem scoreOf_foldl_bump : ∀ (evs : List (Nat × ℚ)) (m : List (Nat × ℚ)) (j : Nat),
    (nget (evs.foldl (fun acc e => bump acc e.1 e.2) m) j).getD 0
      = (nget m j).getD 0 + ((evs.filter (fun e => decide (e.1 = j))).map (·.2)).sum := by
  intro evs
  induction evs with
  | nil =>
    intro m j
    simp
  | cons e rest ih =>
    intro m j
    simp only [List.foldl_cons, List.filter_cons]
    rw [ih]
    by_cases he : e.1 = j
    · rw [if_pos (by simpa using he), List.map_cons, List.sum_cons]
      subst he
      rw [nget_bump_self]
      ring
    · rw [if_neg (by simpa using he)]
      rw [show nget (bump m e.1 e.2) j = nget m j from
        nget_bump_other m e.1 e.2 j (fun h2 => he h2.symm)]

theorem keys_foldl_bump : ∀ (evs : List (Nat × ℚ)) (m : List (Nat × ℚ)) (j : Nat),
    j ∈ (evs.foldl (fun acc e => bump acc e.1 e.2) m).map (·.1) ↔
      j ∈ m.map (·.1) ∨ j ∈ evs.map (·.1) := by
  intro evs
  induction evs with
  | nil =>
    intro m j
    simp
  | cons e rest ih =>
    intro m j
    simp only [List.foldl_cons, List.map_cons, List.mem_cons]
    rw [ih, bump_keys]
    by_cases hmem : e.1 ∈ m.map (·.1)
    · rw [if_pos hmem]
      constructor
      · rintro (h | h)
        · exact Or.inl h
        · exact Or.inr (Or.inr h)
      · rintro (h | h | h)
        · exact Or.inl h
        · exact Or.inl (h ▸ hmem)
        · exact Or.inr h
    · rw [if_neg hmem]
      simp only [List.mem_append, List.mem_singleton]
      tauto

theorem nodup_keys_foldl_bump : ∀ (evs : List (Nat × ℚ)) (m : List (Nat × ℚ)),
    (m.map (·.1)).Nodup → ((evs.foldl (fun acc e => bump acc e.1 e.2) m).map (·.1)).Nodup := by
  intro evs
  induction evs with
  | nil => intro m h; exact h
  | cons e rest ih =>
    intro m h
    simp only [List.foldl_cons]
    refine ih _ ?_
    rw [bump_keys]
    by_cases hmem : e.1 ∈ m.map (·.1)
    · rw [if_pos hmem]; exact h
    · rw [if_neg hmem]
      refine List.Nodup.append h (List.nodup_singleton e.1) ?_
      intro a ha hb
      exact hmem (by rwa [List.mem_singleton.mp hb] at ha)

theorem nget_of_mem_nodup : ∀ {m : List (Nat × ℚ)} {p : Nat × ℚ}, p ∈ m →
    (m.map (·.1)).Nodup → nget m p.1 = some p.2 := by
  intro m
  induction m with
  | nil => intro p h; simp at h
  | cons q rest ih =>
    intro p hmem hnd
    simp only [List.map_cons, List.nodup_cons] at hnd
    rcases List.mem_cons.mp hmem with rfl | hmem2
    · simp [nget, List.find?]
    · have hne : q.1 ≠ p.1 := by
        intro he
        exact hnd.1 (he ▸ List.mem_map.2 ⟨p, hmem2, rfl⟩)
      simp only [nget, List.find?]
      have hdec : (decide (q.1 = p.1)) = false := by simp [hne]
      rw [hdec]
      exact ih hmem2 hnd.2

theorem score_ge_of_mem {evs : List (Nat × ℚ)} {j : Nat} {w : ℚ}
    (hmem : (j, w) ∈ evs) (hpos : ∀ e ∈ evs, 0 ≤ e.2) :
    w ≤ ((evs.filter (fun e => decide (e.1 = j))).map (·.2)).sum := by
  refine List.single_le_sum ?_ w ?_
  · intro x hx
    rcases List.mem_map.mp hx with ⟨e, he, rfl⟩
    exact hpos e (List.mem_of_mem_filter he)
  · exact List.mem_map.2 ⟨(j, w), List.mem_filter.2 ⟨hmem, by simp⟩, rfl⟩



/-! ### Nonnegativity of Jaro-Winkler -/

theorem jwTrans_le : ∀ (l1 l2 : List (Char × Bool)),
    jwTrans l1 l2 ≤ l1.countP (fun p => p.2) := by
  intro l1
  induction l1 with
  | nil =>
    intro l2
    simp [jwTrans]
  | cons p rest ih =>
    intro l2
    obtain ⟨c1, b1⟩ := p
    have hcnt : ((c1, b1) :: rest).countP (fun p => p.2) =
        rest.countP (fun p => p.2) + if b1 then 1 else 0 := by
      rw [List.countP_cons]
    rw [hcnt]
    cases b1 with
    | false =>
      have he : jwTrans ((c1, false) :: rest) l2 = jwTrans rest l2 := by
        simp [jwTrans]
      rw [he]
      have h0 : (if (false : Bool) then 1 else 0) = 0 := rfl
      rw [h0]
      simpa using ih l2
    | true =>
      have h1 : (if (true : Bool) then 1 else 0) = 1 := rfl
      rw [h1]
      cases hd : l2.dropWhile (fun p => !p.2) with
      | nil =>
        have he : jwTrans ((c1, true) :: rest) l2 = 0 := by
          simp [jwTrans, hd]
        rw [he]
        omega
      | cons q rest2 =>
        obtain ⟨c2, bb⟩ := q
        have he : jwTrans ((c1, true) :: rest) l2 =
            (if c1 = c2 then 0 else 1) + jwTrans rest rest2 := by
          simp [jwTrans, hd]
        rw [he]
        have := ih rest2
        have h2 : (if c1 = c2 then 0 else 1) ≤ 1 := by split <;> omega
        omega

theorem countP_zip_le (l : Str) : ∀ (f : List Bool),
    (l.zip f).countP (fun p => p.2) ≤ f.countP (fun b => b) := by
  induction l with
  | nil =>
    intro f
    simp
  | cons c rest ih =>
    intro f
    cases f with
    | nil => simp
    | cons b fs =>
      simp only [List.zip_cons_cons, List.countP_cons]
      have := ih fs
      have h2 : (if (fun p : Char × Bool => p.2) (c, b) then 1 else 0) =
          (if (fun b : Bool => b) b then 1 else 0) := rfl
      rw [h2]
      omega

theorem jwM_pos_parts (u1 u2 : Str) :
    (jwT u1 u2 : ℚ) ≤ (jwM u1 u2 : ℚ) := by
  have h1 : jwT u1 u2 ≤ jwM u1 u2 := by
    unfold jwT jwM
    refine le_trans (jwTrans_le _ _) ?_
    exact countP_zip_le u1 _
  exact_mod_cast h1

theorem jwJaro_nonneg (u1 u2 : Str) : 0 ≤ jwJaro u1 u2 := by
  unfold jwJaro
  have ht := jwM_pos_parts u1 u2
  have h1 : (0 : ℚ) ≤ (jwM u1 u2 : ℚ) / u1.length :=
    div_nonneg (by positivity) (by positivity)
  have h2 : (0 : ℚ) ≤ (jwM u1 u2 : ℚ) / u2.length :=
    div_nonneg (by positivity) (by positivity)
  have h3 : (0 : ℚ) ≤ ((jwM u1 u2 : ℚ) - (jwT u1 u2 : ℚ) / 2) / (jwM u1 u2 : ℚ) := by
    refine div_nonneg ?_ (by positivity)
    have : (0:ℚ) ≤ (jwT u1 u2 : ℚ) := by positivity
    linarith
  linarith

theorem jwPrefix_le (u1 u2 : Str) : (jwPrefix u1 u2 : ℚ) ≤ 4 := by
  have : jwPrefix u1 u2 ≤ 4 := min_le_right _ _
  exact_mod_cast this

theorem jaro_winkler_nonneg (s1 s2 : Str) : 0 ≤ jaro_winkler s1 s2 := by
  unfold jaro_winkler
  by_cases h1 : upperS s1 = upperS s2
  · rw [if_pos h1]
    norm_num
  · rw [if_neg h1]
    by_cases h2 : upperS s1 = [] ∨ upperS s2 = []
    · rw [if_pos h2]
    · rw [if_neg h2]
      by_cases h3 : jwM (upperS s1) (upperS s2) = 0
      · rw [if_pos h3]
      · rw [if_neg h3]
        have hj := jwJaro_nonneg (upperS s1) (upperS s2)
        have hp : (0:ℚ) ≤ (jwPrefix (upperS s1) (upperS s2) : ℚ) := by positivity
        have hp4 := jwPrefix_le (upperS s1) (upperS s2)
        nlinarith

theorem le_foldl_max {α : Type} (f : α → ℚ) :
    ∀ (l : List α) (b : ℚ), b ≤ l.foldl (fun acc x => max acc (f x)) b := by
  intro l
  induction l with
  | nil =>
    intro b
    exact le_refl b
  | cons x xs ih =>
    intro b
    refine le_trans (le_max_left b (f x)) ?_
    exact ih (max b (f x))

theorem le_foldl_of_step {α : Type} (g : ℚ → α → ℚ) (hg : ∀ b x, b ≤ g b x) :
    ∀ (l : List α) (b : ℚ), b ≤ l.foldl g b := by
  intro l
  induction l with
  | nil =>
    intro b
    exact le_refl b
  | cons x xs ih =>
    intro b
    exact le_trans (hg b x) (ih (g b x))

theorem bestAliasJW_nonneg (mgr : ManufacturerAliasManager) (a b : Rec) :
    0 ≤ bestAliasJW mgr a b := by
  unfold bestAliasJW
  exact le_foldl_of_step _ (fun b2 alA => le_foldl_max _ _ b2) _ 0



/-! ### Event weight characterization -/

theorem evGtin_w {gidx : List (Str × List Nat)} {a : Rec} {e : Nat × ℚ}
    (h : e ∈ evGtin gidx a) : e.2 = 10 := by
  unfold evGtin at h
  by_cases hv : gtinValid (gtinKey a) = true
  · rw [if_pos hv] at h
    rcases List.mem_map.mp h with ⟨j, _, rfl⟩
    rfl
  · rw [if_neg hv] at h
    simp at h

theorem evMfr_w {midx : List (Str × List Nat)} {am : Option ManufacturerAliasManager}
    {a : Rec} {e : Nat × ℚ} (h : e ∈ evMfr midx am a) :
    e.2 = 1 ∨ e.2 = (8 : ℚ) / 10 := by
  unfold evMfr at h
  by_cases hv : mfr_norm a ≠ []
  · rw [if_pos hv] at h
    rcases List.mem_append.mp h with h1 | h1
    · rcases List.mem_map.mp h1 with ⟨j, _, rfl⟩
      exact Or.inl rfl
    · cases am with
      | none => simp at h1
      | some mgr =>
        dsimp only at h1
        rcases List.mem_append.mp h1 with h2 | h2
        · cases hc : get_canonical_name mgr a.manufacturer with
          | none =>
            rw [hc] at h2
            simp at h2
          | some c =>
            rw [hc] at h2
            dsimp only at h2
            by_cases hcc : c ≠ [] ∧ c ≠ mfr_norm a
            · rw [if_pos hcc] at h2
              rcases List.mem_map.mp h2 with ⟨j, _, rfl⟩
              exact Or.inl rfl
            · rw [if_neg hcc] at h2
              simp at h2
        · rcases List.mem_flatMap.mp h2 with ⟨al, _, h3⟩
          by_cases hal : al ≠ mfr_norm a
          · rw [if_pos hal] at h3
            rcases List.mem_map.mp h3 with ⟨j, _, rfl⟩
            exact Or.inr rfl
          · rw [if_neg hal] at h3
            simp at h3
  · rw [if_neg hv] at h
    simp at h

theorem evUnspsc_w {u8 u6 u4 u2 : List (Str × List Nat)} {a : Rec} {e : Nat × ℚ}
    (h : e ∈ evUnspsc u8 u6 u4 u2 a) :
    e.2 = 3 ∨ e.2 = 2 ∨ e.2 = (3 : ℚ) / 2 ∨ e.2 = 1 := by
  unfold evUnspsc at h
  by_cases hv : unspsc_clean a ≠ [] ∧ (unspsc_clean a).length = 8
  · rw [if_pos hv] at h
    rcases List.mem_append.mp h with h1 | h1
    · rcases List.mem_append.mp h1 with h2 | h2
      · rcases List.mem_append.mp h2 with h3 | h3
        · rcases List.mem_map.mp h3 with ⟨j, _, rfl⟩
          exact Or.inl rfl
        · rcases List.mem_map.mp h3 with ⟨j, _, rfl⟩
          exact Or.inr (Or.inl rfl)
      · rcases List.mem_map.mp h2 with ⟨j, _, rfl⟩
        exact Or.inr (Or.inr (Or.inl rfl))
    · rcases List.mem_map.mp h1 with ⟨j, _, rfl⟩
      exact Or.inr (Or.inr (Or.inr rfl))
  · rw [if_neg hv] at h
    simp at h

theorem evJw_w {jw_mfr : ℚ} {am : Option ManufacturerAliasManager} {dfb : List Rec}
    {a : Rec} {e : Nat × ℚ} (h : e ∈ evJw jw_mfr am dfb a) :
    0 ≤ e.2 ∧ (jw_mfr ≤ e.2 ∨ ∃ q, e.2 = q * ((9 : ℚ) / 10) ∧ jw_mfr ≤ q ∧ 0 ≤ q) := by
  unfold evJw at h
  rcases List.mem_flatMap.mp h with ⟨p, _, h1⟩
  by_cases hv : mfr_norm a ≠ [] ∧ mfr_norm p.2 ≠ []
  · rw [if_pos hv] at h1
    rcases List.mem_append.mp h1 with h2 | h2
    · by_cases hth : jw_mfr ≤ jaro_winkler (mfr_norm a) (mfr_norm p.2)
      · rw [if_pos hth] at h2
        rcases List.mem_singleton.mp h2 with rfl
        exact ⟨jaro_winkler_nonneg _ _, Or.inl hth⟩
      · rw [if_neg hth] at h2
        simp at h2
    · cases am with
      | none => simp at h2
      | some mgr =>
        dsimp only at h2
        by_cases hth : jw_mfr ≤ bestAliasJW mgr a p.2
        · rw [if_pos hth] at h2
          rcases List.mem_singleton.mp h2 with rfl
          refine ⟨?_, Or.inr ⟨bestAliasJW mgr a p.2, rfl, hth, bestAliasJW_nonneg mgr a p.2⟩⟩
          have := bestAliasJW_nonneg mgr a p.2
          positivity
        · rw [if_neg hth] at h2
          simp at h2
  · rw [if_neg hv] at h1
    simp at h1

theorem bk_search_dist_le {v : Str} {maxd : Nat} {bk : Option BKNode} {vd : Str × Nat}
    (h : vd ∈ BKTree.search v maxd bk) : vd.2 ≤ maxd := by
  cases bk with
  | none => simp [BKTree.search] at h
  | some n =>
    obtain ⟨s, ds⟩ := vd
    exact (bk_search_sound n v maxd s ds h).2

theorem evPn_w {pidx : List (Str × List Nat)} {bk : Option BKNode} {pn_max_edit : Nat}
    {a : Rec} {e : Nat × ℚ} (h : e ∈ evPn pidx bk pn_max_edit a) :
    e.2 = 3 ∨ ∃ d : Nat, e.2 = max 0 (2 - (d : ℚ) / 2) ∧ d ≤ pn_max_edit := by
  unfold evPn at h
  rcases List.mem_flatMap.mp h with ⟨v, _, h1⟩
  rcases List.mem_append.mp h1 with h2 | h2
  · cases hg : aget pidx v with
    | none =>
      rw [hg] at h2
      simp at h2
    | some l =>
      rw [hg] at h2
      dsimp only at h2
      rcases List.mem_map.mp h2 with ⟨j, _, rfl⟩
      exact Or.inl rfl
  · rcases List.mem_flatMap.mp h2 with ⟨vd, hvd, h3⟩
    rcases List.mem_map.mp h3 with ⟨j, _, rfl⟩
    exact Or.inr ⟨vd.2, rfl, bk_search_dist_le hvd⟩

theorem evRare_w {rset : List Str} {btoks : List (Nat × List Str)} {a : Rec}
    {e : Nat × ℚ} (h : e ∈ evRare rset btoks a) :
    ∃ n : Nat, 1 ≤ n ∧ e.2 = (1 : ℚ) / 2 * n := by
  unfold evRare at h
  by_cases hv : aRareOf rset a ≠ []
  · rw [if_pos hv] at h
    rcases List.mem_flatMap.mp h with ⟨p, _, h1⟩
    by_cases hi : (aRareOf rset a).filter (fun t => t ∈ p.2) ≠ []
    · rw [if_pos hi] at h1
      rcases List.mem_singleton.mp h1 with rfl
      refine ⟨((aRareOf rset a).filter (fun t => t ∈ p.2)).length, ?_, rfl⟩
      rcases List.exists_cons_of_ne_nil hi with ⟨x, xs, hx⟩
      rw [hx]
      simp
    · rw [if_neg hi] at h1
      simp at h1
  · rw [if_neg hv] at h
    simp at h

theorem evSyn_w {mfrM pnM : List Nat} {e : Nat × ℚ} (h : e ∈ evSyn mfrM pnM) :
    e.2 = 5 := by
  unfold evSyn at h
  rcases List.mem_filterMap.mp h with ⟨j, _, h1⟩
  by_cases hj : j ∈ pnM
  · rw [if_pos hj] at h1
    cases h1
    rfl
  · rw [if_neg hj] at h1
    cases h1

theorem eventsOf_nonneg (jw_mfr : ℚ) (pn_max_edit : Nat)
    (am : Option ManufacturerAliasManager) (dfb : List Rec) (a : Rec) :
    ∀ e ∈ eventsOf jw_mfr pn_max_edit am dfb a, 0 ≤ e.2 := by
  intro e h
  unfold eventsOf at h
  rcases List.mem_append.mp h with h1 | h1
  swap
  · rw [evSyn_w h1]
    norm_num
  rcases List.mem_append.mp h1 with h2 | h2
  swap
  · rcases evRare_w h2 with ⟨n, hn, he⟩
    rw [he]
    positivity
  rcases List.mem_append.mp h2 with h3 | h3
  swap
  · rcases evPn_w h3 with he | ⟨d, he, _⟩
    · rw [he]
      norm_num
    · rw [he]
      exact le_max_left 0 _
  rcases List.mem_append.mp h3 with h4 | h4
  swap
  · exact (evJw_w h4).1
  rcases List.mem_append.mp h4 with h5 | h5
  swap
  · rcases evUnspsc_w h5 with he | he | he | he <;> rw [he] <;> norm_num
  rcases List.mem_append.mp h5 with h6 | h6
  · rw [evGtin_w h6]
    norm_num
  · rcases evMfr_w h6 with he | he <;> rw [he] <;> norm_num

theorem eventsOf_pos (jw_mfr : ℚ) (pn_max_edit : Nat)
    (am : Option ManufacturerAliasManager) (dfb : List Rec) (a : Rec)
    (hjw : 0 < jw_mfr) (hpn : pn_max_edit ≤ 3) :
    ∀ e ∈ eventsOf jw_mfr pn_max_edit am dfb a, 0 < e.2 := by
  intro e h
  unfold eventsOf at h
  rcases List.mem_append.mp h with h1 | h1
  swap
  · rw [evSyn_w h1]
    norm_num
  rcases List.mem_append.mp h1 with h2 | h2
  swap
  · rcases evRare_w h2 with ⟨n, hn, he⟩
    rw [he]
    have : (1:ℚ) ≤ (n:ℚ) := by exact_mod_cast hn
    nlinarith
  rcases List.mem_append.mp h2 with h3 | h3
  swap
  · rcases evPn_w h3 with he | ⟨d, he, hd⟩
    · rw [he]
      norm_num
    · rw [he]
      have hd3 : d ≤ 3 := le_trans hd hpn
      have : (d:ℚ) ≤ 3 := by exact_mod_cast hd3
      have h2d : (0:ℚ) < 2 - (d:ℚ)/2 := by linarith
      calc (0:ℚ) < 2 - (d:ℚ)/2 := h2d
        _ ≤ max 0 (2 - (d:ℚ)/2) := le_max_right 0 _
  rcases List.mem_append.mp h3 with h4 | h4
  swap
  · rcases evJw_w h4 with ⟨hge, hcase⟩
    rcases hcase with hth | ⟨q, he, hq1, hq2⟩
    · linarith
    · rw [he]
      nlinarith
  rcases List.mem_append.mp h4 with h5 | h5
  swap
  · rcases evUnspsc_w h5 with he | he | he | he <;> rw [he] <;> norm_num
  rcases List.mem_append.mp h5 with h6 | h6
  · rw [evGtin_w h6]
    norm_num
  · rcases evMfr_w h6 with he | he <;> rw [he] <;> norm_num



/-! ### Index lookup lemmas -/

theorem aget_aset_other {α : Type} (l : List (Str × α)) (k : Str) (v : α) (k' : Str)
    (h : k' ≠ k) : aget (aset l k v) k' = aget l k' := by
  induction l with
  | nil =>
    simp only [aset, aget, List.find?]
    have hdec : (decide (k = k')) = false := decide_eq_false (fun he => h he.symm)
    rw [hdec]
  | cons p rest ih =>
    cases p with
    | mk k0 v0 =>
      by_cases hk : k0 = k
      · subst hk
        simp only [aset, if_pos rfl]
        simp only [aget, List.find?]
        have hdec : (decide (k0 = k')) = false := decide_eq_false (fun he => h he.symm)
        rw [hdec]
      · simp only [aset, if_neg hk]
        simp only [aget, List.find?] at ih ⊢
        by_cases h0 : k0 = k'
        · subst h0
          simp
        · have hdec : (decide (k0 = k')) = false := decide_eq_false h0
          rw [hdec]
          exact ih

theorem mem_ipush_self (m : List (Str × List Nat)) (k : Str) (j : Nat) :
    j ∈ (aget (ipush m k j) k).getD [] := by
  unfold ipush
  rw [aget_aset_self]
  simp

theorem mem_ipush_mono (m : List (Str × List Nat)) (k : Str) (j : Nat) (k' : Str)
    (x : Nat) (h : x ∈ (aget m k').getD []) : x ∈ (aget (ipush m k j) k').getD [] := by
  unfold ipush
  by_cases hk : k' = k
  · subst hk
    rw [aget_aset_self]
    simp only [Option.getD_some]
    exact List.mem_append.2 (Or.inl h)
  · rw [aget_aset_other m k _ k' hk]
    exact h

theorem mem_idxBy_aux (f : Rec → Option Str) :
    ∀ (l : List (Nat × Rec)) (m : List (Str × List Nat)) (j : Nat) (k : Str),
      (j ∈ (aget m k).getD [] ∨ ∃ b, (j, b) ∈ l ∧ f b = some k) →
      j ∈ (aget (l.foldl (fun m2 p =>
        match f p.2 with
        | some k2 => ipush m2 k2 p.1
        | none => m2) m) k).getD [] := by
  intro l
  induction l with
  | nil =>
    intro m j k h
    rcases h with h | ⟨b, hb, _⟩
    · exact h
    · simp at hb
  | cons p rest ih =>
    intro m j k h
    simp only [List.foldl_cons]
    rcases h with h | ⟨b, hb, hf⟩
    · refine ih _ j k (Or.inl ?_)
      cases hfp : f p.2 with
      | none => exact h
      | some k2 => exact mem_ipush_mono m k2 p.1 k j h
    · rcases List.mem_cons.mp hb with heq | hmem
      · subst heq
        refine ih _ j k (Or.inl ?_)
        have hp2 : f ((j, b) : Nat × Rec).2 = some k := hf
        rw [hp2]
        exact mem_ipush_self m k j
      · exact ih _ j k (Or.inr ⟨b, hmem, hf⟩)

theorem mem_idxBy {f : Rec → Option Str} {dfb : List Rec} {j : Nat} {b : Rec} {k : Str}
    (hjb : (j, b) ∈ dfb.enum) (hf : f b = some k) :
    j ∈ (aget (idxBy f dfb) k).getD [] := by
  unfold idxBy
  exact mem_idxBy_aux f dfb.enum [] j k (Or.inr ⟨b, hjb, hf⟩)

/-! ### Sort transport -/

theorem sorted_scores (cs : List (Nat × ℚ)) :
    (cs.insertionSort (fun p q => q.2 ≤ p.2)).Pairwise (fun p q => q.2 ≤ p.2) := by
  haveI : IsTotal (Nat × ℚ) (fun p q => q.2 ≤ p.2) :=
    ⟨fun a b => (le_total b.2 a.2).imp id id⟩
  haveI : IsTrans (Nat × ℚ) (fun p q => q.2 ≤ p.2) :=
    ⟨fun a b c hab hbc => le_trans hbc hab⟩
  exact List.sorted_insertionSort _ cs

theorem perm_sort_scores (cs : List (Nat × ℚ)) :
    (cs.insertionSort (fun p q => q.2 ≤ p.2)).Perm cs :=
  List.perm_insertionSort _ cs



/-- **C1** (amended).  A `B` item with the same valid GTIN key as the `A`
item always accumulates a score of at least `10.0` in `cand_scores`,
whatever the other fields, the configuration and the alias manager; and it
appears in the returned candidate list whenever the number of scored
candidates does not exceed `max_cands_per_item`.  (Without that proviso the
original claim fails: the returned list is truncated to the top
`max_cands_per_item` entries — see the counterexample.) -/
theorem c1_gtin_match_scoring (jw_mfr : ℚ) (pn_max_edit max_cands : Nat)
    (am : Option ManufacturerAliasManager) (dfb : List Rec) (a b : Rec) (j : Nat)
    (hav : gtinValid (gtinKey a) = true)
    (hjb : (j, b) ∈ dfb.enum)
    (heq : gtinKey b = gtinKey a) :
    10 ≤ (nget (candScoresOf jw_mfr pn_max_edit am dfb a) j).getD 0 ∧
    ((candScoresOf jw_mfr pn_max_edit am dfb a).length ≤ max_cands →
      j ∈ candidatesFor jw_mfr pn_max_edit max_cands am dfb a) := by
  have hvb : gtinValid (gtinKey b) = true := by rw [heq]; exact hav
  have hj_idx : j ∈ (aget (gtinIndex dfb) (gtinKey a)).getD [] := by
    unfold gtinIndex
    exact mem_idxBy hjb (by rw [if_pos hvb, heq])
  have hev : ((j, (10 : ℚ))) ∈ eventsOf jw_mfr pn_max_edit am dfb a := by
    unfold eventsOf
    refine List.mem_append.2 (Or.inl (List.mem_append.2 (Or.inl (List.mem_append.2
      (Or.inl (List.mem_append.2 (Or.inl (List.mem_append.2 (Or.inl
      (List.mem_append.2 (Or.inl ?_)))))))))))
    unfold evGtin
    rw [if_pos hav]
    exact List.mem_map.2 ⟨j, hj_idx, rfl⟩
  constructor
  · unfold candScoresOf
    rw [scoreOf_foldl_bump]
    have h10 := score_ge_of_mem hev (eventsOf_nonneg jw_mfr pn_max_edit am dfb a)
    have h0 : (nget ([] : List (Nat × ℚ)) j).getD 0 = 0 := rfl
    rw [h0]
    linarith
  · intro hlen
    unfold candidatesFor
    have hkey : j ∈ (candScoresOf jw_mfr pn_max_edit am dfb a).map (·.1) := by
      unfold candScoresOf
      rw [keys_foldl_bump]
      exact Or.inr (List.mem_map.2 ⟨(j, 10), hev, rfl⟩)
    have hne : candScoresOf jw_mfr pn_max_edit am dfb a ≠ [] := by
      intro h0
      rw [h0] at hkey
      simp at hkey
    rw [if_pos hne]
    have hlen2 : ((candScoresOf jw_mfr pn_max_edit am dfb a).insertionSort
        (fun p q => q.2 ≤ p.2)).length ≤ max_cands := by
      rw [(perm_sort_scores _).length_eq]
      exact hlen
    rw [List.take_of_length_le hlen2]
    rcases List.mem_map.mp hkey with ⟨p, hp, hp1⟩
    exact List.mem_map.2 ⟨p, (perm_sort_scores _).mem_iff.2 hp, hp1⟩

/-- **C4** (amended).  The candidate list of every `A` item holds at most
`max_cands_per_item` entries and is ordered by descending accumulated score;
and whenever `0 < jw_mfr` and the fuzzy edit bound is at most 3, every
returned candidate has strictly positive accumulated score.  (For
`pn_max_edit ≥ 4` a zero-score candidate can be returned — see the
counterexample — so the unconditional zero-exclusion of the original claim
is false.) -/
theorem c4_candidate_list_shape (jw_mfr : ℚ) (pn_max_edit max_cands : Nat)
    (am : Option ManufacturerAliasManager) (dfb : List Rec) (a : Rec) :
    (candidatesFor jw_mfr pn_max_edit max_cands am dfb a).length ≤ max_cands ∧
    (candidatesFor jw_mfr pn_max_edit max_cands am dfb a).Pairwise (fun j j' =>
      (nget (candScoresOf jw_mfr pn_max_edit am dfb a) j').getD 0 ≤
      (nget (candScoresOf jw_mfr pn_max_edit am dfb a) j).getD 0) ∧
    (0 < jw_mfr → pn_max_edit ≤ 3 →
      ∀ j ∈ candidatesFor jw_mfr pn_max_edit max_cands am dfb a,
        0 < (nget (candScoresOf jw_mfr pn_max_edit am dfb a) j).getD 0) := by
  by_cases hne : candScoresOf jw_mfr pn_max_edit am dfb a = []
  · unfold candidatesFor
    rw [if_neg (by simpa using hne)]
    refine ⟨by simp, List.Pairwise.nil, fun _ _ j hj => absurd hj (by simp)⟩
  · unfold candidatesFor
    rw [if_pos hne]
    have hnodup : ((candScoresOf jw_mfr pn_max_edit am dfb a).map (·.1)).Nodup := by
      unfold candScoresOf
      exact nodup_keys_foldl_bump _ [] (by simp)
    have hperm := perm_sort_scores (candScoresOf jw_mfr pn_max_edit am dfb a)
    have hsorted := sorted_scores (candScoresOf jw_mfr pn_max_edit am dfb a)
    refine ⟨?_, ?_, ?_⟩
    · rw [List.length_map, List.length_take]
      exact min_le_left _ _
    · have htake : (((candScoresOf jw_mfr pn_max_edit am dfb a).insertionSort
          (fun p q => q.2 ≤ p.2)).take max_cands).Pairwise (fun p q => q.2 ≤ p.2) :=
        List.Pairwise.sublist (List.take_sublist _ _) hsorted
      rw [List.pairwise_map]
      refine List.Pairwise.imp_of_mem ?_ htake
      intro p q hp hq hr
      have hpcs : p ∈ candScoresOf jw_mfr pn_max_edit am dfb a :=
        hperm.mem_iff.1 (List.mem_of_mem_take hp)
      have hqcs : q ∈ candScoresOf jw_mfr pn_max_edit am dfb a :=
        hperm.mem_iff.1 (List.mem_of_mem_take hq)
      rw [nget_of_mem_nodup hpcs hnodup, nget_of_mem_nodup hqcs hnodup]
      exact hr
    · intro hjw hpn j hj
      rcases List.mem_map.mp hj with ⟨p, hp, hp1⟩
      have hpcs : p ∈ candScoresOf jw_mfr pn_max_edit am dfb a :=
        hperm.mem_iff.1 (List.mem_of_mem_take hp)
      have hkey : j ∈ (candScoresOf jw_mfr pn_max_edit am dfb a).map (·.1) :=
        List.mem_map.2 ⟨p, hpcs, hp1⟩
      have hkey2 : j ∈ (eventsOf jw_mfr pn_max_edit am dfb a).map (·.1) := by
        unfold candScoresOf at hkey
        rcases (keys_foldl_bump _ [] j).1 hkey with h0 | h0
        · simp at h0
        · exact h0
      rcases List.mem_map.mp hkey2 with ⟨e, he, he1⟩
      have hepos := eventsOf_pos jw_mfr pn_max_edit am dfb a hjw hpn e he
      have hemem : (j, e.2) ∈ eventsOf jw_mfr pn_max_edit am dfb a := by
        rw [← he1]
        exact he
      have hge := score_ge_of_mem hemem (eventsOf_nonneg jw_mfr pn_max_edit am dfb a)
      unfold candScoresOf
      rw [scoreOf_foldl_bump]
      have h0 : (nget ([] : List (Nat × ℚ)) j).getD 0 = 0 := rfl
      rw [h0]
      linarith



/-- **C1** counterexample to the original claim: one `A` item and two
identical `B` items sharing its valid GTIN `"1"`, with
`max_cands_per_item = 1`: the `B` item at index 1 carries the same valid
GTIN yet is absent from the returned candidate list (only the top-1
candidate survives the truncation). -/
theorem c1_gtin_match_scoring_counterexample :
    gtinValid (gtinKey (Rec.mk [] [] [] ['1'] [] [])) = true ∧
    generate_candidates [Rec.mk [] [] [] ['1'] [] []]
      [Rec.mk [] [] [] ['1'] [] [], Rec.mk [] [] [] ['1'] [] []] 1 1 1 none
      = [(0, [0])] ∧
    1 ∉ candidatesFor 1 1 1 none
      [Rec.mk [] [] [] ['1'] [] [], Rec.mk [] [] [] ['1'] [] []]
      (Rec.mk [] [] [] ['1'] [] []) := by
  have hev : eventsOf 1 1 none
      [Rec.mk [] [] [] ['1'] [] [], Rec.mk [] [] [] ['1'] [] []]
      (Rec.mk [] [] [] ['1'] [] []) = [(0, 10), (1, 10)] := by decide
  have hcs : candScoresOf 1 1 none
      [Rec.mk [] [] [] ['1'] [] [], Rec.mk [] [] [] ['1'] [] []]
      (Rec.mk [] [] [] ['1'] [] []) = [(0, 10), (1, 10)] := by
    unfold candScoresOf
    rw [hev]
    show bump (bump [] 0 10) 1 10 = [(0, 10), (1, 10)]
    norm_num [bump, nget, nset, List.find?]
  have hsort : ([(0, (10:ℚ)), (1, 10)] : List (Nat × ℚ)).insertionSort
      (fun p q => q.2 ≤ p.2) = [(0, 10), (1, 10)] := by
    show List.orderedInsert _ (0, (10:ℚ))
      (List.orderedInsert _ (1, (10:ℚ)) []) = [(0, 10), (1, 10)]
    norm_num [List.orderedInsert]
  have hcf : candidatesFor 1 1 1 none
      [Rec.mk [] [] [] ['1'] [] [], Rec.mk [] [] [] ['1'] [] []]
      (Rec.mk [] [] [] ['1'] [] []) = [0] := by
    unfold candidatesFor
    rw [hcs, if_pos (by simp : ([(0, (10:ℚ)), (1, 10)] : List (Nat × ℚ)) ≠ []), hsort]
    rfl
  refine ⟨by decide, ?_, ?_⟩
  · unfold generate_candidates
    rw [show ([Rec.mk [] [] [] ['1'] [] []] : List Rec).enum
        = [(0, Rec.mk [] [] [] ['1'] [] [])] from rfl]
    rw [List.map_cons, List.map_nil, hcf]
  · rw [hcf]
    decide



/-- **C4** counterexample to the zero-exclusion part of the original claim:
with `pn_max_edit = 4`, part numbers `11111` (A) and `22221` (B) are at
Levenshtein distance 4, the fuzzy-match event contributes
`max(0.0, 2.0 - 0.5 * 4) = 0.0`, and the `B` item is returned with an
accumulated score of exactly `0`. -/
theorem c4_candidate_list_shape_counterexample :
    candidatesFor 1 4 200 none [Rec.mk [] "22221".toList [] [] [] []]
      (Rec.mk [] "11111".toList [] [] [] []) = [0] ∧
    (nget (candScoresOf 1 4 none [Rec.mk [] "22221".toList [] [] [] []]
      (Rec.mk [] "11111".toList [] [] [] [])) 0).getD 0 = 0 := by
  have hpn : evPn (pnState [Rec.mk [] "22221".toList [] [] [] []]).1
      (pnState [Rec.mk [] "22221".toList [] [] [] []]).2 4
      (Rec.mk [] "11111".toList [] [] [] [])
      = [(0, max 0 (2 - ((4 : Nat) : ℚ) / 2))] := by
    unfold evPn
    rw [show pnvsOf (Rec.mk [] "11111".toList [] [] [] []) = ["11111".toList] from by decide]
    rw [show pnState [Rec.mk [] "22221".toList [] [] [] []]
        = ([("22221".toList, [0])], some (BKNode.node "22221".toList [])) from rfl]
    dsimp only
    simp only [List.flatMap_cons, List.flatMap_nil, List.append_nil]
    rw [show aget [("22221".toList, [(0 : Nat)])] "11111".toList = none from by decide]
    rw [show BKTree.search "11111".toList 4 (some (BKNode.node "22221".toList []))
        = [("22221".toList, 4)] from by decide]
    simp only [List.flatMap_cons, List.flatMap_nil, List.append_nil, List.nil_append]
    rw [show aget [("22221".toList, [(0 : Nat)])] "22221".toList = some [0] from by decide]
    rfl
  have hev : eventsOf 1 4 none [Rec.mk [] "22221".toList [] [] [] []]
      (Rec.mk [] "11111".toList [] [] [] [])
      = [(0, max 0 (2 - ((4 : Nat) : ℚ) / 2))] := by
    unfold eventsOf
    rw [hpn]
    rw [show evGtin (gtinIndex [Rec.mk [] "22221".toList [] [] [] []])
        (Rec.mk [] "11111".toList [] [] [] []) = [] from by decide]
    rw [show evMfr (mfrIndex none [Rec.mk [] "22221".toList [] [] [] []]) none
        (Rec.mk [] "11111".toList [] [] [] []) = [] from by decide]
    rw [show evUnspsc (idxBy (unspscKey 8) [Rec.mk [] "22221".toList [] [] [] []])
        (idxBy (unspscKey 6) [Rec.mk [] "22221".toList [] [] [] []])
        (idxBy (unspscKey 4) [Rec.mk [] "22221".toList [] [] [] []])
        (idxBy (unspscKey 2) [Rec.mk [] "22221".toList [] [] [] []])
        (Rec.mk [] "11111".toList [] [] [] []) = [] from by decide]
    rw [show evJw 1 none [Rec.mk [] "22221".toList [] [] [] []]
        (Rec.mk [] "11111".toList [] [] [] []) = [] from by decide]
    rw [show evRare (rareSet ([Rec.mk [] "22221".toList [] [] [] []].map textAll))
        (bTokenSets (rareSet ([Rec.mk [] "22221".toList [] [] [] []].map textAll))
          [Rec.mk [] "22221".toList [] [] [] []])
        (Rec.mk [] "11111".toList [] [] [] []) = [] from by decide]
    simp only [List.nil_append, List.append_nil]
    rw [show evSyn (([] : List (Nat × ℚ)).map (·.1))
        (([(0, max 0 (2 - ((4 : Nat) : ℚ) / 2))] : List (Nat × ℚ)).map (·.1)) = [] from rfl]
    simp
  have hval : (0 : ℚ) + max 0 (2 - ((4 : Nat) : ℚ) / 2) = 0 := by
    have h2 : (2 - ((4 : Nat) : ℚ) / 2) = 0 := by push_cast; norm_num
    rw [h2, max_self, add_zero]
  have hcs : candScoresOf 1 4 none [Rec.mk [] "22221".toList [] [] [] []]
      (Rec.mk [] "11111".toList [] [] [] []) = [(0, 0)] := by
    unfold candScoresOf
    rw [hev]
    show bump [] 0 (max 0 (2 - ((4 : Nat) : ℚ) / 2)) = [(0, 0)]
    unfold bump nget nset
    simp only [List.find?, Option.map, Option.getD]
    rw [hval]
  constructor
  · unfold candidatesFor
    rw [hcs, if_pos (by simp : ([(0, (0:ℚ))] : List (Nat × ℚ)) ≠ [])]
    rfl
  · rw [hcs]
    rfl



/-- **C1** witness: the amended theorem applied to a concrete catalog
(single `B` item with matching GTIN, `max_cands_per_item = 200`). -/
theorem c1_gtin_match_scoring_witness :
    10 ≤ (nget (candScoresOf 1 1 none [Rec.mk [] [] [] ['1'] [] []]
      (Rec.mk [] [] [] ['1'] [] [])) 0).getD 0 ∧
    0 ∈ candidatesFor 1 1 200 none [Rec.mk [] [] [] ['1'] [] []]
      (Rec.mk [] [] [] ['1'] [] []) := by
  have hev : eventsOf 1 1 none [Rec.mk [] [] [] ['1'] [] []]
      (Rec.mk [] [] [] ['1'] [] []) = [(0, 10)] := by decide
  have h := c1_gtin_match_scoring 1 1 200 none [Rec.mk [] [] [] ['1'] [] []]
    (Rec.mk [] [] [] ['1'] [] []) (Rec.mk [] [] [] ['1'] [] []) 0
    (by decide) (List.mem_singleton.mpr rfl) rfl
  refine ⟨h.1, h.2 ?_⟩
  unfold candScoresOf
  rw [hev]
  show (bump [] 0 10).length ≤ 200
  decide

/-- **C4** witness: the amended theorem applied to a concrete catalog, with
the positivity conditions `0 < 1` and `1 ≤ 3` discharged. -/
theorem c4_candidate_list_shape_witness :
    (candidatesFor 1 1 200 none [Rec.mk [] [] [] ['1'] [] []]
      (Rec.mk [] [] [] ['1'] [] [])).length ≤ 200 ∧
    (candidatesFor 1 1 200 none [Rec.mk [] [] [] ['1'] [] []]
      (Rec.mk [] [] [] ['1'] [] [])).Pairwise (fun j j' =>
      (nget (candScoresOf 1 1 none [Rec.mk [] [] [] ['1'] [] []]
        (Rec.mk [] [] [] ['1'] [] [])) j').getD 0 ≤
      (nget (candScoresOf 1 1 none [Rec.mk [] [] [] ['1'] [] []]
        (Rec.mk [] [] [] ['1'] [] [])) j).getD 0) ∧
    (∀ j ∈ candidatesFor 1 1 200 none [Rec.mk [] [] [] ['1'] [] []]
        (Rec.mk [] [] [] ['1'] [] []),
      0 < (nget (candScoresOf 1 1 none [Rec.mk [] [] [] ['1'] [] []]
        (Rec.mk [] [] [] ['1'] [] [])) j).getD 0) := by
  have h := c4_candidate_list_shape 1 1 200 none [Rec.mk [] [] [] ['1'] [] []]
    (Rec.mk [] [] [] ['1'] [] [])
  exact ⟨h.1, h.2.1, h.2.2 (by norm_num) (by decide)⟩


end PER
